import Mathlib

/-!
Verification development for the fillWise rewrite-orchestration and
integrity pipeline. Python sources are shallowly embedded: strings are
lists of characters, machine floats used for monotonic clocks are
rationals, and SQL-backed state is explicit. Each embedded definition is
annotated with the source file and function it translates.
-/

set_option maxRecDepth 20000

/-- Strings are modelled as lists of characters. -/
abbrev Str := List Char

namespace FillWise

/-! ## Python string primitives

ASCII models of the Python `str` operations used by the embedded code.
The sources only ever test the ASCII whitespace/digit/letter classes on
the strings they manipulate, so the ASCII model is faithful on them. -/

/-- Python whitespace (`str.strip`, regex `\s`): space, tab, newline,
carriage return, vertical tab, form feed. -/
def pyWS (c : Char) : Bool :=
  c = ' ' || c = '\t' || c = '\n' || c = '\x0d' || c = '\x0b' || c = '\x0c'

/-- Python `str.lstrip()`. -/
def pyLStrip (s : Str) : Str := s.dropWhile pyWS

/-- Python `str.rstrip()`. -/
def pyRStrip (s : Str) : Str := (s.reverse.dropWhile pyWS).reverse

/-- Python `str.strip()`. -/
def pyStrip (s : Str) : Str := pyRStrip (pyLStrip s)

/-- Case-insensitively consume the literal `pat` from the front of `s`,
returning the remainder (regex `(?i)` literal matching; ASCII case fold). -/
def ciConsume : Str → Str → Option Str
  | [], s => some s
  | _ :: _, [] => none
  | p :: ps, c :: cs => if c.toLower = p.toLower then ciConsume ps cs else none

/-- Predicate form: `true` when `pat` is a case-insensitive prefix of `s`. -/
def ciLeads (pat : Str) (s : Str) : Bool := (ciConsume pat s).isSome

/-- ASCII letter or digit (regex `[A-Z0-9]` under `re.IGNORECASE`). -/
def isAsciiAlnum (c : Char) : Bool :=
  (('A' ≤ c && c ≤ 'Z') || ('a' ≤ c && c ≤ 'z') || c.isDigit)

/-- Regex word character `\w` (ASCII model): letter, digit or underscore. -/
def isWordChar (c : Char) : Bool := isAsciiAlnum c || c = '_'

/-! ## Structure detector — `app/services/ingestion/structure_detector.py` -/

/-- Enumeration `SectionType` from `app/db/models/document.py`. -/
inductive SectionType where
  | preamble
  | heading
  | clause
  | definition
  | table
  | list
  | appendix
  | unknown
  deriving DecidableEq, Repr

/-- Dataclass `ExtractedParagraph` from `app/services/ingestion/docx_extractor.py`. -/
structure ExtractedParagraph where
  text : Str
  styleName : Str
  isBold : Bool
  isItalic : Bool
  paragraphIndex : ℕ
  deriving DecidableEq, Repr

/-- Pattern `_HEADING_STYLE_RE = ^Heading\s*\d+$` (IGNORECASE) used with `.match`:
the literal "Heading", optional whitespace, at least one digit, then end of
string (`$` also matches just before one final newline). -/
def headingStyleMatch (style : Str) : Bool :=
  match ciConsume "Heading".toList style with
  | none => false
  | some r1 =>
      let r2 := r1.dropWhile pyWS
      let ds := r2.takeWhile Char.isDigit
      let r3 := r2.dropWhile Char.isDigit
      !ds.isEmpty && (r3 = ([] : Str) || r3 = ['\n'])

/-- Pattern `_PREAMBLE_RE = ^(THIS AGREEMENT|WHEREAS|RECITALS|PREAMBLE|BACKGROUND)`
(IGNORECASE) used with `.match`. -/
def preambleMatch (text : Str) : Bool :=
  ciLeads "THIS AGREEMENT".toList text || ciLeads "WHEREAS".toList text ||
  ciLeads "RECITALS".toList text || ciLeads "PREAMBLE".toList text ||
  ciLeads "BACKGROUND".toList text

/-- One alternative of `_APPENDIX_RE`: the keyword, then `\s+`, then
`[A-Z0-9]` (which under IGNORECASE also accepts lowercase letters). -/
def appendixAlt (kw : Str) (text : Str) : Bool :=
  match ciConsume kw text with
  | none => false
  | some r =>
      let w := r.takeWhile pyWS
      match r.dropWhile pyWS with
      | [] => false
      | c :: _ => !w.isEmpty && isAsciiAlnum c

/-- Pattern `_APPENDIX_RE = ^(Appendix|Schedule|Annex|Exhibit)\s+[A-Z0-9]`
(IGNORECASE) used with `.match`. -/
def appendixMatch (text : Str) : Bool :=
  appendixAlt "Appendix".toList text || appendixAlt "Schedule".toList text ||
  appendixAlt "Annex".toList text || appendixAlt "Exhibit".toList text

/-- Pattern `_NUMBERED_CLAUSE_RE = ^(\d+\.(\d+\.)*\d*|Article\s+\d+|Section\s+[\d.]+)`
(IGNORECASE) used with `.match`.  The first alternative matches exactly when
the text starts with one or more digits followed by a dot (the trailing
`(\d+\.)*\d*` can be empty); the others need the keyword, `\s+`, then a
digit (resp. a digit or dot). -/
def numberedClauseMatch (text : Str) : Bool :=
  (let ds := text.takeWhile Char.isDigit
   match text.dropWhile Char.isDigit with
   | '.' :: _ => !ds.isEmpty
   | _ => false)
  ||
  (match ciConsume "Article".toList text with
   | none => false
   | some r =>
       let w := r.takeWhile pyWS
       match r.dropWhile pyWS with
       | [] => false
       | c :: _ => !w.isEmpty && c.isDigit)
  ||
  (match ciConsume "Section".toList text with
   | none => false
   | some r =>
       let w := r.takeWhile pyWS
       match r.dropWhile pyWS with
       | [] => false
       | c :: _ => !w.isEmpty && (c.isDigit || c = '.'))

/-- One alternative of `_DEFINITION_RE` tried at the current position:
the phrase (case-insensitive) followed by a word boundary. -/
def defPhraseHere (phrase : Str) (s : Str) : Bool :=
  match ciConsume phrase s with
  | none => false
  | some [] => true
  | some (c :: _) => !isWordChar c

/-- Scan of `_DEFINITION_RE.search`: the pattern
`\b(means|shall mean|is defined as|hereinafter referred to as)\b`
(IGNORECASE) matches somewhere in the text.  `prev` is the character
before the current position (none at the start), used for the leading
word boundary; all four phrases begin with a word character, so the
boundary holds exactly when `prev` is absent or not a word character. -/
def defSearchGo (prev : Option Char) : Str → Bool
  | [] => false
  | c :: cs =>
      ((match prev with
        | none => true
        | some p => !isWordChar p)
       && (defPhraseHere "means".toList (c :: cs) ||
           defPhraseHere "shall mean".toList (c :: cs) ||
           defPhraseHere "is defined as".toList (c :: cs) ||
           defPhraseHere "hereinafter referred to as".toList (c :: cs)))
      || defSearchGo (some c) cs

/-- Search `_DEFINITION_RE.search(text)` as a Boolean. -/
def definitionSearch (text : Str) : Bool := defSearchGo none text

/-- Bullet characters of `_LIST_RE`'s first alternative. -/
def isBulletChar (c : Char) : Bool :=
  c = '-' || c = '•' || c = '◦' || c = '▪' || c = '‣' || c = '●'

/-- Roman-numeral characters of `_LIST_RE`'s third alternative. -/
def isRomanChar (c : Char) : Bool :=
  c = 'i' || c = 'v' || c = 'x' || c = 'l' ||
  c = 'I' || c = 'V' || c = 'X' || c = 'L'

/-- Pattern `_LIST_RE = ^(\s*[-•◦▪‣●]|\s*\([a-zA-Z0-9]{1,3}\)\s|\s*[ivxlIVXL]+\.\s)`
used with `.match` (case-sensitive). -/
def listMatch (text : Str) : Bool :=
  let r := text.dropWhile pyWS
  (match r with
   | [] => false
   | c :: _ => isBulletChar c)
  ||
  (match r with
   | '(' :: r1 =>
       let run := r1.takeWhile isAsciiAlnum
       (decide (1 ≤ run.length) && decide (run.length ≤ 3) &&
        (match r1.dropWhile isAsciiAlnum with
         | ')' :: c :: _ => pyWS c
         | _ => false))
   | _ => false)
  ||
  (let run := r.takeWhile isRomanChar
   (!run.isEmpty &&
    (match r.dropWhile isRomanChar with
     | '.' :: c :: _ => pyWS c
     | _ => false)))

/-- Function `_classify_paragraph` (structure_detector.py lines 66-93): the
priority-ordered first-match classification. -/
def classifyParagraph (para : ExtractedParagraph) (isFirst : Bool) : SectionType :=
  let text := pyStrip para.text
  let style := para.styleName
  if headingStyleMatch style then SectionType.heading
  else if isFirst && preambleMatch text then SectionType.preamble
  else if appendixMatch text then SectionType.appendix
  else if para.isBold && decide (text.length < 200) then SectionType.heading
  else if numberedClauseMatch text then SectionType.clause
  else if definitionSearch text then SectionType.definition
  else if listMatch text then SectionType.list
  else SectionType.clause

/-- The same classifier written as the spec describes it: an ordered rule
table searched for the first match, defaulting to CLAUSE. -/
def classifierRules : List ((ExtractedParagraph → Bool → Bool) × SectionType) :=
  [ (fun p _ => headingStyleMatch p.styleName, SectionType.heading),
    (fun p isFirst => isFirst && preambleMatch (pyStrip p.text), SectionType.preamble),
    (fun p _ => appendixMatch (pyStrip p.text), SectionType.appendix),
    (fun p _ => p.isBold && decide ((pyStrip p.text).length < 200), SectionType.heading),
    (fun p _ => numberedClauseMatch (pyStrip p.text), SectionType.clause),
    (fun p _ => definitionSearch (pyStrip p.text), SectionType.definition),
    (fun p _ => listMatch (pyStrip p.text), SectionType.list) ]

/-- First-match evaluation of a rule table, defaulting to CLAUSE. -/
def firstRuleMatch (p : ExtractedParagraph) (isFirst : Bool) :
    List ((ExtractedParagraph → Bool → Bool) × SectionType) → SectionType
  | [] => SectionType.clause
  | r :: rs => if r.1 p isFirst then r.2 else firstRuleMatch p isFirst rs

/-! ## Circuit breaker — `app/services/llm/client.py`, class `CircuitBreaker` -/

/-- Enumeration `CircuitState` from client.py: CLOSED / OPEN / HALF_OPEN. -/
inductive CircuitState where
  | closed
  | opn
  | halfOpen
  deriving DecidableEq, Repr

/-- The `CircuitBreaker` dataclass from client.py.  `threshold` and
`timeout_seconds` are the constructor parameters; `_state`, `_failure_count`
and `_last_failure_time` are the mutable fields.  The monotonic clock is a
rational passed explicitly to the operations that read it. -/
structure CircuitBreaker where
  threshold : ℕ
  timeoutSeconds : ℚ
  state : CircuitState
  failureCount : ℕ
  lastFailureTime : ℚ
  deriving DecidableEq, Repr

namespace CircuitBreaker

/-- Field defaults from the dataclass: `_state = CLOSED`,
`_failure_count = 0`, `_last_failure_time = 0.0`. -/
def init (threshold : ℕ) (timeoutSeconds : ℚ) : CircuitBreaker :=
  { threshold := threshold
    timeoutSeconds := timeoutSeconds
    state := CircuitState.closed
    failureCount := 0
    lastFailureTime := 0 }

/-- The `state` property: if `_state == OPEN` and the timeout has elapsed
since the last failure, mutate `_state` to HALF_OPEN; return the state. -/
def observeState (cb : CircuitBreaker) (now : ℚ) : CircuitState × CircuitBreaker :=
  if cb.state = CircuitState.opn ∧ now - cb.lastFailureTime ≥ (cb.timeoutSeconds : ℚ) then
    (CircuitState.halfOpen, { cb with state := CircuitState.halfOpen })
  else
    (cb.state, cb)

/-- Method `record_success`: reset the failure counter and close the circuit. -/
def recordSuccess (cb : CircuitBreaker) : CircuitBreaker :=
  { cb with failureCount := 0, state := CircuitState.closed }

/-- Method `record_failure`: increment the counter, stamp the failure time, and
open the circuit once the counter reaches the threshold. -/
def recordFailure (cb : CircuitBreaker) (now : ℚ) : CircuitBreaker :=
  let c := cb.failureCount + 1
  { cb with
      failureCount := c
      lastFailureTime := now
      state := if c ≥ cb.threshold then CircuitState.opn else cb.state }

/-- Method `allow_request`: reads the `state` property (possibly mutating
OPEN → HALF_OPEN) and allows CLOSED and HALF_OPEN. -/
def allowRequest (cb : CircuitBreaker) (now : ℚ) : Bool × CircuitBreaker :=
  let s := cb.observeState now
  (s.1 = CircuitState.closed ∨ s.1 = CircuitState.halfOpen, s.2)

/-- A run of consecutive `record_failure` calls at the given times. -/
def failSeq (cb : CircuitBreaker) : List ℚ → CircuitBreaker
  | [] => cb
  | t :: ts => failSeq (cb.recordFailure t) ts

end CircuitBreaker

/-! ## Ollama client retry loops — `app/services/llm/client.py`,
`OllamaClient.complete` (lines 317-414) and `OllamaClient.stream_completion`
(lines 220-315).

The network is modelled by an oracle `outcomes : ℕ → _` giving each
attempt's result (1-based attempt numbers, as in the Python
`for attempt in range(1, max_retries + 2)` loop), and a clock
`times : ℕ → ℚ` giving the monotonic time of each attempt's failure.
`transientError` covers the `(RequestError, httpx.HTTPError,
httpx.TimeoutException)` handler and the non-404 `ResponseError` handler,
which behave identically (record a circuit failure, re-raise as
ServiceUnavailable once `attempt > max_retries`, otherwise sleep
`2 ** (attempt - 1)` seconds and retry).  The one-time 404 fallback to the
`/v1/chat/completions` endpoint is outside the transient-error retry claim
and is not modelled. -/

/-- Result of one attempt of the non-streaming `complete` call. -/
inductive AttemptOutcome where
  | success (content : Str)
  | transientError (msg : Str)
  deriving DecidableEq, Repr

/-- Result of `OllamaClient.complete`: a response, an immediate
"circuit open" ServiceUnavailableError, or a ServiceUnavailableError
carrying the last underlying cause after retries were exhausted. -/
inductive ClientResult where
  | ok (content : Str)
  | errCircuitOpen
  | errUnavailable (lastCause : Str)
  deriving DecidableEq, Repr

/-- Observable effects of one run of `complete`: the returned/raised
result, the `asyncio.sleep` durations performed between attempts (in
order), and the circuit breaker state after the run. -/
structure ClientRun where
  result : ClientResult
  sleeps : List ℕ
  circuit : CircuitBreaker
  deriving DecidableEq, Repr

/-- The retry loop body of `OllamaClient.complete`
(`for attempt in range(1, max_retries + 2)`).  `fuel` is the number of
loop iterations still available; the fuel-exhausted case corresponds to
the `raise ServiceUnavailableError` after the loop (line 412), which is
unreachable when the loop is entered with `fuel = max_retries + 1`. -/
def completeGo (maxRetries : ℕ) (outcomes : ℕ → AttemptOutcome) (times : ℕ → ℚ) :
    ℕ → ℕ → CircuitBreaker → ClientRun
  | 0, _, cb => ⟨ClientResult.errUnavailable [], [], cb⟩
  | fuel + 1, attempt, cb =>
    match outcomes attempt with
    | AttemptOutcome.success c => ⟨ClientResult.ok c, [], cb.recordSuccess⟩
    | AttemptOutcome.transientError msg =>
      let cb' := cb.recordFailure (times attempt)
      if attempt > maxRetries then ⟨ClientResult.errUnavailable msg, [], cb'⟩
      else
        let r := completeGo maxRetries outcomes times fuel (attempt + 1) cb'
        ⟨r.result, 2 ^ (attempt - 1) :: r.sleeps, r.circuit⟩

/-- Method `OllamaClient.complete`: check the circuit breaker, then run the retry
loop starting at attempt 1. -/
def complete (maxRetries : ℕ) (outcomes : ℕ → AttemptOutcome) (times : ℕ → ℚ)
    (cb : CircuitBreaker) (now : ℚ) : ClientRun :=
  let a := cb.allowRequest now
  if a.1 then completeGo maxRetries outcomes times (maxRetries + 1) 1 a.2
  else ⟨ClientResult.errCircuitOpen, [], a.2⟩

/-- Result of one attempt of `stream_completion`: a finished token stream,
or a transient error. -/
inductive StreamAttempt where
  | success (tokens : List Str)
  | transientError (msg : Str)
  deriving DecidableEq, Repr

/-- Overall result of `stream_completion`. -/
inductive StreamResultKind where
  | ok (tokens : List Str)
  | errCircuitOpen
  | errUnavailable (lastCause : Str)
  deriving DecidableEq, Repr

/-- Observable effects of one run of `stream_completion`. -/
structure StreamRun where
  result : StreamResultKind
  sleeps : List ℕ
  circuit : CircuitBreaker
  deriving DecidableEq, Repr

/-- The retry loop body of `OllamaClient.stream_completion`; identical
retry skeleton to `completeGo`, with the yielded tokens collected. -/
def streamGo (maxRetries : ℕ) (outcomes : ℕ → StreamAttempt) (times : ℕ → ℚ) :
    ℕ → ℕ → CircuitBreaker → StreamRun
  | 0, _, cb => ⟨StreamResultKind.errUnavailable [], [], cb⟩
  | fuel + 1, attempt, cb =>
    match outcomes attempt with
    | StreamAttempt.success ts => ⟨StreamResultKind.ok ts, [], cb.recordSuccess⟩
    | StreamAttempt.transientError msg =>
      let cb' := cb.recordFailure (times attempt)
      if attempt > maxRetries then ⟨StreamResultKind.errUnavailable msg, [], cb'⟩
      else
        let r := streamGo maxRetries outcomes times fuel (attempt + 1) cb'
        ⟨r.result, 2 ^ (attempt - 1) :: r.sleeps, r.circuit⟩

/-- Method `OllamaClient.stream_completion`: check the circuit breaker, then run
the retry loop starting at attempt 1. -/
def streamCompletion (maxRetries : ℕ) (outcomes : ℕ → StreamAttempt) (times : ℕ → ℚ)
    (cb : CircuitBreaker) (now : ℚ) : StreamRun :=
  let a := cb.allowRequest now
  if a.1 then streamGo maxRetries outcomes times (maxRetries + 1) 1 a.2
  else ⟨StreamResultKind.errCircuitOpen, [], a.2⟩

/-! ## Prompt engine response splitting — `app/services/llm/prompt_engine.py`,
`PromptEngine.extract_audit_json` (lines 262-337) and
`_strip_trailing_metadata` (lines 62-107).

Only the `clean_text` component of the split is modelled: the parsed audit
dictionary never influences the returned text (parse failures are logged
and swallowed), and the orchestrator discards it. -/

/-- Python `str.startswith` on character lists. -/
def leadsWith : Str → Str → Bool
  | [], _ => true
  | _ :: _, [] => false
  | p :: ps, c :: cs => p = c && leadsWith ps cs

/-- Consume the literal `pat` (case-sensitive) from the front of `s`,
returning the remainder. -/
def csConsume : Str → Str → Option Str
  | [], s => some s
  | _ :: _, [] => none
  | p :: ps, c :: cs => if p = c then csConsume ps cs else none

/-- Fuel-driven body of Python `str.replace` (all non-overlapping
occurrences, left to right).  One unit of fuel is spent per position; on a
match the remaining string shrinks by at least as much as the fuel, so
with initial fuel `s.length` the fuel never runs out.  The empty-pattern
guard only makes the function total; every call site uses a non-empty
pattern. -/
def replaceAllGo (pat rep : Str) : ℕ → Str → Str
  | _, [] => []
  | 0, s => s
  | fuel + 1, c :: cs =>
    if leadsWith pat (c :: cs) ∧ pat ≠ [] then
      rep ++ replaceAllGo pat rep fuel (cs.drop (pat.length - 1))
    else c :: replaceAllGo pat rep fuel cs

/-- Python `str.replace`. -/
def replaceAll (pat rep s : Str) : Str := replaceAllGo pat rep s.length s

/-- Python `str.split("\n")`: split at every newline, keeping empties. -/
def splitNl : Str → List Str
  | [] => [[]]
  | c :: cs =>
    if c = '\n' then [] :: splitNl cs
    else match splitNl cs with
         | [] => [[c]]
         | l :: ls => (c :: l) :: ls

/-- Python `"\n".join`. -/
def joinNl : List Str → Str
  | [] => []
  | [l] => l
  | l :: ls => l ++ '\n' :: joinNl ls

/-- The audit-marker test of the line loop:
`stripped.startswith("AUDIT_JSON:") or stripped.startswith("**AUDIT_JSON")`. -/
def leadsMarker (l : Str) : Bool :=
  leadsWith "AUDIT_JSON:".toList (pyStrip l) ||
  leadsWith "**AUDIT_JSON".toList (pyStrip l)

/-- Literal "```". -/
def fenceLit : Str := "```".toList

/-- The line loop of `extract_audit_json`: the first argument is
`skip_until_fence_close`.  AUDIT_JSON lines are dropped; a fenced block
following an AUDIT_JSON label is dropped up to and including its closing
fence; every other line is kept. -/
def extractLinesGo : Bool → List Str → List Str
  | _, [] => []
  | true, l :: ls =>
      if leadsWith fenceLit (pyStrip l) then extractLinesGo false ls
      else extractLinesGo true ls
  | false, l :: ls =>
      if leadsMarker l then
        let jp := replaceAll "**AUDIT_JSON:".toList "AUDIT_JSON:".toList
                    (replaceAll "**AUDIT_JSON**:".toList "AUDIT_JSON:".toList
                      (replaceAll "**AUDIT_JSON:**".toList "AUDIT_JSON:".toList
                        (pyStrip l)))
        let jsonPart := pyStrip (jp.drop 11)
        if leadsWith ['\x7b'] jsonPart then extractLinesGo false ls
        else if leadsWith fenceLit jsonPart then extractLinesGo true ls
        else if jsonPart.isEmpty then
          match ls with
          | [] => []
          | l2 :: ls2 =>
            if leadsWith fenceLit (pyStrip l2) then extractLinesGo true ls2
            else extractLinesGo false (l2 :: ls2)
        else extractLinesGo false ls
      else l :: extractLinesGo false ls

/-- All remainders after consuming regex `\s*\n` (any whitespace run whose
last consumed character is a newline), used for the backtracking choices
of the separator patterns. -/
def wsNlSplits : Str → List Str
  | [] => []
  | c :: cs => (if c = '\n' then [cs] else []) ++ (if pyWS c then wsNlSplits cs else [])

/-- Tail `[^{}]*\}\s*$` of `_TRAILING_META_RE` after the audit key: scan
brace-free characters, then a closing brace followed by whitespace to the
end of the text (`$` also matches before one final newline, which is
itself whitespace). -/
def bareBodyTail : Str → Bool
  | [] => false
  | '\x7d' :: r => r.all pyWS
  | '\x7b' :: _ => false
  | _ :: cs => bareBodyTail cs

/-- Scan for `"rules_applied"`/`"confidence"` within `[^{}]*`, then the
tail, for `_TRAILING_META_RE`. -/
def bareBodyScan : Str → Bool
  | [] => false
  | c :: cs =>
      (match csConsume "\"rules_applied\"".toList (c :: cs) with
       | some r => bareBodyTail r
       | none => false)
      ||
      (match csConsume "\"confidence\"".toList (c :: cs) with
       | some r => bareBodyTail r
       | none => false)
      ||
      (if c = '\x7b' || c = '\x7d' then false else bareBodyScan cs)

/-- Body of `_TRAILING_META_RE` after the separator: an opening brace and
the scan above. -/
def bareBodyOpen : Str → Bool
  | '\x7b' :: inner => bareBodyScan inner
  | _ => false

/-- Match of `_TRAILING_META_RE` anchored at the current position:
separator `\n---\s*\n` or `\n\n`, then the bare JSON block with a known
audit key extending to the end of the text. -/
def bareAt (s : Str) : Bool :=
  (match s with
   | '\n' :: '-' :: '-' :: '-' :: rest => (wsNlSplits rest).any bareBodyOpen
   | _ => false)
  || (match s with
      | '\n' :: '\n' :: rest => bareBodyOpen rest
      | _ => false)

/-- Tail `\s*```\s*$` after the captured JSON object of the fenced
patterns. -/
def wsFenceEnd (r : Str) : Bool :=
  let r2 := r.dropWhile pyWS
  leadsWith fenceLit r2 && (r2.drop 3).all pyWS

/-- Scan `.*?\}` (DOTALL) followed by the fence end: some closing brace
whose remainder is the fence end. -/
def fencedTail : Str → Bool
  | [] => false
  | '\x7d' :: r => wsFenceEnd r || fencedTail r
  | _ :: cs => fencedTail cs

/-- Fence opening ` ```(?:json)?\s*\n ` then `\{` then the fenced tail. -/
def fenceBody (r : Str) : Bool :=
  match csConsume fenceLit r with
  | none => false
  | some r1 =>
      (r1 :: (match csConsume "json".toList r1 with
              | some r2 => [r2]
              | none => [])).any (fun cnd =>
        (wsNlSplits cnd).any (fun r3 =>
          match r3 with
          | '\x7b' :: inner => fencedTail inner
          | _ => false))

/-- Remainders after regex `\*{0,2}` (zero, one or two literal stars). -/
def starSplits (r : Str) : List Str :=
  [r] ++ (match r with
          | '*' :: r1 => [r1] ++ (match r1 with | '*' :: r2 => [r2] | _ => [])
          | _ => [])

/-- Remainders after the AUDIT_JSON label
`\*{0,2}AUDIT_JSON:?\*{0,2}\s*\n` of the fenced patterns. -/
def labelSplits (r : Str) : List Str :=
  (starSplits r).flatMap (fun r1 =>
    match csConsume "AUDIT_JSON".toList r1 with
    | none => []
    | some r2 =>
        (r2 :: (match r2 with | ':' :: r3 => [r3] | _ => [])).flatMap (fun r3 =>
          (starSplits r3).flatMap wsNlSplits))

/-- Body of `_FENCED_AUDIT_RE` after the separator: optional label, then
the fenced block. -/
def fencedAfterSep (rest : Str) : Bool :=
  fenceBody rest || (labelSplits rest).any fenceBody

/-- Match of `_FENCED_AUDIT_RE` anchored at the current position. -/
def fencedAuditAt (s : Str) : Bool :=
  (match s with
   | '\n' :: '-' :: '-' :: '-' :: rest => (wsNlSplits rest).any fencedAfterSep
   | _ => false)
  || (match s with
      | '\n' :: '\n' :: rest => fencedAfterSep rest
      | _ => false)

/-- Match of `_FENCED_AUDIT_NO_SEP_RE` anchored at the current position:
a newline, then a mandatory label, then the fenced block. -/
def fencedNoSepAt (s : Str) : Bool :=
  match s with
  | '\n' :: rest => (labelSplits rest).any fenceBody
  | _ => false

/-- Leftmost-match scan of `re.search`: the first position whose suffix
matches. -/
def searchIdxGo (m : Str → Bool) : Str → ℕ → Option ℕ
  | s, p =>
      if m s then some p
      else
        match s with
        | [] => none
        | _ :: cs => searchIdxGo m cs (p + 1)

/-- Position of the leftmost match of `m` in `s` (`re.search().start()`). -/
def searchIdx (m : Str → Bool) (s : Str) : Option ℕ := searchIdxGo m s 0

/-- Truncation `text[:m.start()].rstrip()` performed on a match. -/
def truncAt (text : Str) (p : ℕ) : Str := pyRStrip (text.take p)

/-- One search-and-truncate step of `_strip_trailing_metadata` for one
pattern. -/
def stripOnce (m : Str → Bool) (text : Str) : Str :=
  match searchIdx m text with
  | none => text
  | some p => truncAt text p

/-- Text effect of `_strip_trailing_metadata`: the two fenced patterns in
order, then the bare pattern. -/
def stripTrailingMetadata (text : Str) : Str :=
  stripOnce bareAt (stripOnce fencedNoSepAt (stripOnce fencedAuditAt text))

/-- Lines kept by the `extract_audit_json` line loop. -/
def extractTextLines (raw : Str) : List Str :=
  extractLinesGo false (splitNl (pyRStrip raw))

/-- Clean-text component of `PromptEngine.extract_audit_json`:
`"\n".join(text_lines).strip()` then `_strip_trailing_metadata`. -/
def extractClean (raw : Str) : Str :=
  stripTrailingMetadata (pyStrip (joinNl (extractTextLines raw)))

/-! ## Rewrite orchestrator — `app/services/llm/orchestrator.py`,
`RewriteOrchestrator._process_rewrite` (lines 115-228).

The method is modelled as the sequence of observable actions it performs,
in program order, together with the SectionRewrite columns it writes.  The
token stream is an input (`tokens` = tokens received, `ending` = how the
stream ended); prompt payloads and wall-clock durations are opaque
markers, since the claim is about ordering. -/

/-- Enumeration `RewriteStatus` from `app/db/models/job.py`. -/
inductive RewriteStatus where
  | pending
  | running
  | completed
  | failed
  | skipped
  deriving DecidableEq, Repr

/-- One observable action of `_process_rewrite`, in program order:
status writes, `db.flush()` calls, yielded `JobProgressUpdate`s (status,
optional token, optional error, counters), prompt compilation and
storage, the response-splitting call, result/counter stores, and the
synchronous risk-analysis call. -/
inductive OrchEvent where
  | setStatus (s : RewriteStatus)
  | flush
  | yieldUpdate (status : RewriteStatus) (token : Option Str) (err : Option Str)
      (completedSections totalSections : ℕ)
  | compilePrompt
  | storePromptData
  | splitResponse
  | storeResult
  | recordCounters
  | riskAnalyze
  deriving DecidableEq, Repr

/-- How the token stream ended: normally, by the 300 s `asyncio.timeout`,
or with an exception from the client. -/
inductive StreamEndKind where
  | finished
  | timedOut
  | errored (msg : Str)
  deriving DecidableEq, Repr

/-- The SectionRewrite columns written by `_process_rewrite`. -/
structure RewriteRecord where
  status : RewriteStatus
  rewrittenText : Option Str
  tokensCompletion : Option ℕ
  errorMessage : Option Str
  deriving DecidableEq, Repr

/-- Message of the exception raised on `asyncio.TimeoutError`
(`REWRITE_TIMEOUT = 300`). -/
def timeoutMessage : Str := "LLM response timed out after 300 seconds".toList

/-- Translation of `_process_rewrite`.  `sectionExists` is whether
`db.get(Section, ...)` found the section; `total`/`completed` are the
job counters passed in.  Returns the final SectionRewrite columns and
the ordered action trace. -/
def processRewrite (sectionExists : Bool) (tokens : List Str)
    (ending : StreamEndKind) (total completed : ℕ) :
    RewriteRecord × List OrchEvent :=
  if ¬sectionExists then
    (⟨RewriteStatus.skipped, none, none, none⟩,
     [OrchEvent.setStatus RewriteStatus.skipped, OrchEvent.flush])
  else
    let prologue : List OrchEvent :=
      [OrchEvent.setStatus RewriteStatus.running, OrchEvent.flush,
       OrchEvent.yieldUpdate RewriteStatus.running none none completed total,
       OrchEvent.compilePrompt, OrchEvent.storePromptData, OrchEvent.flush]
    let tokenEvents : List OrchEvent :=
      tokens.map (fun t =>
        OrchEvent.yieldUpdate RewriteStatus.running (some t) none completed total)
    match ending with
    | StreamEndKind.finished =>
        let clean := extractClean tokens.flatten
        (⟨RewriteStatus.completed, some clean, some tokens.length, none⟩,
         prologue ++ tokenEvents ++
          [OrchEvent.splitResponse, OrchEvent.storeResult, OrchEvent.recordCounters,
           OrchEvent.setStatus RewriteStatus.completed, OrchEvent.flush,
           OrchEvent.riskAnalyze,
           OrchEvent.yieldUpdate RewriteStatus.completed none none (completed + 1) total])
    | StreamEndKind.timedOut =>
        (⟨RewriteStatus.failed, none, none, some (timeoutMessage.take 1000)⟩,
         prologue ++ tokenEvents ++
          [OrchEvent.setStatus RewriteStatus.failed, OrchEvent.flush,
           OrchEvent.yieldUpdate RewriteStatus.failed none (some timeoutMessage)
             completed total])
    | StreamEndKind.errored msg =>
        (⟨RewriteStatus.failed, none, none, some (msg.take 1000)⟩,
         prologue ++ tokenEvents ++
          [OrchEvent.setStatus RewriteStatus.failed, OrchEvent.flush,
           OrchEvent.yieldUpdate RewriteStatus.failed none (some msg)
             completed total])

/-! ## SHA-256 (FIPS 180-4) over byte lists, and UTF-8/JSON encoding

Models of `hashlib.sha256(...).hexdigest()`, `str.encode()` and the
`json.dumps` string escaping used by the audit logger and the prompt
compiler. -/

/-- Reduction modulo 2^32. -/
def w32 (n : ℕ) : ℕ := n % 4294967296

/-- Right rotation of a 32-bit word. -/
def rotr32 (x n : ℕ) : ℕ := w32 ((x >>> n) ||| (x <<< (32 - n)))

/-- SHA-256 Ch function. -/
def shaCh (x y z : ℕ) : ℕ := w32 ((x &&& y) ^^^ ((x ^^^ 4294967295) &&& z))

/-- SHA-256 Maj function. -/
def shaMaj (x y z : ℕ) : ℕ := w32 ((x &&& y) ^^^ (x &&& z) ^^^ (y &&& z))

/-- SHA-256 Σ₀. -/
def shaS0 (x : ℕ) : ℕ := rotr32 x 2 ^^^ rotr32 x 13 ^^^ rotr32 x 22

/-- SHA-256 Σ₁. -/
def shaS1 (x : ℕ) : ℕ := rotr32 x 6 ^^^ rotr32 x 11 ^^^ rotr32 x 25

/-- SHA-256 σ₀. -/
def shas0 (x : ℕ) : ℕ := rotr32 x 7 ^^^ rotr32 x 18 ^^^ (x >>> 3)

/-- SHA-256 σ₁. -/
def shas1 (x : ℕ) : ℕ := rotr32 x 17 ^^^ rotr32 x 19 ^^^ (x >>> 10)

/-- SHA-256 round constants (decimal). -/
def shaK : List ℕ :=
 [ 1116352408, 1899447441, 3049323471, 3921009573, 961987163, 1508970993,
   2453635748, 2870763221, 3624381080, 310598401, 607225278, 1426881987,
   1925078388, 2162078206, 2614888103, 3248222580, 3835390401, 4022224774,
   264347078, 604807628, 770255983, 1249150122, 1555081692, 1996064986,
   2554220882, 2821834349, 2952996808, 3210313671, 3336571891, 3584528711,
   113926993, 338241895, 666307205, 773529912, 1294757372, 1396182291,
   1695183700, 1986661051, 2177026350, 2456956037, 2730485921, 2820302411,
   3259730800, 3345764771, 3516065817, 3600352804, 4094571909, 275423344,
   430227734, 506948616, 659060556, 883997877, 958139571, 1322822218,
   1537002063, 1747873779, 1955562222, 2024104815, 2227730452, 2361852424,
   2428436474, 2756734187, 3204031479, 3329325298]

/-- SHA-256 initial hash values (decimal). -/
def shaH0 : List ℕ :=
 [ 1779033703, 3144134277, 1013904242, 2773480762, 1359893119, 2600822924,
   528734635, 1541459225]

/-- Big-endian 8-byte rendering of the bit length. -/
def be8 (n : ℕ) : List ℕ :=
  [(n >>> 56) % 256, (n >>> 48) % 256, (n >>> 40) % 256, (n >>> 32) % 256,
   (n >>> 24) % 256, (n >>> 16) % 256, (n >>> 8) % 256, n % 256]

/-- Big-endian 4-byte rendering of a 32-bit word. -/
def be4 (n : ℕ) : List ℕ :=
  [(n >>> 24) % 256, (n >>> 16) % 256, (n >>> 8) % 256, n % 256]

/-- SHA-256 message padding. -/
def sha256Pad (msg : List ℕ) : List ℕ :=
  let len := msg.length
  msg ++ [128] ++ List.replicate ((64 - ((len + 9) % 64)) % 64) 0 ++ be8 (8 * len)

/-- Fuel-driven split into 64-byte blocks. -/
def chunksGo : ℕ → List ℕ → List (List ℕ)
  | 0, _ => []
  | _ + 1, [] => []
  | n + 1, l => l.take 64 :: chunksGo n (l.drop 64)

/-- Split into 64-byte blocks. -/
def chunks64 (l : List ℕ) : List (List ℕ) := chunksGo l.length l

/-- Big-endian 32-bit words from bytes. -/
def toWords : List ℕ → List ℕ
  | b0 :: b1 :: b2 :: b3 :: rest =>
      (((b0 * 256 + b1) * 256 + b2) * 256 + b3) :: toWords rest
  | _ => []

/-- Message-schedule extension: produce `n` further words from a sliding
16-word window. -/
def scheduleGo : ℕ → List ℕ → List ℕ
  | 0, _ => []
  | n + 1, window =>
      let next := w32 (shas1 (window.getD 14 0) + window.getD 9 0 +
        shas0 (window.getD 1 0) + window.getD 0 0)
      next :: scheduleGo n (window.tail ++ [next])

/-- Full 64-word message schedule of a block. -/
def schedule (w : List ℕ) : List ℕ := w ++ scheduleGo 48 w

/-- Working state of the compression function. -/
structure ShaState where
  a : ℕ
  b : ℕ
  c : ℕ
  d : ℕ
  e : ℕ
  f : ℕ
  g : ℕ
  h : ℕ
  deriving DecidableEq, Repr

/-- One compression round. -/
def shaRound (s : ShaState) (kw : ℕ × ℕ) : ShaState :=
  let t1 := w32 (s.h + shaS1 s.e + shaCh s.e s.f s.g + kw.1 + kw.2)
  let t2 := w32 (shaS0 s.a + shaMaj s.a s.b s.c)
  ⟨w32 (t1 + t2), s.a, s.b, s.c, w32 (s.d + t1), s.e, s.f, s.g⟩

/-- Compress one 64-byte block into the running hash. -/
def compressBlock (hs : List ℕ) (block : List ℕ) : List ℕ :=
  let ws := schedule (toWords block)
  let s0 : ShaState := ⟨hs.getD 0 0, hs.getD 1 0, hs.getD 2 0, hs.getD 3 0,
    hs.getD 4 0, hs.getD 5 0, hs.getD 6 0, hs.getD 7 0⟩
  let s := (shaK.zip ws).foldl shaRound s0
  [w32 (hs.getD 0 0 + s.a), w32 (hs.getD 1 0 + s.b), w32 (hs.getD 2 0 + s.c),
   w32 (hs.getD 3 0 + s.d), w32 (hs.getD 4 0 + s.e), w32 (hs.getD 5 0 + s.f),
   w32 (hs.getD 6 0 + s.g), w32 (hs.getD 7 0 + s.h)]

/-- SHA-256 digest (32 bytes) of a byte list. -/
def sha256 (msg : List ℕ) : List ℕ :=
  ((chunks64 (sha256Pad msg)).foldl compressBlock shaH0).flatMap be4

/-- Lowercase hex digit. -/
def hexDigit (n : ℕ) : Char :=
  if n < 10 then Char.ofNat (48 + n) else Char.ofNat (87 + n)

/-- Two-digit lowercase hex of a byte. -/
def byteHex (b : ℕ) : Str := [hexDigit (b / 16), hexDigit (b % 16)]

/-- Model of `hashlib.sha256(bytes).hexdigest()`. -/
def sha256Hex (msg : List ℕ) : Str := (sha256 msg).flatMap byteHex

/-- UTF-8 encoding of one code point (model of `str.encode()`). -/
def utf8Encode (c : Char) : List ℕ :=
  let n := c.toNat
  if n < 128 then [n]
  else if n < 2048 then [192 + n / 64, 128 + n % 64]
  else if n < 65536 then [224 + n / 4096, 128 + (n / 64) % 64, 128 + n % 64]
  else [240 + n / 262144, 128 + (n / 4096) % 64, 128 + (n / 64) % 64, 128 + n % 64]

/-- UTF-8 encoding of a string. -/
def utf8 (s : Str) : List ℕ := s.flatMap utf8Encode

/-- Four-digit lowercase hex (for `\uXXXX` escapes). -/
def hex4 (n : ℕ) : Str :=
  [hexDigit (n / 4096 % 16), hexDigit (n / 256 % 16),
   hexDigit (n / 16 % 16), hexDigit (n % 16)]

/-- Escape of one character in `json.dumps` default (`ensure_ascii=True`)
mode: printable ASCII other than quote and backslash passes through,
the short escapes cover backspace/tab/newline/formfeed/return, everything
else becomes `\uXXXX` (astral code points as a surrogate pair). -/
def jsonEscCharAscii (c : Char) : Str :=
  let n := c.toNat
  if c = '"' then ['\\', '"']
  else if c = '\\' then ['\\', '\\']
  else if 32 ≤ n ∧ n ≤ 126 then [c]
  else if n = 8 then ['\\', 'b']
  else if n = 9 then ['\\', 't']
  else if n = 10 then ['\\', 'n']
  else if n = 12 then ['\\', 'f']
  else if n = 13 then ['\\', 'r']
  else if n < 65536 then '\\' :: 'u' :: hex4 n
  else
    ('\\' :: 'u' :: hex4 (55296 + (n - 65536) / 1024)) ++
    ('\\' :: 'u' :: hex4 (56320 + (n - 65536) % 1024))

/-- Escaped body of a JSON string (`ensure_ascii=True`). -/
def jsonEscAscii (s : Str) : Str := s.flatMap jsonEscCharAscii

/-- A quoted JSON string literal (`ensure_ascii=True`). -/
def jsonStrAscii (s : Str) : Str := '"' :: (jsonEscAscii s ++ ['"'])

/-- Join with the default `json.dumps` item separator `", "`. -/
def joinCommaSp : List Str → Str
  | [] => []
  | [x] => x
  | x :: xs => x ++ ',' :: ' ' :: joinCommaSp xs

/-- Rendering of a JSON object with string values, keys in the given
order, with the default separators `(", ", ": ")` — the callers pass the
keys already sorted, modelling `sort_keys=True`. -/
def jsonObjAscii (kvs : List (Str × Str)) : Str :=
  '\x7b' :: (joinCommaSp (kvs.map (fun kv =>
    jsonStrAscii kv.1 ++ ':' :: ' ' :: jsonStrAscii kv.2)) ++ ['\x7d'])

/-! ## Audit logger — `app/services/audit/logger.py` -/

/-- Decimal digit characters of a natural number (most significant
first). -/
def natDigitsGo : ℕ → ℕ → Str
  | 0, _ => []
  | fuel + 1, n =>
      if n < 10 then [Char.ofNat (48 + n)]
      else natDigitsGo fuel (n / 10) ++ [Char.ofNat (48 + n % 10)]

/-- Decimal rendering of a natural number. -/
def natStr (n : ℕ) : Str := natDigitsGo (n + 1) n

/-- Model of `created_at.isoformat()`: an injective textual rendering of
the clock instant.  Timestamps are modelled as naturals (e.g. microseconds
since the epoch); the audit hash only depends on this rendering being a
fixed function of the instant, which the decimal rendering is. -/
def isoTimestamp (t : ℕ) : Str := natStr t

/-- Row `AuditEvent` from `app/db/models/audit.py`, with `created_at`
modelled as a natural clock value. -/
structure AuditEvent where
  id : Str
  eventType : Str
  actorId : Option Str
  actorUsername : Option Str
  entityType : Option Str
  entityId : Option Str
  correlationId : Option Str
  payloadJson : Option Str
  eventHash : Str
  prevHash : Option Str
  createdAt : ℕ
  deriving DecidableEq, Repr

/-- Translation of `_compute_event_hash` (logger.py lines 31-51): the
seven components with `or ""` defaulting, rendered as sorted-key
ASCII JSON with the default separators, UTF-8 encoded and SHA-256
hex-digested. -/
def computeEventHash (eventType : Str) (actorId entityType entityId payloadJson : Option Str)
    (createdAt : ℕ) (prevHash : Option Str) : Str :=
  sha256Hex (utf8 (jsonObjAscii
    [("actor_id".toList, actorId.getD []),
     ("created_at".toList, isoTimestamp createdAt),
     ("entity_id".toList, entityId.getD []),
     ("entity_type".toList, entityType.getD []),
     ("event_type".toList, eventType),
     ("payload_json".toList, payloadJson.getD []),
     ("prev_hash".toList, prevHash.getD [])]))

/-- Arguments of one `AuditLogger.log` call: the row id assigned by the
database, the payload already rendered by `json.dumps(payload,
sort_keys=True)` (or none), and the `datetime.now(UTC)` instant. -/
structure LogInput where
  id : Str
  eventType : Str
  actorId : Option Str
  actorUsername : Option Str
  entityType : Option Str
  entityId : Option Str
  correlationId : Option Str
  payloadJson : Option Str
  createdAt : ℕ
  deriving DecidableEq, Repr

/-- The row with the greatest `created_at` (later insertions win ties),
modelling `ORDER BY created_at DESC LIMIT 1`. -/
def lastByCreated : List AuditEvent → Option AuditEvent
  | [] => none
  | e :: es =>
      match lastByCreated es with
      | none => some e
      | some m => if m.createdAt ≥ e.createdAt then some m else some e

/-- Translation of `AuditLogger._get_last_hash`. -/
def lastHash (events : List AuditEvent) : Option Str :=
  (lastByCreated events).map (fun e => e.eventHash)

/-- Translation of `AuditLogger.log` under the module-wide lock: read the
last hash, compute the event hash over the seven components, append the
row. -/
def logEvent (events : List AuditEvent) (inp : LogInput) : List AuditEvent :=
  let prev := lastHash events
  let eh := computeEventHash inp.eventType inp.actorId inp.entityType inp.entityId
    inp.payloadJson inp.createdAt prev
  events ++ [⟨inp.id, inp.eventType, inp.actorId, inp.actorUsername, inp.entityType,
    inp.entityId, inp.correlationId, inp.payloadJson, eh, prev, inp.createdAt⟩]

/-- A sequence of `AuditLogger.log` calls. -/
def logAll (events : List AuditEvent) : List LogInput → List AuditEvent
  | [] => events
  | i :: is => logAll (logEvent events i) is

/-- Stable insertion by ascending `created_at`. -/
def insertByCreated (e : AuditEvent) : List AuditEvent → List AuditEvent
  | [] => [e]
  | x :: xs =>
      if e.createdAt < x.createdAt then e :: x :: xs else x :: insertByCreated e xs

/-- Rows in ascending `created_at` order, modelling
`ORDER BY created_at ASC` of `verify_chain`. -/
def sortByCreated : List AuditEvent → List AuditEvent
  | [] => []
  | x :: xs => insertByCreated x (sortByCreated xs)

/-- The replay loop of `verify_chain`: recompute each expected hash from
the stored fields and the previous row's stored hash; report the first
mismatch. -/
def verifyGo (prev : Option Str) : List AuditEvent → Bool × Option Str
  | [] => (true, none)
  | e :: es =>
      let expected := computeEventHash e.eventType e.actorId e.entityType e.entityId
        e.payloadJson e.createdAt prev
      if expected ≠ e.eventHash then (false, some e.id)
      else verifyGo (some e.eventHash) es

/-- Translation of `AuditLogger.verify_chain` (logger.py lines 136-172). -/
def verifyChain (events : List AuditEvent) : Bool × Option Str :=
  verifyGo none (sortByCreated events)

/-- The row built by `log` for the given input with the given previous
hash. -/
def mkEvent (inp : LogInput) (prev : Option Str) : AuditEvent :=
  ⟨inp.id, inp.eventType, inp.actorId, inp.actorUsername, inp.entityType,
   inp.entityId, inp.correlationId, inp.payloadJson,
   computeEventHash inp.eventType inp.actorId inp.entityType inp.entityId
     inp.payloadJson inp.createdAt prev,
   prev, inp.createdAt⟩

/-- Reference chain: the rows a sequence of `log` calls writes when the
previous-hash thread starts at `prev`. -/
def chainSpec (prev : Option Str) : List LogInput → List AuditEvent
  | [] => []
  | i :: is =>
      let e := mkEvent i prev
      e :: chainSpec (some e.eventHash) is

/-! ## Prompt compiler — `PromptEngine.compile` (prompt_engine.py lines 169-260) -/

/-- One parsed rule of the activated ruleset: `compile` reads each dict of
`json.loads(rules_json)` at the keys `id` and `instruction`. -/
structure Rule where
  id : Str
  instruction : Str
  deriving DecidableEq, Repr

/-- Dataclass `CompiledPrompt`, the result of `PromptEngine.compile`. -/
structure CompiledPrompt where
  systemPrompt : Str
  userPrompt : Str
  promptHash : Str
  appliedRuleIds : List Str
  deriving DecidableEq, Repr

/-- Module constant `_BASE_SYSTEM_INSTRUCTIONS` (prompt_engine.py lines
111-131), with the backslash line continuations of the Python literal
resolved. -/
def baseSystemInstructions : Str :=
  ("You are a legal document editor. Your task is to rewrite the provided section of a legal document according to the rules below.\n\nStrict requirements:\n- Preserve all legal obligations, rights, and defined terms.\n- Do NOT alter party names, dates, monetary amounts, or reference numbers unless   a rule explicitly requires it.\n- Do NOT introduce new legal obligations that are not present in the original.\n- Output ONLY the rewritten section text as PLAIN TEXT.\n- ABSOLUTELY NO MARKDOWN FORMATTING: do NOT use ** (bold), * (italic),   ### (headings), ``` (code fences), --- (horizontal rules), or any other   Markdown syntax. The output is inserted directly into a Word document, so   any such characters will appear literally.\n- Do NOT output bullet lists with - or *. Write items as flowing sentences   or numbered clauses (1., 2., etc.).\n- No commentary, no preamble, no section labels.\n- If you cannot apply a rule without introducing legal risk, output the original text   unchanged and prefix your response with [NO-CHANGE].\n- Maintain the same structural level (heading/clause/definition/etc.) as the original.\n").toList

/-- Module constant `_AUDIT_INSTRUCTION` (prompt_engine.py lines
133-138). -/
def auditInstruction : Str :=
  ("At the very end of your response, on ONE new line, output exactly this format (no code fences, no markdown, no extra whitespace, no --- separators):\nAUDIT_JSON:\x7b\"rules_applied\": [\"<rule-id>\", ...], \"confidence\": <0.0-1.0>\x7d\nThe JSON must be on the SAME line as AUDIT_JSON: with no line break between them.\n").toList

/-- The f-string `[Rule \x7br['id']\x7d] \x7br['instruction']\x7d` of one
rule fragment line. -/
def ruleFragment (r : Rule) : Str :=
  "[Rule ".toList ++ (r.id ++ ("] ".toList ++ r.instruction))

/-- The jurisdiction sentence `compile` appends when `jurisdiction` is
truthy (prompt_engine.py lines 204-208). -/
def jurisdictionPart (j : Str) : Str :=
  "\nJurisdiction context: This document is governed under ".toList ++
  (j ++ (" law. All rewrites must remain compliant with ".toList ++
  (j ++ " legal standards.\n".toList)))

/-- Python truthiness of an optional string argument: `None` and the
empty string are both falsy. -/
def optTruthy : Option Str → Bool
  | none => false
  | some s => !s.isEmpty

/-- A JSON array of string literals with the default `json.dumps`
separators. -/
def jsonArrAscii (xs : List Str) : Str :=
  '[' :: (joinCommaSp (xs.map jsonStrAscii) ++ [']'])

/-- The `hash_input` string of `compile`: `json.dumps` with
`sort_keys=True` of the dict with keys `system`, `user`, `rule_ids`, so
the keys are emitted in the order `rule_ids`, `system`, `user` with the
default separators. -/
def hashInput (systemPrompt userPrompt : Str) (ruleIds : List Str) : Str :=
  '\x7b' :: ("\"rule_ids\": ".toList ++
    (jsonArrAscii ruleIds ++
    (", \"system\": ".toList ++
    (jsonStrAscii systemPrompt ++
    (", \"user\": ".toList ++
    (jsonStrAscii userPrompt ++ ['\x7d']))))))

/-- Translation of `PromptEngine.compile` (prompt_engine.py lines
169-260) on the parsed rules list: every rule is applicable, the system
prompt concatenates the base instructions, the optional jurisdiction
sentence, the rule block (or the no-rules sentence), and the audit
instruction; the user prompt joins the optional heading line, section
type line, optional dependency context, original text and prompt tail
with newlines; the hash is SHA-256 of the UTF-8 canonical JSON of system
prompt, user prompt and rule ids. -/
def PromptEngine.compile (rules : List Rule) (sectionTypeValue : Str)
    (originalText : Str) (sectionHeading : Option Str)
    (jurisdiction : Option Str) (dependencyContext : Option Str) :
    CompiledPrompt :=
  let ruleFragments := joinNl (rules.map ruleFragment)
  let systemPrompt :=
    baseSystemInstructions ++
    ((if optTruthy jurisdiction then jurisdictionPart (jurisdiction.getD [])
      else []) ++
     ((if !ruleFragments.isEmpty then
        "\nApplicable transformation rules:\n".toList ++
          (ruleFragments ++ "\n".toList)
       else
        "\nNo specific transformation rules apply. Preserve original intent.\n".toList) ++
      auditInstruction))
  let userParts : List Str :=
    (if optTruthy sectionHeading then
      ["Section heading: ".toList ++ sectionHeading.getD []]
     else []) ++
    ["Section type: ".toList ++ sectionTypeValue] ++
    (if optTruthy dependencyContext then
      ["Relevant context from referenced sections:\n".toList ++
        dependencyContext.getD []]
     else []) ++
    ["\nOriginal section text:\n".toList ++ originalText] ++
    ["\nRewritten section text:".toList]
  let userPrompt := joinNl userParts
  let ruleIds := rules.map (fun r => r.id)
  ⟨systemPrompt, userPrompt,
   sha256Hex (utf8 (hashInput systemPrompt userPrompt ruleIds)), ruleIds⟩

/-- Value of a lowercase hexadecimal digit character. -/
def hexVal (c : Char) : ℕ :=
  if c.toNat ≤ 57 then c.toNat - 48 else c.toNat - 87

/-- Decoder of the `ensure_ascii` escape encoding, the left inverse
used to show `jsonEscAscii` is injective; the fuel bounds the number of
decoded characters. -/
def decodeEscGo : ℕ → Str → Option Str
  | _, [] => some []
  | 0, _ :: _ => none
  | fuel + 1, c :: r =>
      if c = '\\' then
        match r with
        | '"' :: r2 => (decodeEscGo fuel r2).map (fun s => '"' :: s)
        | '\\' :: r2 => (decodeEscGo fuel r2).map (fun s => '\\' :: s)
        | 'b' :: r2 => (decodeEscGo fuel r2).map (fun s => '\x08' :: s)
        | 't' :: r2 => (decodeEscGo fuel r2).map (fun s => '\t' :: s)
        | 'n' :: r2 => (decodeEscGo fuel r2).map (fun s => '\n' :: s)
        | 'f' :: r2 => (decodeEscGo fuel r2).map (fun s => '\x0c' :: s)
        | 'r' :: r2 => (decodeEscGo fuel r2).map (fun s => '\x0d' :: s)
        | 'u' :: h1 :: h2 :: h3 :: h4 :: r2 =>
            let n := hexVal h1 * 4096 + hexVal h2 * 256 + hexVal h3 * 16 + hexVal h4
            if 55296 ≤ n ∧ n < 56320 then
              match r2 with
              | '\\' :: 'u' :: g1 :: g2 :: g3 :: g4 :: r3 =>
                  let m := hexVal g1 * 4096 + hexVal g2 * 256 + hexVal g3 * 16 + hexVal g4
                  (decodeEscGo fuel r3).map
                    (fun s => Char.ofNat (65536 + (n - 55296) * 1024 + (m - 56320)) :: s)
              | _ => none
            else (decodeEscGo fuel r2).map (fun s => Char.ofNat n :: s)
        | _ => none
      else (decodeEscGo fuel r).map (fun s => c :: s)

/-! ## Risk analyzer — `app/services/risk/analyzer.py` -/

/-- ASCII lowercase letter. -/
def isAsciiLower (c : Char) : Bool := 'a' ≤ c ∧ c ≤ 'z'

/-- ASCII decimal digit. -/
def isAsciiDigit (c : Char) : Bool := '0' ≤ c ∧ c ≤ '9'

/-- Python `str.lower()` restricted to ASCII, the range exercised by the
analyzer's token pattern `[a-z]+`. -/
def pyLower (s : Str) : Str := s.map Char.toLower

/-- Whether a `\b` word boundary separates a last consumed character
from the rest of the input. -/
def boundaryOk (last : Char) (rest : Str) : Bool :=
  isWordChar last ≠ (match rest with | [] => false | c :: _ => isWordChar c)

/-- The scan loop of `_tokenize`: `re.findall` of `\b[a-z]+\b` — maximal
lowercase-letter runs whose neighbours on both sides are non-word
characters; the flag carries the wordness of the previous character. -/
def tokGo : ℕ → Bool → Str → List Str
  | 0, _, _ => []
  | _ + 1, _, [] => []
  | fuel + 1, prevWord, c :: rest =>
      if isAsciiLower c ∧ ¬prevWord then
        let run := c :: rest.takeWhile isAsciiLower
        let rest2 := rest.dropWhile isAsciiLower
        if (match rest2 with | [] => true | d :: _ => ¬isWordChar d) then
          run :: tokGo fuel true rest2
        else tokGo fuel true rest2
      else tokGo fuel (isWordChar c) rest

/-- Translation of `_tokenize` (analyzer.py line 38-40). -/
def tokenize (text : Str) : List Str := tokGo text.length false (pyLower text)

/-- Greedy `\d*\b` with backtracking: consume digits longest-first, and
end where a word boundary holds. -/
def dstar (last : Char) : Str → Option (Str × Str)
  | [] => if isWordChar last then some ([], []) else none
  | c :: rest =>
      if isAsciiDigit c then
        match dstar c rest with
        | some (m, rem) => some (c :: m, rem)
        | none =>
            if boundaryOk last (c :: rest) then some ([], c :: rest) else none
      else
        if boundaryOk last (c :: rest) then some ([], c :: rest) else none

/-- Greedy `\.?\d*\b`: the optional dot is tried first, falling back to
the dot-less continuation. -/
def numTail1 (last : Char) : Str → Option (Str × Str)
  | '.' :: r2 =>
      match dstar '.' r2 with
      | some (m, rem) => some ('.' :: m, rem)
      | none => dstar last ('.' :: r2)
  | r => dstar last r

/-- Greedy `[\d,]*\.?\d*\b` with backtracking. -/
def commastar (last : Char) : Str → Option (Str × Str)
  | [] => numTail1 last []
  | c :: rest =>
      if isAsciiDigit c ∨ c = ',' then
        match commastar c rest with
        | some (m, rem) => some (c :: m, rem)
        | none => numTail1 last (c :: rest)
      else numTail1 last (c :: rest)

/-- One attempt of `_NUMBER_RE` = `\b\d[\d,]*\.?\d*\b` at the current
position, given the wordness of the previous character. -/
def tryNum (prevWord : Bool) : Str → Option (Str × Str)
  | c :: rest =>
      if isAsciiDigit c ∧ ¬prevWord then
        match commastar c rest with
        | some (m, rem) => some (c :: m, rem)
        | none => none
      else none
  | [] => none

/-- The `re.findall` scan of `_NUMBER_RE`: leftmost non-overlapping
matches, resuming after each match. -/
def findNumGo : ℕ → Bool → Str → List Str
  | 0, _, _ => []
  | _ + 1, _, [] => []
  | fuel + 1, prevWord, c :: rest =>
      match tryNum prevWord (c :: rest) with
      | some (m, rem) => m :: findNumGo fuel (isWordChar (m.getLastD c)) rem
      | none => findNumGo fuel (isWordChar c) rest

/-- Translation of `_NUMBER_RE.findall` (analyzer.py line 28). -/
def findNumbers (s : Str) : List Str := findNumGo s.length false s

/-- All ways to match between `lo` and `hi` digits, longest first. -/
def digitsRange (lo hi : ℕ) (s : Str) : List (Str × Str) :=
  ((List.range (hi + 1 - lo)).map (fun k => hi - k)).filterMap (fun n =>
    let run := s.take n
    if run.length = n ∧ run.all isAsciiDigit then some (run, s.drop n) else none)

/-- All ways to match `\s+`, longest first. -/
def wsPlus (s : Str) : List (Str × Str) :=
  let run := s.takeWhile pyWS
  (List.range run.length).map (fun k =>
    (run.take (run.length - k), s.drop (run.length - k)))

/-- Sequencing of candidate lists in backtracking priority order. -/
def mseq (m1 m2 : Str → List (Str × Str)) : Str → List (Str × Str) :=
  fun s => (m1 s).flatMap (fun p => (m2 p.2).map (fun q => (p.1 ++ q.1, q.2)))

/-- A single character from a class. -/
def mlit (p : Char → Bool) : Str → List (Str × Str)
  | c :: rest => if p c then [([c], rest)] else []
  | [] => []

/-- A case-insensitive literal word, capturing the input's own
characters (the `re.IGNORECASE` month names). -/
def mword (w : Str) : Str → List (Str × Str) :=
  fun s =>
    if (ciConsume w s).isSome then [(s.take w.length, s.drop w.length)] else []

/-- The month-name alternation of `_DATE_RE`, in pattern order. -/
def monthNames : List Str :=
  ["January".toList, "February".toList, "March".toList, "April".toList,
   "May".toList, "June".toList, "July".toList, "August".toList,
   "September".toList, "October".toList, "November".toList, "December".toList]

/-- First date alternative: one or two digits, a slash or dash, one or
two digits, a slash or dash, then two to four digits. -/
def dateAlt1 : Str → List (Str × Str) :=
  mseq (digitsRange 1 2) (mseq (mlit (fun c => c = '/' ∨ c = '-'))
    (mseq (digitsRange 1 2) (mseq (mlit (fun c => c = '/' ∨ c = '-'))
      (digitsRange 2 4))))

/-- Second date alternative `\d{4}-\d{2}-\d{2}`. -/
def dateAlt2 : Str → List (Str × Str) :=
  mseq (digitsRange 4 4) (mseq (mlit (fun c => c = '-'))
    (mseq (digitsRange 2 2) (mseq (mlit (fun c => c = '-'))
      (digitsRange 2 2))))

/-- Third date alternative
`\d{1,2}\s+(January|...|December)\s+\d{4}`, yielding the month capture
alongside the whole match. -/
def dateAlt3 (s : Str) : List (Str × Str × Str) :=
  (digitsRange 1 2 s).flatMap (fun p1 =>
    (wsPlus p1.2).flatMap (fun p2 =>
      (monthNames.flatMap (fun w => mword w p2.2)).flatMap (fun p3 =>
        (wsPlus p3.2).flatMap (fun p4 =>
          (digitsRange 4 4 p4.2).map (fun p5 =>
            (p1.1 ++ p2.1 ++ p3.1 ++ p4.1 ++ p5.1, p3.1, p5.2))))))

/-- One attempt of `_DATE_RE` at the current position: the alternatives
in pattern order, first candidate whose end satisfies the trailing
`\b`; yields `(group 1, group 2, rest)` as `re.findall` reports the two
capture groups. -/
def tryDate (prevWord : Bool) (s : Str) : Option (Str × Str × Str) :=
  if prevWord then none
  else
    let cands :=
      (dateAlt1 s).map (fun p => (p.1, ([] : Str), p.2)) ++
      (dateAlt2 s).map (fun p => (p.1, ([] : Str), p.2)) ++
      dateAlt3 s
    cands.find? (fun c => boundaryOk (c.1.getLastD ' ') c.2.2)

/-- The `re.findall` scan of `_DATE_RE`. -/
def findDateGo : ℕ → Bool → Str → List (Str × Str)
  | 0, _, _ => []
  | _ + 1, _, [] => []
  | fuel + 1, prevWord, c :: rest =>
      match tryDate prevWord (c :: rest) with
      | some (g1, g2, rem) =>
          (g1, g2) :: findDateGo fuel (isWordChar (g1.getLastD c)) rem
      | none => findDateGo fuel (isWordChar c) rest

/-- Translation of `_DATE_RE.findall` (analyzer.py lines 29-34): each
match is the tuple of its two capture groups. -/
def findDates (s : Str) : List (Str × Str) := findDateGo s.length false s

/-- One attempt of `_PARTY_NAME_RE` = `"([A-Z][a-zA-Z\s]+)"`: an opening
quote, an uppercase letter, at least one more letter or whitespace up to
a closing quote. -/
def tryParty : Str → Option (Str × Str)
  | '"' :: c :: rest =>
      if 'A' ≤ c ∧ c ≤ 'Z' then
        let cls := fun d => (('a' ≤ d ∧ d ≤ 'z') ∨ ('A' ≤ d ∧ d ≤ 'Z') ∨ pyWS d)
        let run := rest.takeWhile cls
        let rest2 := rest.dropWhile cls
        match rest2 with
        | '"' :: rest3 => if run ≠ [] then some (c :: run, rest3) else none
        | _ => none
      else none
  | _ => none

/-- The `re.findall` scan of `_PARTY_NAME_RE`, collecting group 1. -/
def findPartyGo : ℕ → Str → List Str
  | 0, _ => []
  | _ + 1, [] => []
  | fuel + 1, c :: rest =>
      match tryParty (c :: rest) with
      | some (g, rem) => g :: findPartyGo fuel rem
      | none => findPartyGo fuel rest

/-- Translation of `_PARTY_NAME_RE.findall` (analyzer.py line 35). -/
def findParties (s : Str) : List Str := findPartyGo s.length s

/-- Enum `RiskSeverity`. -/
inductive RiskSeverity where
  | low
  | medium
  | high
  | critical
  deriving DecidableEq, Repr

/-- Row `RiskFinding`, reduced to the fields the analyzer decides:
severity, category and numeric score (the free-text description and the
rewrite id foreign key are presentation data carried along unchanged). -/
structure RiskFinding where
  severity : RiskSeverity
  category : Str
  score : ℝ

/-- The members of `a` absent from `b` — emptiness of Python's
`set(a) - set(b)`. -/
def setDiff {α : Type} [DecidableEq α] (a b : List α) : List α :=
  a.filter (fun x => !(b.contains x))

/-- Translation of `_check_numeric_drift` (analyzer.py lines 108-137). -/
noncomputable def checkNumericDrift (original rewritten : Str) : List RiskFinding :=
  let removed := setDiff (findNumbers original) (findNumbers rewritten)
  let added := setDiff (findNumbers rewritten) (findNumbers original)
  (if removed ≠ [] then
    [⟨RiskSeverity.critical, "numeric_drift".toList, 1⟩] else []) ++
  (if added ≠ [] then
    [⟨RiskSeverity.high, "numeric_drift".toList, 0.8⟩] else [])

/-- Translation of `_check_date_drift` (analyzer.py lines 139-155):
`symmetric_difference` of the two tuple sets. -/
noncomputable def checkDateDrift (original rewritten : Str) : List RiskFinding :=
  let changed := setDiff (findDates original) (findDates rewritten) ++
    setDiff (findDates rewritten) (findDates original)
  if changed ≠ [] then
    [⟨RiskSeverity.critical, "date_drift".toList, 1⟩]
  else []

/-- Translation of `_check_party_changes` (analyzer.py lines 157-173). -/
noncomputable def checkPartyChanges (original rewritten : Str) : List RiskFinding :=
  let removed := setDiff (findParties original) (findParties rewritten)
  if removed ≠ [] then
    [⟨RiskSeverity.critical, "party_change".toList, 1⟩]
  else []

/-- Term frequency of word `w` in token list `t` (count over length). -/
def tf (t : List Str) (w : Str) : ℚ := (t.count w : ℚ) / (t.length : ℚ)

/-- The vocabulary `set(tokens_a) | set(tokens_b)` as a deduplicated
list. -/
def vocab (ta tb : List Str) : List Str := (ta ++ tb).dedup

/-- The dot product of the two TF vectors over the vocabulary. -/
def tfDot (ta tb : List Str) : ℚ :=
  ((vocab ta tb).map (fun w => tf ta w * tf tb w)).sum

/-- The squared magnitude of a TF vector over the vocabulary. -/
def tfMagSq (ta tb : List Str) (t : List Str) : ℚ :=
  ((vocab ta tb).map (fun w => tf t w ^ 2)).sum

/-- Model of Python `round(x, 4)` on reals (half cases rounded as by
`round`; the analyzer's thresholds are far from any half case). -/
noncomputable def round4 (x : ℝ) : ℝ := (round (x * 10000) : ℝ) / 10000

/-- Translation of `_tfidf_similarity` (analyzer.py lines 43-70):
`0.0` when either token list is empty or a magnitude vanishes, else the
rounded, clamped cosine of the TF vectors. -/
noncomputable def tfidfSimilarity (a b : Str) : ℝ :=
  let ta := tokenize a
  let tb := tokenize b
  if ta = [] ∨ tb = [] then 0
  else
    let dot := (tfDot ta tb : ℝ)
    let magA := Real.sqrt (tfMagSq ta tb ta : ℝ)
    let magB := Real.sqrt (tfMagSq ta tb tb : ℝ)
    if magA = 0 ∨ magB = 0 then 0
    else round4 (min 1 (dot / (magA * magB)))

/-- Translation of `_check_semantic_deviation` (analyzer.py lines
175-205). -/
noncomputable def checkSemanticDeviation (original rewritten : Str) :
    List RiskFinding :=
  let similarity := tfidfSimilarity original rewritten
  let deviation := 1 - similarity
  if deviation > 0.6 then
    [⟨RiskSeverity.high, "semantic_deviation".toList, deviation⟩]
  else if deviation > 0.35 then
    [⟨RiskSeverity.medium, "semantic_deviation".toList, deviation⟩]
  else []

/-- Translation of `_check_length_anomaly` (analyzer.py lines
207-239). -/
noncomputable def checkLengthAnomaly (original rewritten : Str) :
    List RiskFinding :=
  if original = [] then []
  else
    let ratio : ℝ := (rewritten.length : ℝ) / (original.length : ℝ)
    if ratio < 0.3 then
      [⟨RiskSeverity.high, "length_anomaly".toList, 1 - ratio⟩]
    else if ratio > 3 then
      [⟨RiskSeverity.medium, "length_anomaly".toList, min 1 ((ratio - 1) / 3)⟩]
    else []

/-- Translation of `RiskAnalyzer.analyze` (analyzer.py lines 76-106):
the five detection layers' findings in extension order. -/
noncomputable def RiskAnalyzer.analyze (original rewritten : Str) :
    List RiskFinding :=
  checkNumericDrift original rewritten ++
  (checkDateDrift original rewritten ++
  (checkPartyChanges original rewritten ++
  (checkSemanticDeviation original rewritten ++
  checkLengthAnomaly original rewritten)))

/-! ## Diff service — `app/services/review/diff.py` with
`difflib.SequenceMatcher` (CPython 3.11, `isjunk=None`,
`autojunk=False`) -/

/-- Dataclass `DiffHunk` (diff.py lines 16-23). -/
structure DiffHunk where
  index : ℕ
  operation : Str
  original : Str
  rewritten : Str
  deriving DecidableEq, Repr

/-- One opcode 5-tuple `(tag, i1, i2, j1, j2)` of `get_opcodes`. -/
structure Opcode where
  tag : Str
  a0 : ℕ
  a1 : ℕ
  b0 : ℕ
  b1 : ℕ
  deriving DecidableEq, Repr

/-- `"".join` over a token list. -/
def joinStr (l : List Str) : Str := l.flatten

/-- Python slice `l[i:j]` for the in-range ascending uses of the
matcher. -/
def pySlice {α : Type} (l : List α) (i j : ℕ) : List α := (l.drop i).take (j - i)

/-- The scan of `_word_tokenize` = `re.split(r"(\s+)", text)` (diff.py
lines 26-32): alternating non-whitespace and captured whitespace runs,
with empty boundary tokens preserved so reassembly is lossless. -/
def wtGo : ℕ → Str → List Str
  | 0, _ => []
  | fuel + 1, s =>
      let w := s.takeWhile (fun c => ¬pyWS c)
      let rest := s.dropWhile (fun c => ¬pyWS c)
      match rest with
      | [] => [w]
      | _ :: _ =>
          w :: rest.takeWhile pyWS :: wtGo fuel (rest.dropWhile pyWS)

/-- Translation of `_word_tokenize`. -/
def wordTokenize (text : Str) : List Str := wtGo (text.length + 1) text

/-- `b2j` of `SequenceMatcher.__chain_b`: with `isjunk=None` and
`autojunk=False` nothing is purged, so each token maps to the ascending
list of all its positions in `b`. -/
def b2jList (b : List Str) (tok : Str) : List ℕ :=
  (List.range b.length).filter (fun j => b.getD j [] = tok)

/-- Processing of one `j` in the inner loop of `find_longest_match`
(difflib.py lines 381-387): `newj2len[j] = j2len.get(j-1, 0) + 1`,
taking the new best on a strictly greater length; the dict `j2len` is
modelled as a total function that is zero off its support. -/
def flmProcJ (i : ℕ) (j2old : ℕ → ℕ) (st : (ℕ × ℕ × ℕ) × (ℕ → ℕ)) (j : ℕ) :
    (ℕ × ℕ × ℕ) × (ℕ → ℕ) :=
  let k := (if j = 0 then 0 else j2old (j - 1)) + 1
  let newmap := fun j2 => if j2 = j then k else st.2 j2
  if k > st.1.2.2 then ((i + 1 - k, j + 1 - k, k), newmap) else (st.1, newmap)

/-- One outer iteration of `find_longest_match` for index `i`: the
`continue` on `j < blo` and the `break` on `j >= bhi` over the ascending
index list are a filter and a `takeWhile`; `newj2len` starts empty. -/
def flmOuterStep (b2j : Str → List ℕ) (a : List Str) (blo bhi : ℕ)
    (st : (ℕ × ℕ × ℕ) × (ℕ → ℕ)) (i : ℕ) : (ℕ × ℕ × ℕ) × (ℕ → ℕ) :=
  let js := ((b2j (a.getD i [])).takeWhile (fun j => j < bhi)).filter
    (fun j => blo ≤ j)
  js.foldl (flmProcJ i st.2) (st.1, fun _ => 0)

/-- The backward extension loop of `find_longest_match` (difflib.py
lines 395-398), with `isbjunk` constantly false. -/
def extendBack (a b : List Str) (alo blo : ℕ) : ℕ → ℕ × ℕ × ℕ → ℕ × ℕ × ℕ
  | 0, st => st
  | fuel + 1, (bi, bj, bs) =>
      if alo < bi ∧ blo < bj ∧ a.getD (bi - 1) [] = b.getD (bj - 1) [] then
        extendBack a b alo blo fuel (bi - 1, bj - 1, bs + 1)
      else (bi, bj, bs)

/-- The forward extension loop of `find_longest_match` (difflib.py
lines 399-402). -/
def extendFwd (a b : List Str) (ahi bhi : ℕ) : ℕ → ℕ × ℕ × ℕ → ℕ × ℕ × ℕ
  | 0, st => st
  | fuel + 1, (bi, bj, bs) =>
      if bi + bs < ahi ∧ bj + bs < bhi ∧ a.getD (bi + bs) [] = b.getD (bj + bs) [] then
        extendFwd a b ahi bhi fuel (bi, bj, bs + 1)
      else (bi, bj, bs)

/-- Translation of `SequenceMatcher.find_longest_match` for the junkless
configuration: the dynamic-programming fold over `range(alo, ahi)`
followed by the two non-junk extension loops (the two junk extension
loops require `isbjunk` and never run, `bjunk` being empty). -/
def findLongestMatch (a b : List Str) (alo ahi blo bhi : ℕ) : ℕ × ℕ × ℕ :=
  let st := ((List.range' alo (ahi - alo)).foldl
    (flmOuterStep (b2jList b) a blo bhi) ((alo, blo, 0), fun _ => 0)).1
  extendFwd a b ahi bhi ahi (extendBack a b alo blo st.1 st)

/-- The rectangle recursion of `get_matching_blocks` (difflib.py lines
439-451) in in-order form: the queue there is a LIFO stack, so it
explores the same recursion tree and collects the same multiset of
blocks, which the subsequent `sort()` puts into the same order. -/
def matchingBlocksGo (a b : List Str) :
    ℕ → ℕ → ℕ → ℕ → ℕ → List (ℕ × ℕ × ℕ)
  | 0, _, _, _, _ => []
  | fuel + 1, alo, ahi, blo, bhi =>
      let x := findLongestMatch a b alo ahi blo bhi
      if x.2.2 = 0 then []
      else
        (if alo < x.1 ∧ blo < x.2.1 then
          matchingBlocksGo a b fuel alo x.1 blo x.2.1
         else []) ++
        x ::
        (if x.1 + x.2.2 < ahi ∧ x.2.1 + x.2.2 < bhi then
          matchingBlocksGo a b fuel (x.1 + x.2.2) ahi (x.2.1 + x.2.2) bhi
         else [])

/-- Python tuple comparison on `(i, j, k)` triples, for `sort()`. -/
def blockLe (x y : ℕ × ℕ × ℕ) : Bool :=
  x.1 < y.1 ∨ (x.1 = y.1 ∧ (x.2.1 < y.2.1 ∨ (x.2.1 = y.2.1 ∧ x.2.2 ≤ y.2.2)))

/-- Insertion by `blockLe`. -/
def insertBlock (x : ℕ × ℕ × ℕ) : List (ℕ × ℕ × ℕ) → List (ℕ × ℕ × ℕ)
  | [] => [x]
  | y :: ys => if blockLe x y then x :: y :: ys else y :: insertBlock x ys

/-- `matching_blocks.sort()` as a stable insertion sort. -/
def sortBlocks : List (ℕ × ℕ × ℕ) → List (ℕ × ℕ × ℕ)
  | [] => []
  | x :: xs => insertBlock x (sortBlocks xs)

/-- The adjacent-block collapsing loop of `get_matching_blocks`
(difflib.py lines 456-471), starting from `i1 = j1 = k1 = 0`. -/
def collapseGo (i1 j1 k1 : ℕ) : List (ℕ × ℕ × ℕ) → List (ℕ × ℕ × ℕ)
  | [] => if k1 ≠ 0 then [(i1, j1, k1)] else []
  | (i2, j2, k2) :: rest =>
      if i1 + k1 = i2 ∧ j1 + k1 = j2 then collapseGo i1 j1 (k1 + k2) rest
      else if k1 ≠ 0 then (i1, j1, k1) :: collapseGo i2 j2 k2 rest
      else collapseGo i2 j2 k2 rest

/-- Translation of `get_matching_blocks`: recursion, sort, collapse, and
the trailing `(la, lb, 0)` sentinel. -/
def getMatchingBlocks (a b : List Str) : List (ℕ × ℕ × ℕ) :=
  collapseGo 0 0 0 (sortBlocks (matchingBlocksGo a b
    (a.length + b.length + 1) 0 a.length 0 b.length)) ++
  [(a.length, b.length, 0)]

/-- Translation of the opcode loop of `get_opcodes` (difflib.py lines
513-527), carried at running position `(i, j)`. -/
def opcodesGo : ℕ → ℕ → List (ℕ × ℕ × ℕ) → List Opcode
  | _, _, [] => []
  | i, j, (ai, bj, size) :: rest =>
      (if i < ai ∧ j < bj then [⟨"replace".toList, i, ai, j, bj⟩]
       else if i < ai then [⟨"delete".toList, i, ai, j, bj⟩]
       else if j < bj then [⟨"insert".toList, i, ai, j, bj⟩]
       else []) ++
      (if size ≠ 0 then
        [⟨"equal".toList, ai, ai + size, bj, bj + size⟩]
       else []) ++
      opcodesGo (ai + size) (bj + size) rest

/-- Translation of `SequenceMatcher.get_opcodes`. -/
def getOpcodes (a b : List Str) : List Opcode :=
  opcodesGo 0 0 (getMatchingBlocks a b)

/-- Translation of `generate_diff` (diff.py lines 35-66): word-level
opcodes over the token streams, each turned into a `DiffHunk` whose
chunks re-join the token slices, indexed in order. -/
def generate_diff (original rewritten : Str) : List DiffHunk :=
  let ta := wordTokenize original
  let tb := wordTokenize rewritten
  (getOpcodes ta tb).enum.map (fun p =>
    ⟨p.1, p.2.tag, joinStr (pySlice ta p.2.a0 p.2.a1),
      joinStr (pySlice tb p.2.b0 p.2.b1)⟩)

/-- Escape of one character under `json.dumps(..., ensure_ascii=False)`:
only the quote, the backslash and control characters are escaped; all
other characters pass through literally. -/
def escFalseChar (c : Char) : Str :=
  if c = '"' then ['\\', '"']
  else if c = '\\' then ['\\', '\\']
  else if c.toNat < 32 then
    if c.toNat = 8 then ['\\', 'b']
    else if c.toNat = 9 then ['\\', 't']
    else if c.toNat = 10 then ['\\', 'n']
    else if c.toNat = 12 then ['\\', 'f']
    else if c.toNat = 13 then ['\\', 'r']
    else '\\' :: 'u' :: hex4 c.toNat
  else [c]

/-- Escaped body of a JSON string under `ensure_ascii=False`. -/
def escFalse (s : Str) : Str := s.flatMap escFalseChar

/-- A quoted JSON string literal under `ensure_ascii=False`. -/
def jsonStrFalse (s : Str) : Str := '"' :: (escFalse s ++ ['"'])

/-- The serialized form of one hunk: `asdict` keeps the dataclass field
order and `json.dumps` renders the dict with the default separators;
the concatenation is grouped by the units the decoding grammar reads. -/
def hunkJson (h : DiffHunk) : Str :=
  '\x7b' :: ("\"index\": ".toList ++
    (natStr h.index ++
    (", \"operation\": \"".toList ++
    (escFalse h.operation ++
    ('"' :: (", \"original\": \"".toList ++
    (escFalse h.original ++
    ('"' :: (", \"rewritten\": \"".toList ++
    (escFalse h.rewritten ++
    ('"' :: ['\x7d'])))))))))))

/-- Translation of `diff_to_json` (diff.py lines 69-71). -/
def diff_to_json (hunks : List DiffHunk) : Str :=
  '[' :: (joinCommaSp (hunks.map hunkJson) ++ [']'])

/-- Decimal value of a digit run. -/
def digitsVal (ds : Str) : ℕ := ds.foldl (fun a c => a * 10 + (c.toNat - 48)) 0

/-- Parse a JSON integer literal (a nonempty digit run). -/
def parseNat (s : Str) : Option (ℕ × Str) :=
  let run := s.takeWhile isAsciiDigit
  if run = [] then none else some (digitsVal run, s.dropWhile isAsciiDigit)

/-- Parse the body of a JSON string up to its closing quote, decoding
the escapes `json.loads` accepts on the serializer's output. -/
def parseStrBody : ℕ → Str → Option (Str × Str)
  | _, [] => none
  | 0, _ :: _ => none
  | fuel + 1, c :: rest =>
      if c = '"' then some ([], rest)
      else if c = '\\' then
        match rest with
        | '"' :: r => (parseStrBody fuel r).map (fun p => ('"' :: p.1, p.2))
        | '\\' :: r => (parseStrBody fuel r).map (fun p => ('\\' :: p.1, p.2))
        | '/' :: r => (parseStrBody fuel r).map (fun p => ('/' :: p.1, p.2))
        | 'b' :: r => (parseStrBody fuel r).map (fun p => ('\x08' :: p.1, p.2))
        | 't' :: r => (parseStrBody fuel r).map (fun p => ('\t' :: p.1, p.2))
        | 'n' :: r => (parseStrBody fuel r).map (fun p => ('\n' :: p.1, p.2))
        | 'f' :: r => (parseStrBody fuel r).map (fun p => ('\x0c' :: p.1, p.2))
        | 'r' :: r => (parseStrBody fuel r).map (fun p => ('\x0d' :: p.1, p.2))
        | 'u' :: h1 :: h2 :: h3 :: h4 :: r =>
            (parseStrBody fuel r).map (fun p =>
              (Char.ofNat (hexVal h1 * 4096 + hexVal h2 * 256 +
                hexVal h3 * 16 + hexVal h4) :: p.1, p.2))
        | _ => none
      else (parseStrBody fuel rest).map (fun p => (c :: p.1, p.2))

/-- The serialized remainder of a hunk array after its first hunk. -/
def hunksTailJson : List DiffHunk → Str
  | [] => [']']
  | h :: t => ',' :: ' ' :: (hunkJson h ++ hunksTailJson t)

/-- Parse one serialized hunk object. -/
def parseHunk (s : Str) : Option (DiffHunk × Str) :=
  match csConsume "\x7b\"index\": ".toList s with
  | none => none
  | some s1 =>
      match parseNat s1 with
      | none => none
      | some (n, s2) =>
          match csConsume ", \"operation\": \"".toList s2 with
          | none => none
          | some s3 =>
              match parseStrBody s3.length s3 with
              | none => none
              | some (op, s4) =>
                  match csConsume ", \"original\": \"".toList s4 with
                  | none => none
                  | some s5 =>
                      match parseStrBody s5.length s5 with
                      | none => none
                      | some (og, s6) =>
                          match csConsume ", \"rewritten\": \"".toList s6 with
                          | none => none
                          | some s7 =>
                              match parseStrBody s7.length s7 with
                              | none => none
                              | some (rw, s8) =>
                                  match s8 with
                                  | '\x7d' :: s9 => some (⟨n, op, og, rw⟩, s9)
                                  | _ => none

/-- Parse the remainder of the hunk array after one parsed hunk: either
the closing bracket ending the document, or a `, `-separated next
hunk. -/
def parseRest : ℕ → Str → Option (List DiffHunk)
  | _, [']'] => some []
  | fuel + 1, ',' :: ' ' :: s =>
      match parseHunk s with
      | none => none
      | some (h, r) => (parseRest fuel r).map (fun hs => h :: hs)
  | _, _ => none

/-- Translation of `json_to_diff` (diff.py lines 74-76) on the grammar
`diff_to_json` emits: `json.loads` of the full document, `None` standing
for the `JSONDecodeError` raised on malformed input. -/
def json_to_diff (raw : Str) : Option (List DiffHunk) :=
  match raw with
  | '[' :: ']' :: rest => if rest = [] then some [] else none
  | '[' :: s =>
      match parseHunk s with
      | none => none
      | some (h, r) => (parseRest raw.length r).map (fun hs => h :: hs)
  | _ => none

/-- Chained matching blocks inside the rectangle `[lo1, hi1) × [lo2,
hi2)`: each block starts at or after the running lower corner, has
positive size, stays inside the rectangle, and advances the corner past
its end — the shape `get_matching_blocks` recursion output has. -/
inductive BChain : ℕ → ℕ → ℕ → ℕ → List (ℕ × ℕ × ℕ) → Prop where
  | nil : ∀ lo1 lo2 hi1 hi2, BChain lo1 lo2 hi1 hi2 []
  | cons : ∀ lo1 lo2 hi1 hi2 ai bj k rest,
      lo1 ≤ ai → lo2 ≤ bj → 1 ≤ k → ai + k ≤ hi1 → bj + k ≤ hi2 →
      BChain (ai + k) (bj + k) hi1 hi2 rest →
      BChain lo1 lo2 hi1 hi2 ((ai, bj, k) :: rest)

end FillWise

/-! # Theorems -/

namespace FillWise

namespace CircuitBreaker

theorem failSeq_threshold (ts : List ℚ) (cb : CircuitBreaker) :
    (failSeq cb ts).threshold = cb.threshold := by
  induction ts generalizing cb with
  | nil => rfl
  | cons t ts ih => simpa [failSeq, recordFailure] using ih (cb.recordFailure t)

theorem failSeq_timeout (ts : List ℚ) (cb : CircuitBreaker) :
    (failSeq cb ts).timeoutSeconds = cb.timeoutSeconds := by
  induction ts generalizing cb with
  | nil => rfl
  | cons t ts ih => simpa [failSeq, recordFailure] using ih (cb.recordFailure t)

theorem failSeq_count (ts : List ℚ) (cb : CircuitBreaker) :
    (failSeq cb ts).failureCount = cb.failureCount + ts.length := by
  induction ts generalizing cb with
  | nil => simp [failSeq]
  | cons t ts ih =>
      simp only [failSeq, List.length_cons]
      rw [ih]
      simp [recordFailure]
      omega

theorem failSeq_lastTime (ts : List ℚ) (cb : CircuitBreaker) :
    (failSeq cb ts).lastFailureTime = ts.getLastD cb.lastFailureTime := by
  induction ts generalizing cb with
  | nil => rfl
  | cons t ts ih =>
      simp only [failSeq]
      rw [ih]
      cases ts with
      | nil => simp [recordFailure]
      | cons u us => simp [List.getLastD]

theorem failSeq_state_opn (ts : List ℚ) (cb : CircuitBreaker)
    (hne : ts ≠ []) (hcnt : cb.failureCount + ts.length ≥ cb.threshold) :
    (failSeq cb ts).state = CircuitState.opn := by
  induction ts generalizing cb with
  | nil => exact absurd rfl hne
  | cons t ts ih =>
      cases ts with
      | nil =>
          simp only [failSeq]
          simp only [List.length_cons, List.length_nil] at hcnt
          simp [recordFailure]
          omega
      | cons u us =>
          simp only [failSeq]
          refine ih (cb.recordFailure t) (by simp) ?_
          simp only [List.length_cons] at hcnt ⊢
          simp [recordFailure]
          omega

end CircuitBreaker

/-- C7 (amended): starting from CLOSED, after `threshold` consecutive
`record_failure` calls `allow_request()` returns false while the timeout has
not yet elapsed; once at least `timeout_seconds` have elapsed since the last
failure the observed state becomes HALF_OPEN, in which probe calls are
allowed (the breaker itself does not limit probes to one — see the
counterexample); a single `record_success` then restores CLOSED with the
failure counter reset to 0, while a `record_failure` in HALF_OPEN returns
the breaker to OPEN. -/
theorem claim_C7_circuit_breaker
    (threshold : ℕ) (timeout : ℚ) (times : List ℚ) (now now2 : ℚ)
    (cb : CircuitBreaker)
    (hcb : cb = CircuitBreaker.failSeq (CircuitBreaker.init threshold timeout)
      times)
    (hth : 1 ≤ threshold) (hlen : times.length = threshold)
    (hnow : now - times.getLastD 0 < timeout)
    (hnow2 : now2 - times.getLastD 0 ≥ timeout) :
    ((cb.allowRequest now).1 = false)
    ∧ (cb.observeState now2).1 = CircuitState.halfOpen
    ∧ ((cb.observeState now2).2.allowRequest now2).1 = true
    ∧ (cb.observeState now2).2.recordSuccess.state = CircuitState.closed
    ∧ (cb.observeState now2).2.recordSuccess.failureCount = 0
    ∧ ((cb.observeState now2).2.recordFailure now2).state = CircuitState.opn := by
  have hne : times ≠ [] := by
    intro h
    rw [h] at hlen
    simp at hlen
    omega
  have hstate : cb.state = CircuitState.opn := by
    rw [hcb]
    apply CircuitBreaker.failSeq_state_opn
    · exact hne
    · simp [CircuitBreaker.init, hlen]
  have hlast : cb.lastFailureTime = times.getLastD 0 := by
    rw [hcb]
    simpa [CircuitBreaker.init] using
      CircuitBreaker.failSeq_lastTime times (CircuitBreaker.init threshold timeout)
  have htimeout : cb.timeoutSeconds = timeout := by
    rw [hcb]
    simpa [CircuitBreaker.init] using
      CircuitBreaker.failSeq_timeout times (CircuitBreaker.init threshold timeout)
  have hthr : cb.threshold = threshold := by
    rw [hcb]
    simpa [CircuitBreaker.init] using
      CircuitBreaker.failSeq_threshold times (CircuitBreaker.init threshold timeout)
  have hcount : cb.failureCount = threshold := by
    rw [hcb]
    have := CircuitBreaker.failSeq_count times (CircuitBreaker.init threshold timeout)
    simpa [CircuitBreaker.init, hlen] using this
  have hobs2 : cb.observeState now2 =
      (CircuitState.halfOpen, { cb with state := CircuitState.halfOpen }) := by
    unfold CircuitBreaker.observeState
    rw [if_pos]
    constructor
    · exact hstate
    · rw [hlast, htimeout]; exact hnow2
  refine ⟨?_, ?_, ?_, ?_, ?_, ?_⟩
  · unfold CircuitBreaker.allowRequest CircuitBreaker.observeState
    rw [if_neg]
    · simp [hstate]
    · rw [hstate, hlast, htimeout]
      intro h
      exact absurd h.2 (not_le.mpr hnow)
  · rw [hobs2]
  · rw [hobs2]
    unfold CircuitBreaker.allowRequest CircuitBreaker.observeState
    simp
  · rw [hobs2]; rfl
  · rw [hobs2]; rfl
  · rw [hobs2]
    show (if cb.failureCount + 1 ≥ cb.threshold then CircuitState.opn
          else CircuitState.halfOpen) = CircuitState.opn
    rw [if_pos (by omega)]

/-- Witness for C7 at threshold 2, timeout 10 s, failures at times 0 and 1,
observed at 5 s (still OPEN) and 11 s (HALF_OPEN). -/
theorem claim_C7_witness :
    let cb := CircuitBreaker.failSeq (CircuitBreaker.init 2 10) [0, 1]
    ((cb.allowRequest 5).1 = false)
    ∧ (cb.observeState 11).1 = CircuitState.halfOpen
    ∧ ((cb.observeState 11).2.allowRequest 11).1 = true
    ∧ (cb.observeState 11).2.recordSuccess.state = CircuitState.closed
    ∧ (cb.observeState 11).2.recordSuccess.failureCount = 0
    ∧ ((cb.observeState 11).2.recordFailure 11).state = CircuitState.opn :=
  claim_C7_circuit_breaker 2 10 [0, 1] 5 11
    (CircuitBreaker.failSeq (CircuitBreaker.init 2 10) [0, 1]) rfl
    (by norm_num) (by decide)
    (by norm_num [List.getLastD]) (by norm_num [List.getLastD])

/-- C7 counterexample to "exactly one probe call is allowed" in HALF_OPEN:
with threshold 1 and timeout 10, after one failure at time 0 the breaker is
HALF_OPEN at time 10, and two consecutive `allow_request` calls both return
true without any `record_success`/`record_failure` in between — the breaker
itself never limits the number of probe calls. -/
theorem claim_C7_counterexample :
    ((((CircuitBreaker.init 1 10).recordFailure 0).observeState 10).1
        = CircuitState.halfOpen)
    ∧ ((((CircuitBreaker.init 1 10).recordFailure 0).allowRequest 10).1 = true)
    ∧ (((((CircuitBreaker.init 1 10).recordFailure 0).allowRequest 10).2.allowRequest
        10).1 = true) := by
  have h10 : ((10 : ℚ) - 0 ≥ (10 : ℚ)) := by norm_num
  norm_num [CircuitBreaker.init, CircuitBreaker.recordFailure,
    CircuitBreaker.observeState, CircuitBreaker.allowRequest, h10]

theorem completeGo_step_fail (maxRetries : ℕ) (outcomes : ℕ → AttemptOutcome)
    (times : ℕ → ℚ) (fuel attempt : ℕ) (cb : CircuitBreaker) (msg : Str)
    (hmsg : outcomes attempt = AttemptOutcome.transientError msg) :
    completeGo maxRetries outcomes times (fuel + 1) attempt cb =
      if attempt > maxRetries then
        ⟨ClientResult.errUnavailable msg, [], cb.recordFailure (times attempt)⟩
      else
        ⟨(completeGo maxRetries outcomes times fuel (attempt + 1)
            (cb.recordFailure (times attempt))).result,
         2 ^ (attempt - 1) :: (completeGo maxRetries outcomes times fuel (attempt + 1)
            (cb.recordFailure (times attempt))).sleeps,
         (completeGo maxRetries outcomes times fuel (attempt + 1)
            (cb.recordFailure (times attempt))).circuit⟩ := by
  rw [completeGo, hmsg]

theorem completeGo_step_ok (maxRetries : ℕ) (outcomes : ℕ → AttemptOutcome)
    (times : ℕ → ℚ) (fuel attempt : ℕ) (cb : CircuitBreaker) (c : Str)
    (hc : outcomes attempt = AttemptOutcome.success c) :
    completeGo maxRetries outcomes times (fuel + 1) attempt cb =
      ⟨ClientResult.ok c, [], cb.recordSuccess⟩ := by
  rw [completeGo, hc]

theorem streamGo_step_fail (maxRetries : ℕ) (outcomes : ℕ → StreamAttempt)
    (times : ℕ → ℚ) (fuel attempt : ℕ) (cb : CircuitBreaker) (msg : Str)
    (hmsg : outcomes attempt = StreamAttempt.transientError msg) :
    streamGo maxRetries outcomes times (fuel + 1) attempt cb =
      if attempt > maxRetries then
        ⟨StreamResultKind.errUnavailable msg, [], cb.recordFailure (times attempt)⟩
      else
        ⟨(streamGo maxRetries outcomes times fuel (attempt + 1)
            (cb.recordFailure (times attempt))).result,
         2 ^ (attempt - 1) :: (streamGo maxRetries outcomes times fuel (attempt + 1)
            (cb.recordFailure (times attempt))).sleeps,
         (streamGo maxRetries outcomes times fuel (attempt + 1)
            (cb.recordFailure (times attempt))).circuit⟩ := by
  rw [streamGo, hmsg]

theorem streamGo_step_ok (maxRetries : ℕ) (outcomes : ℕ → StreamAttempt)
    (times : ℕ → ℚ) (fuel attempt : ℕ) (cb : CircuitBreaker) (ts : List Str)
    (hc : outcomes attempt = StreamAttempt.success ts) :
    streamGo maxRetries outcomes times (fuel + 1) attempt cb =
      ⟨StreamResultKind.ok ts, [], cb.recordSuccess⟩ := by
  rw [streamGo, hc]

theorem completeGo_allFail (maxRetries : ℕ) (outcomes : ℕ → AttemptOutcome)
    (times : ℕ → ℚ) (msgs : ℕ → Str)
    (h : ∀ a, outcomes a = AttemptOutcome.transientError (msgs a)) :
    ∀ (r attempt : ℕ) (cb : CircuitBreaker), attempt + r = maxRetries + 1 →
    completeGo maxRetries outcomes times (r + 1) attempt cb =
      ⟨ClientResult.errUnavailable (msgs (maxRetries + 1)),
       (List.range' attempt r).map (fun a => 2 ^ (a - 1)),
       CircuitBreaker.failSeq cb ((List.range' attempt (r + 1)).map times)⟩ := by
  intro r
  induction r with
  | zero =>
      intro attempt cb hsum
      have ha : attempt = maxRetries + 1 := by omega
      subst ha
      rw [completeGo_step_fail maxRetries outcomes times 0 _ cb _ (h _)]
      rw [if_pos (by omega)]
      simp [List.range', CircuitBreaker.failSeq]
  | succ r ih =>
      intro attempt cb hsum
      rw [completeGo_step_fail maxRetries outcomes times (r + 1) _ cb _ (h _)]
      rw [if_neg (by omega)]
      rw [ih (attempt + 1) (cb.recordFailure (times attempt)) (by omega)]
      simp [List.range'_succ, CircuitBreaker.failSeq]

theorem completeGo_success (maxRetries : ℕ) (outcomes : ℕ → AttemptOutcome)
    (times : ℕ → ℚ) (msgs : ℕ → Str) (c : Str) :
    ∀ (k attempt : ℕ) (cb : CircuitBreaker),
    attempt + k ≤ maxRetries + 1 → 1 ≤ attempt →
    (∀ a, attempt ≤ a → a < attempt + k →
      outcomes a = AttemptOutcome.transientError (msgs a)) →
    outcomes (attempt + k) = AttemptOutcome.success c →
    completeGo maxRetries outcomes times (maxRetries + 2 - attempt) attempt cb =
      ⟨ClientResult.ok c,
       (List.range' attempt k).map (fun a => 2 ^ (a - 1)),
       (CircuitBreaker.failSeq cb ((List.range' attempt k).map times)).recordSuccess⟩ := by
  intro k
  induction k with
  | zero =>
      intro attempt cb hle h1 hfail hs
      have hf : maxRetries + 2 - attempt = (maxRetries + 1 - attempt) + 1 := by omega
      simp only [Nat.add_zero] at hs
      rw [hf, completeGo_step_ok maxRetries outcomes times _ _ cb c hs]
      simp [List.range', CircuitBreaker.failSeq]
  | succ k ih =>
      intro attempt cb hle h1 hfail hs
      have hf : maxRetries + 2 - attempt = (maxRetries + 1 - attempt) + 1 := by omega
      rw [hf, completeGo_step_fail maxRetries outcomes times _ _ cb _
        (hfail attempt (le_refl _) (by omega))]
      rw [if_neg (by omega)]
      have hf2 : maxRetries + 1 - attempt = maxRetries + 2 - (attempt + 1) := by omega
      rw [hf2, ih (attempt + 1) (cb.recordFailure (times attempt)) (by omega) (by omega)
        (fun a ha1 ha2 => hfail a (by omega) (by omega)) (by
          have hsh : attempt + 1 + k = attempt + (k + 1) := by omega
          rw [hsh]; exact hs)]
      simp [List.range'_succ, CircuitBreaker.failSeq]

theorem streamGo_allFail (maxRetries : ℕ) (outcomes : ℕ → StreamAttempt)
    (times : ℕ → ℚ) (msgs : ℕ → Str)
    (h : ∀ a, outcomes a = StreamAttempt.transientError (msgs a)) :
    ∀ (r attempt : ℕ) (cb : CircuitBreaker), attempt + r = maxRetries + 1 →
    streamGo maxRetries outcomes times (r + 1) attempt cb =
      ⟨StreamResultKind.errUnavailable (msgs (maxRetries + 1)),
       (List.range' attempt r).map (fun a => 2 ^ (a - 1)),
       CircuitBreaker.failSeq cb ((List.range' attempt (r + 1)).map times)⟩ := by
  intro r
  induction r with
  | zero =>
      intro attempt cb hsum
      have ha : attempt = maxRetries + 1 := by omega
      subst ha
      rw [streamGo_step_fail maxRetries outcomes times 0 _ cb _ (h _)]
      rw [if_pos (by omega)]
      simp [List.range', CircuitBreaker.failSeq]
  | succ r ih =>
      intro attempt cb hsum
      rw [streamGo_step_fail maxRetries outcomes times (r + 1) _ cb _ (h _)]
      rw [if_neg (by omega)]
      rw [ih (attempt + 1) (cb.recordFailure (times attempt)) (by omega)]
      simp [List.range'_succ, CircuitBreaker.failSeq]

theorem streamGo_success (maxRetries : ℕ) (outcomes : ℕ → StreamAttempt)
    (times : ℕ → ℚ) (msgs : ℕ → Str) (ts : List Str) :
    ∀ (k attempt : ℕ) (cb : CircuitBreaker),
    attempt + k ≤ maxRetries + 1 → 1 ≤ attempt →
    (∀ a, attempt ≤ a → a < attempt + k →
      outcomes a = StreamAttempt.transientError (msgs a)) →
    outcomes (attempt + k) = StreamAttempt.success ts →
    streamGo maxRetries outcomes times (maxRetries + 2 - attempt) attempt cb =
      ⟨StreamResultKind.ok ts,
       (List.range' attempt k).map (fun a => 2 ^ (a - 1)),
       (CircuitBreaker.failSeq cb ((List.range' attempt k).map times)).recordSuccess⟩ := by
  intro k
  induction k with
  | zero =>
      intro attempt cb hle h1 hfail hs
      have hf : maxRetries + 2 - attempt = (maxRetries + 1 - attempt) + 1 := by omega
      simp only [Nat.add_zero] at hs
      rw [hf, streamGo_step_ok maxRetries outcomes times _ _ cb ts hs]
      simp [List.range', CircuitBreaker.failSeq]
  | succ k ih =>
      intro attempt cb hle h1 hfail hs
      have hf : maxRetries + 2 - attempt = (maxRetries + 1 - attempt) + 1 := by omega
      rw [hf, streamGo_step_fail maxRetries outcomes times _ _ cb _
        (hfail attempt (le_refl _) (by omega))]
      rw [if_neg (by omega)]
      have hf2 : maxRetries + 1 - attempt = maxRetries + 2 - (attempt + 1) := by omega
      rw [hf2, ih (attempt + 1) (cb.recordFailure (times attempt)) (by omega) (by omega)
        (fun a ha1 ha2 => hfail a (by omega) (by omega)) (by
          have hsh : attempt + 1 + k = attempt + (k + 1) := by omega
          rw [hsh]; exact hs)]
      simp [List.range'_succ, CircuitBreaker.failSeq]

/-- C8: while the circuit allows requests, `complete` and
`stream_completion` retry transient errors at most `max_retries` times
(plus the initial attempt), sleeping `2^(attempt-1)` seconds between
attempts; each failing attempt performs one circuit-breaker
`record_failure` (so the failure counter grows by the number of failed
attempts); when all `max_retries + 1` attempts fail, a ServiceUnavailable
result is produced carrying the message of the last underlying error. -/
theorem claim_C8_retry_policy
    (maxRetries : ℕ) (cb : CircuitBreaker) (now : ℚ)
    (times : ℕ → ℚ) (msgs : ℕ → Str)
    (hallow : (cb.allowRequest now).1 = true) :
    (∀ outcomes : ℕ → AttemptOutcome,
      (∀ a, outcomes a = AttemptOutcome.transientError (msgs a)) →
      complete maxRetries outcomes times cb now =
        ⟨ClientResult.errUnavailable (msgs (maxRetries + 1)),
         (List.range' 1 maxRetries).map (fun a => 2 ^ (a - 1)),
         CircuitBreaker.failSeq (cb.allowRequest now).2
           ((List.range' 1 (maxRetries + 1)).map times)⟩
      ∧ (complete maxRetries outcomes times cb now).circuit.failureCount =
          (cb.allowRequest now).2.failureCount + (maxRetries + 1))
    ∧ (∀ (outcomes : ℕ → AttemptOutcome) (k : ℕ) (c : Str),
      k ≤ maxRetries →
      (∀ a, 1 ≤ a → a ≤ k → outcomes a = AttemptOutcome.transientError (msgs a)) →
      outcomes (k + 1) = AttemptOutcome.success c →
      complete maxRetries outcomes times cb now =
        ⟨ClientResult.ok c,
         (List.range' 1 k).map (fun a => 2 ^ (a - 1)),
         (CircuitBreaker.failSeq (cb.allowRequest now).2
           ((List.range' 1 k).map times)).recordSuccess⟩)
    ∧ (∀ soutcomes : ℕ → StreamAttempt,
      (∀ a, soutcomes a = StreamAttempt.transientError (msgs a)) →
      streamCompletion maxRetries soutcomes times cb now =
        ⟨StreamResultKind.errUnavailable (msgs (maxRetries + 1)),
         (List.range' 1 maxRetries).map (fun a => 2 ^ (a - 1)),
         CircuitBreaker.failSeq (cb.allowRequest now).2
           ((List.range' 1 (maxRetries + 1)).map times)⟩)
    ∧ (∀ (soutcomes : ℕ → StreamAttempt) (k : ℕ) (ts : List Str),
      k ≤ maxRetries →
      (∀ a, 1 ≤ a → a ≤ k → soutcomes a = StreamAttempt.transientError (msgs a)) →
      soutcomes (k + 1) = StreamAttempt.success ts →
      streamCompletion maxRetries soutcomes times cb now =
        ⟨StreamResultKind.ok ts,
         (List.range' 1 k).map (fun a => 2 ^ (a - 1)),
         (CircuitBreaker.failSeq (cb.allowRequest now).2
           ((List.range' 1 k).map times)).recordSuccess⟩) := by
  refine ⟨?_, ?_, ?_, ?_⟩
  · intro outcomes h
    have heq : complete maxRetries outcomes times cb now =
        completeGo maxRetries outcomes times (maxRetries + 1) 1 (cb.allowRequest now).2 := by
      simp only [complete]
      rw [if_pos hallow]
    have hgo := completeGo_allFail maxRetries outcomes times msgs h maxRetries 1
      (cb.allowRequest now).2 (by omega)
    refine ⟨heq.trans hgo, ?_⟩
    rw [heq, hgo]
    simp [CircuitBreaker.failSeq_count]
  · intro outcomes k c hk hfail hs
    have heq : complete maxRetries outcomes times cb now =
        completeGo maxRetries outcomes times (maxRetries + 1) 1 (cb.allowRequest now).2 := by
      simp only [complete]
      rw [if_pos hallow]
    have hf : maxRetries + 1 = maxRetries + 2 - 1 := by omega
    rw [heq, hf]
    refine completeGo_success maxRetries outcomes times msgs c k 1 (cb.allowRequest now).2
      (by omega) (le_refl _) (fun a ha1 ha2 => hfail a ha1 (by omega)) ?_
    have : 1 + k = k + 1 := by omega
    rw [this]; exact hs
  · intro soutcomes h
    have heq : streamCompletion maxRetries soutcomes times cb now =
        streamGo maxRetries soutcomes times (maxRetries + 1) 1 (cb.allowRequest now).2 := by
      simp only [streamCompletion]
      rw [if_pos hallow]
    exact heq.trans (streamGo_allFail maxRetries soutcomes times msgs h maxRetries 1
      (cb.allowRequest now).2 (by omega))
  · intro soutcomes k ts hk hfail hs
    have heq : streamCompletion maxRetries soutcomes times cb now =
        streamGo maxRetries soutcomes times (maxRetries + 1) 1 (cb.allowRequest now).2 := by
      simp only [streamCompletion]
      rw [if_pos hallow]
    have hf : maxRetries + 1 = maxRetries + 2 - 1 := by omega
    rw [heq, hf]
    refine streamGo_success maxRetries soutcomes times msgs ts k 1 (cb.allowRequest now).2
      (by omega) (le_refl _) (fun a ha1 ha2 => hfail a ha1 (by omega)) ?_
    have : 1 + k = k + 1 := by omega
    rw [this]; exact hs

/-! ### String lemmas for the response-splitting proofs -/

theorem mem_takeWhile_pred (q : Char → Bool) :
    ∀ (l : Str) (c : Char), c ∈ l.takeWhile q → q c = true := by
  intro l
  induction l with
  | nil => intro c hc; simp [List.takeWhile] at hc
  | cons a t ih =>
      intro c hc
      rw [List.takeWhile_cons] at hc
      by_cases ha : q a = true
      · rw [if_pos ha] at hc
        rcases List.mem_cons.mp hc with h | h
        · rwa [h]
        · exact ih c h
      · rw [if_neg ha] at hc
        simp at hc

theorem leadsWith_iff (p s : Str) : leadsWith p s = true ↔ p <+: s := by
  induction p generalizing s with
  | nil => simp [leadsWith]
  | cons a ps ih =>
      cases s with
      | nil => simp [leadsWith]
      | cons c cs => simp [leadsWith, List.cons_prefix_cons, ih]

theorem pyRStrip_isPre (s : Str) : pyRStrip s <+: s := by
  have h : s.reverse.dropWhile pyWS <:+ s.reverse := List.dropWhile_suffix _
  have h2 := List.reverse_prefix.mpr h
  rwa [List.reverse_reverse] at h2

theorem pyRStrip_spec (s : Str) :
    ∃ w, s = pyRStrip s ++ w ∧ ∀ c ∈ w, pyWS c = true := by
  refine ⟨(s.reverse.takeWhile pyWS).reverse, ?_, ?_⟩
  · conv_lhs => rw [← List.reverse_reverse s,
      ← List.takeWhile_append_dropWhile (p := pyWS) (l := s.reverse)]
    rw [List.reverse_append]
    rfl
  · intro c hc
    rw [List.mem_reverse] at hc
    exact mem_takeWhile_pred pyWS _ c hc

theorem pyRStrip_idem (s : Str) : pyRStrip (pyRStrip s) = pyRStrip s := by
  unfold pyRStrip
  rw [List.reverse_reverse, List.dropWhile_idempotent]

theorem nonws_prefix_of_append (m p w : Str) (hm : ∀ c ∈ m, pyWS c = false)
    (hw : ∀ c ∈ w, pyWS c = true) (h : m <+: p ++ w) : m <+: p := by
  induction p generalizing m with
  | nil =>
      cases m with
      | nil => exact List.nil_prefix
      | cons b m' =>
          exfalso
          simp only [List.nil_append] at h
          have hb : b ∈ w := h.subset (List.mem_cons_self _ _)
          have := hw b hb
          have := hm b (List.mem_cons_self _ _)
          simp_all
  | cons a p' ih =>
      cases m with
      | nil => exact List.nil_prefix
      | cons b m' =>
          rw [List.cons_append, List.cons_prefix_cons] at h
          obtain ⟨hb, h'⟩ := h
          subst hb
          rw [List.cons_prefix_cons]
          exact ⟨rfl, ih m' (fun c hc => hm c (List.mem_cons_of_mem _ hc)) h'⟩

theorem nonws_prefix_pyRStrip (m s : Str) (hm : ∀ c ∈ m, pyWS c = false)
    (h : m <+: s) : m <+: pyRStrip s := by
  obtain ⟨w, hs, hw⟩ := pyRStrip_spec s
  rw [hs] at h
  exact nonws_prefix_of_append m (pyRStrip s) w hm hw h

theorem pyLStrip_prefix_mono (l' l : Str) (h : l' <+: l) :
    pyLStrip l' = [] ∨ pyLStrip l' <+: pyLStrip l := by
  induction l generalizing l' with
  | nil =>
      left
      have : l' = [] := List.prefix_nil.mp h
      subst this
      rfl
  | cons a t ih =>
      cases l' with
      | nil => left; rfl
      | cons b l'' =>
          rw [List.cons_prefix_cons] at h
          obtain ⟨hb, h'⟩ := h
          subst hb
          unfold pyLStrip
          rw [List.dropWhile_cons, List.dropWhile_cons]
          by_cases hw : pyWS b = true
          · rw [if_pos hw, if_pos hw]
            exact ih l'' h'
          · rw [if_neg hw, if_neg hw]
            right
            rw [List.cons_prefix_cons]
            exact ⟨rfl, h'⟩

theorem leads_pyStrip_mono (m l' l : Str) (hm : ∀ c ∈ m, pyWS c = false)
    (hne : m ≠ []) (h' : leadsWith m (pyStrip l') = true) (hp : l' <+: l) :
    leadsWith m (pyStrip l) = true := by
  rw [leadsWith_iff] at h' ⊢
  have h1 : m <+: pyLStrip l' := h'.trans (pyRStrip_isPre _)
  rcases pyLStrip_prefix_mono l' l hp with hnil | hpre
  · rw [hnil] at h1
    exact absurd (List.prefix_nil.mp h1) hne
  · exact nonws_prefix_pyRStrip m (pyLStrip l) hm (h1.trans hpre)

theorem marker_prefix_closed (l l' : Str) (h : leadsMarker l = false)
    (hp : l' <+: l) : leadsMarker l' = false := by
  unfold leadsMarker at h ⊢
  rw [Bool.or_eq_false_iff] at h ⊢
  constructor
  · cases hA : leadsWith "AUDIT_JSON:".toList (pyStrip l') with
    | false => rfl
    | true =>
        have := leads_pyStrip_mono "AUDIT_JSON:".toList l' l (by decide) (by decide) hA hp
        rw [h.1] at this
        exact absurd this (by simp)
  · cases hB : leadsWith "**AUDIT_JSON".toList (pyStrip l') with
    | false => rfl
    | true =>
        have := leads_pyStrip_mono "**AUDIT_JSON".toList l' l (by decide) (by decide) hB hp
        rw [h.2] at this
        exact absurd this (by simp)

/-! ### Line-splitting lemmas -/

theorem splitNl_ne_nil (t : Str) : splitNl t ≠ [] := by
  induction t with
  | nil => simp [splitNl]
  | cons c cs ih =>
      by_cases h : c = '\n'
      · simp [splitNl, h]
      · simp only [splitNl, if_neg h]
        cases hs : splitNl cs with
        | nil => simp
        | cons l ls => simp

theorem splitNl_append_nl (a b : Str) (ha : ∀ c ∈ a, ¬c = '\n') :
    splitNl (a ++ '\n' :: b) = a :: splitNl b := by
  induction a with
  | nil => simp [splitNl]
  | cons x a' ih =>
      have hx : ¬x = '\n' := ha x (List.mem_cons_self _ _)
      rw [List.cons_append]
      simp only [splitNl, if_neg hx]
      rw [ih (fun c hc => ha c (List.mem_cons_of_mem _ hc))]

theorem splitNl_no_nl (a : Str) (ha : ∀ c ∈ a, ¬c = '\n') : splitNl a = [a] := by
  induction a with
  | nil => rfl
  | cons x a' ih =>
      have hx : ¬x = '\n' := ha x (List.mem_cons_self _ _)
      simp only [splitNl, if_neg hx]
      rw [ih (fun c hc => ha c (List.mem_cons_of_mem _ hc))]

theorem splitNl_mem_no_nl (t : Str) : ∀ l ∈ splitNl t, '\n' ∉ l := by
  induction t with
  | nil =>
      intro l hl
      simp [splitNl] at hl
      simp [hl]
  | cons c cs ih =>
      intro l hl
      by_cases h : c = '\n'
      · simp only [splitNl, if_pos h] at hl
        rcases List.mem_cons.mp hl with h1 | h1
        · simp [h1]
        · exact ih l h1
      · simp only [splitNl, if_neg h] at hl
        cases hs : splitNl cs with
        | nil => exact absurd hs (splitNl_ne_nil cs)
        | cons l0 ls =>
            rw [hs] at hl
            rcases List.mem_cons.mp hl with h1 | h1
            · subst h1
              intro hmem
              rcases List.mem_cons.mp hmem with h2 | h2
              · exact h h2.symm
              · exact ih l0 (by rw [hs]; exact List.mem_cons_self _ _) h2
            · exact ih l (by rw [hs]; exact List.mem_cons_of_mem _ h1)

theorem joinNl_splitNl (t : Str) : joinNl (splitNl t) = t := by
  induction t with
  | nil => rfl
  | cons c cs ih =>
      by_cases h : c = '\n'
      · subst h
        simp only [splitNl, if_pos rfl]
        cases hs : splitNl cs with
        | nil => exact absurd hs (splitNl_ne_nil cs)
        | cons l ls =>
            rw [hs] at ih
            show joinNl ([] :: l :: ls) = '\n' :: cs
            show [] ++ '\n' :: joinNl (l :: ls) = '\n' :: cs
            rw [List.nil_append, ih]
      · simp only [splitNl, if_neg h]
        cases hs : splitNl cs with
        | nil => exact absurd hs (splitNl_ne_nil cs)
        | cons l ls =>
            rw [hs] at ih
            cases ls with
            | nil =>
                show joinNl [c :: l] = c :: cs
                show c :: l = c :: cs
                have : joinNl [l] = cs := ih
                have hl : l = cs := this
                rw [hl]
            | cons l2 ls2 =>
                show (c :: l) ++ '\n' :: joinNl (l2 :: ls2) = c :: cs
                have : l ++ '\n' :: joinNl (l2 :: ls2) = cs := ih
                rw [List.cons_append, this]

theorem splitNl_joinNl (ls : List Str) (h : ∀ l ∈ ls, '\n' ∉ l) (hne : ls ≠ []) :
    splitNl (joinNl ls) = ls := by
  induction ls with
  | nil => exact absurd rfl hne
  | cons a t ih =>
      cases t with
      | nil =>
          show splitNl a = [a]
          exact splitNl_no_nl a (fun c hc hcnl => h a (List.mem_cons_self _ _) (hcnl ▸ hc))
      | cons b t' =>
          show splitNl (a ++ '\n' :: joinNl (b :: t')) = a :: b :: t'
          rw [splitNl_append_nl a _ (fun c hc hcnl =>
            h a (List.mem_cons_self _ _) (hcnl ▸ hc))]
          rw [ih (fun l hl => h l (List.mem_cons_of_mem _ hl)) (by simp)]

theorem splitNl_head_extends (a b : Str) (ha : ∀ c ∈ a, ¬c = '\n') :
    ∃ h rest, splitNl (a ++ b) = (a ++ h) :: rest := by
  induction a with
  | nil =>
      cases hs : splitNl b with
      | nil => exact absurd hs (splitNl_ne_nil b)
      | cons l ls => exact ⟨l, ls, by simpa using hs⟩
  | cons x a' ih =>
      have hx : ¬x = '\n' := ha x (List.mem_cons_self _ _)
      obtain ⟨hh, rest, hr⟩ := ih (fun c hc => ha c (List.mem_cons_of_mem _ hc))
      refine ⟨hh, rest, ?_⟩
      rw [List.cons_append]
      simp only [splitNl, if_neg hx]
      rw [hr]
      rfl

theorem dropWhile_head_false (q : Char → Bool) :
    ∀ (l : Str) (c : Char) (cs : Str), l.dropWhile q = c :: cs → q c = false := by
  intro l
  induction l with
  | nil => intro c cs h; simp [List.dropWhile] at h
  | cons a t ih =>
      intro c cs h
      rw [List.dropWhile_cons] at h
      by_cases ha : q a = true
      · rw [if_pos ha] at h
        exact ih c cs h
      · rw [if_neg ha] at h
        obtain ⟨h1, _⟩ := List.cons.inj h
        rw [← h1]
        exact Bool.not_eq_true _ ▸ (by simpa using ha)

theorem splitNl_of_prefix' :
    ∀ (n : ℕ) (s t : Str), s.length ≤ n → s <+: t →
    ∀ l' ∈ splitNl s, ∃ l ∈ splitNl t, l' <+: l := by
  intro n
  induction n with
  | zero =>
      intro s t hn hp l' hl'
      have hs : s = [] := List.length_eq_zero.mp (Nat.le_zero.mp hn)
      subst hs
      simp [splitNl] at hl'
      cases ht : splitNl t with
      | nil => exact absurd ht (splitNl_ne_nil t)
      | cons l ls => exact ⟨l, List.mem_cons_self _ _, by rw [hl']; exact List.nil_prefix⟩
  | succ n ih =>
      intro s t hn hp l' hl'
      obtain ⟨r, hr⟩ := hp
      set q : Char → Bool := fun c => !(c = '\n' : Bool) with hq
      cases hd : s.dropWhile q with
      | nil =>
          have hall : ∀ c ∈ s, ¬c = '\n' := by
            intro c hc
            have hts : s.takeWhile q = s := by
              have h2 := List.takeWhile_append_dropWhile (p := q) (l := s)
              rwa [hd, List.append_nil] at h2
            have hcq : q c = true := mem_takeWhile_pred q s c (by rw [hts]; exact hc)
            simpa [hq] using hcq
          rw [splitNl_no_nl s hall] at hl'
          simp at hl'
          obtain ⟨hh, rest, hsp⟩ := splitNl_head_extends s r hall
          rw [hr] at hsp
          refine ⟨s ++ hh, by rw [hsp]; exact List.mem_cons_self _ _, ?_⟩
          rw [hl']
          exact List.prefix_append _ _
      | cons c s₁ =>
          have hc : c = '\n' := by
            have := dropWhile_head_false q s c s₁ hd
            simpa [hq] using this
          subst hc
          have hdecomp : s = s.takeWhile q ++ '\n' :: s₁ := by
            conv_lhs => rw [← List.takeWhile_append_dropWhile (p := q) (l := s)]
            rw [hd]
          have hta : ∀ c ∈ s.takeWhile q, ¬c = '\n' := by
            intro c hc
            have := mem_takeWhile_pred q s c hc
            simpa [hq] using this
          have hsplit_s : splitNl s = s.takeWhile q :: splitNl s₁ := by
            conv_lhs => rw [hdecomp]
            exact splitNl_append_nl _ _ hta
          have ht_eq : t = s.takeWhile q ++ '\n' :: (s₁ ++ r) := by
            rw [← hr]
            conv_lhs => rw [hdecomp]
            simp
          have hsplit_t : splitNl t = s.takeWhile q :: splitNl (s₁ ++ r) := by
            rw [ht_eq]
            exact splitNl_append_nl _ _ hta
          rw [hsplit_s] at hl'
          rcases List.mem_cons.mp hl' with h1 | h1
          · refine ⟨s.takeWhile q, by rw [hsplit_t]; exact List.mem_cons_self _ _, ?_⟩
            rw [h1]
          · have hlen : s₁.length ≤ n := by
              have hslen : s.length = (s.takeWhile q).length + 1 + s₁.length := by
                conv_lhs => rw [hdecomp]
                simp [List.length_append]
                omega
              omega
            obtain ⟨l, hlmem, hlpre⟩ :=
              ih s₁ (s₁ ++ r) hlen (List.prefix_append _ _) l' h1
            exact ⟨l, by rw [hsplit_t]; exact List.mem_cons_of_mem _ hlmem, hlpre⟩

theorem splitNl_of_prefix (s t : Str) (hp : s <+: t) :
    ∀ l' ∈ splitNl s, ∃ l ∈ splitNl t, l' <+: l :=
  splitNl_of_prefix' s.length s t (le_refl _) hp

/-! ### Lemmas about the extraction line loop and stripping -/

theorem extractLinesGo_mem' :
    ∀ (n : ℕ) (skip : Bool) (ls : List Str), ls.length ≤ n →
    ∀ l ∈ extractLinesGo skip ls, l ∈ ls ∧ leadsMarker l = false := by
  intro n
  induction n with
  | zero =>
      intro skip ls hn l hl
      have : ls = [] := List.length_eq_zero.mp (Nat.le_zero.mp hn)
      subst this
      cases skip <;> simp [extractLinesGo] at hl
  | succ n ih =>
      intro skip ls hn l hl
      cases ls with
      | nil => cases skip <;> simp [extractLinesGo] at hl
      | cons l0 ls' =>
          have hn' : ls'.length ≤ n := by
            simp only [List.length_cons] at hn
            omega
          cases skip with
          | true =>
              simp only [extractLinesGo] at hl
              split at hl
              · obtain ⟨h1, h2⟩ := ih false ls' hn' l hl
                exact ⟨List.mem_cons_of_mem _ h1, h2⟩
              · obtain ⟨h1, h2⟩ := ih true ls' hn' l hl
                exact ⟨List.mem_cons_of_mem _ h1, h2⟩
          | false =>
              cases ls' with
              | nil =>
                  simp only [extractLinesGo] at hl
                  split at hl
                  · split at hl
                    · simp at hl
                    · split at hl
                      · simp at hl
                      · split at hl
                        · simp at hl
                        · simp at hl
                  · rcases List.mem_cons.mp hl with h1 | h1
                    · subst h1
                      refine ⟨List.mem_cons_self _ _, ?_⟩
                      rename_i hguard
                      simpa using hguard
                    · exact absurd h1 (List.not_mem_nil l)
              | cons l2 ls2 =>
                  have hn2 : ls2.length ≤ n := by
                    simp only [List.length_cons] at hn'
                    omega
                  simp only [extractLinesGo] at hl
                  split at hl
                  · split at hl
                    · obtain ⟨h1, h2⟩ := ih false (l2 :: ls2) hn' l hl
                      exact ⟨List.mem_cons_of_mem _ h1, h2⟩
                    · split at hl
                      · obtain ⟨h1, h2⟩ := ih true (l2 :: ls2) hn' l hl
                        exact ⟨List.mem_cons_of_mem _ h1, h2⟩
                      · split at hl
                        · split at hl
                          · obtain ⟨h1, h2⟩ := ih true ls2 hn2 l hl
                            exact ⟨List.mem_cons_of_mem _
                              (List.mem_cons_of_mem _ h1), h2⟩
                          · obtain ⟨h1, h2⟩ := ih false (l2 :: ls2) hn' l hl
                            exact ⟨List.mem_cons_of_mem _ h1, h2⟩
                        · obtain ⟨h1, h2⟩ := ih false (l2 :: ls2) hn' l hl
                          exact ⟨List.mem_cons_of_mem _ h1, h2⟩
                  · rcases List.mem_cons.mp hl with h1 | h1
                    · subst h1
                      refine ⟨List.mem_cons_self _ _, ?_⟩
                      rename_i hguard
                      simpa using hguard
                    · obtain ⟨h1', h2⟩ := ih false (l2 :: ls2) hn' l h1
                      exact ⟨List.mem_cons_of_mem _ h1', h2⟩

theorem extractLinesGo_mem (skip : Bool) (ls : List Str) :
    ∀ l ∈ extractLinesGo skip ls, l ∈ ls ∧ leadsMarker l = false :=
  extractLinesGo_mem' ls.length skip ls (le_refl _)

theorem extractLinesGo_id (ls : List Str)
    (h : ∀ l ∈ ls, leadsMarker l = false) : extractLinesGo false ls = ls := by
  induction ls with
  | nil => rfl
  | cons l0 ls' ih =>
      have h0 : ¬leadsMarker l0 = true := by
        rw [h l0 (List.mem_cons_self _ _)]
        simp
      have ih' := ih (fun l hl => h l (List.mem_cons_of_mem _ hl))
      cases ls' with
      | nil => rw [extractLinesGo.eq_3, if_neg h0, extractLinesGo.eq_1]
      | cons l2 ls2 => rw [extractLinesGo.eq_4, if_neg h0, ih']

theorem pyStrip_ws_cons (c : Char) (l : Str) (hw : pyWS c = true) :
    pyStrip (c :: l) = pyStrip l := by
  unfold pyStrip pyLStrip
  rw [List.dropWhile_cons, if_pos hw]

theorem lstripped_isPre (s t : Str) (ht : pyLStrip t = t) (hp : s <+: t) :
    pyLStrip s = s := by
  cases s with
  | nil => rfl
  | cons c s' =>
      cases t with
      | nil =>
          have := List.prefix_nil.mp hp
          simp at this
      | cons d t' =>
          rw [List.cons_prefix_cons] at hp
          obtain ⟨hcd, _⟩ := hp
          subst hcd
          have hc : pyWS c = false := by
            by_contra hcc
            have hcc' : pyWS c = true := by simpa using hcc
            unfold pyLStrip at ht
            rw [List.dropWhile_cons, if_pos hcc'] at ht
            have := dropWhile_head_false pyWS t' c t' ht
            rw [this] at hcc'
            exact absurd hcc' (by simp)
          unfold pyLStrip
          rw [List.dropWhile_cons, if_neg (by simp [hc])]

theorem pyLStrip_idem (s : Str) : pyLStrip (pyLStrip s) = pyLStrip s :=
  List.dropWhile_idempotent pyWS s

theorem pyStrip_idem (s : Str) : pyStrip (pyStrip s) = pyStrip s := by
  show pyRStrip (pyLStrip (pyRStrip (pyLStrip s))) = pyRStrip (pyLStrip s)
  rw [lstripped_isPre _ (pyLStrip s) (pyLStrip_idem s) (pyRStrip_isPre _),
    pyRStrip_idem]

theorem stripped_lstripped (t : Str) (h : pyStrip t = t) : pyLStrip t = t := by
  conv_lhs => rw [← h]
  show pyLStrip (pyRStrip (pyLStrip t)) = t
  rw [lstripped_isPre _ (pyLStrip t) (pyLStrip_idem t) (pyRStrip_isPre _)]
  exact h

theorem stripped_rstripped (t : Str) (h : pyStrip t = t) : pyRStrip t = t := by
  conv_lhs => rw [← h]
  show pyRStrip (pyRStrip (pyLStrip t)) = t
  rw [pyRStrip_idem]
  exact h

theorem stripped_truncAt (t : Str) (h : pyStrip t = t) (p : ℕ) :
    pyStrip (truncAt t p) = truncAt t p := by
  have hl : pyLStrip t = t := stripped_lstripped t h
  have htake : pyLStrip (t.take p) = t.take p :=
    lstripped_isPre _ t hl (List.take_prefix _ _)
  show pyRStrip (pyLStrip (pyRStrip (t.take p))) = pyRStrip (t.take p)
  rw [lstripped_isPre _ (t.take p) htake (pyRStrip_isPre _), pyRStrip_idem]

theorem stripped_stripOnce (m : Str → Bool) (t : Str) (h : pyStrip t = t) :
    pyStrip (stripOnce m t) = stripOnce m t := by
  unfold stripOnce
  cases hs : searchIdx m t with
  | none => exact h
  | some p => exact stripped_truncAt t h p

theorem extractClean_stripped (x : Str) :
    pyStrip (extractClean x) = extractClean x := by
  unfold extractClean stripTrailingMetadata
  apply stripped_stripOnce
  apply stripped_stripOnce
  apply stripped_stripOnce
  exact pyStrip_idem _

theorem noMarker_of_prefix (s t : Str) (hp : s <+: t)
    (h : ∀ l ∈ splitNl t, leadsMarker l = false) :
    ∀ l' ∈ splitNl s, leadsMarker l' = false := by
  intro l' hl'
  obtain ⟨l, hlm, hlp⟩ := splitNl_of_prefix s t hp l' hl'
  exact marker_prefix_closed l l' (h l hlm) hlp

theorem noMarker_pyLStrip (t : Str)
    (h : ∀ l ∈ splitNl t, leadsMarker l = false) :
    ∀ l ∈ splitNl (pyLStrip t), leadsMarker l = false := by
  induction t with
  | nil => exact h
  | cons c cs ih =>
      by_cases hw : pyWS c = true
      · have hstep : pyLStrip (c :: cs) = pyLStrip cs := by
          unfold pyLStrip
          rw [List.dropWhile_cons, if_pos hw]
        rw [hstep]
        apply ih
        by_cases hnl : c = '\n'
        · intro l hl
          apply h
          subst hnl
          simp only [splitNl, if_pos rfl]
          exact List.mem_cons_of_mem _ hl
        · cases hs : splitNl cs with
          | nil => exact absurd hs (splitNl_ne_nil cs)
          | cons h0 rest =>
              intro l hl
              rcases List.mem_cons.mp hl with h1 | h1
              · subst h1
                have hm := h (c :: l) (by
                  simp only [splitNl, if_neg hnl]
                  rw [hs]
                  exact List.mem_cons_self _ _)
                unfold leadsMarker at hm ⊢
                rwa [pyStrip_ws_cons c l hw] at hm
              · exact h l (by
                  simp only [splitNl, if_neg hnl]
                  rw [hs]
                  exact List.mem_cons_of_mem _ h1)
      · have hstep : pyLStrip (c :: cs) = c :: cs := by
          unfold pyLStrip
          rw [List.dropWhile_cons, if_neg (by simp [hw])]
        rw [hstep]
        exact h

theorem noMarker_pyStrip (t : Str)
    (h : ∀ l ∈ splitNl t, leadsMarker l = false) :
    ∀ l ∈ splitNl (pyStrip t), leadsMarker l = false :=
  noMarker_of_prefix _ (pyLStrip t) (pyRStrip_isPre _) (noMarker_pyLStrip t h)

theorem noMarker_stripOnce (m : Str → Bool) (t : Str)
    (h : ∀ l ∈ splitNl t, leadsMarker l = false) :
    ∀ l ∈ splitNl (stripOnce m t), leadsMarker l = false := by
  unfold stripOnce
  cases hs : searchIdx m t with
  | none => exact h
  | some p =>
      exact noMarker_of_prefix _ t
        ((pyRStrip_isPre _).trans (List.take_prefix _ _)) h

theorem extractClean_no_marker (x : Str) :
    ∀ l ∈ splitNl (extractClean x), leadsMarker l = false := by
  unfold extractClean stripTrailingMetadata
  apply noMarker_stripOnce
  apply noMarker_stripOnce
  apply noMarker_stripOnce
  apply noMarker_pyStrip
  cases hls : extractTextLines x with
  | nil =>
      intro l hl
      simp only [joinNl, splitNl] at hl
      simp at hl
      rw [hl]
      decide
  | cons l0 ls' =>
      have hmem := extractLinesGo_mem false (splitNl (pyRStrip x))
      rw [show extractLinesGo false (splitNl (pyRStrip x)) = extractTextLines x from rfl,
        hls] at hmem
      have hnl : ∀ l ∈ l0 :: ls', '\n' ∉ l := by
        intro l hl
        exact splitNl_mem_no_nl (pyRStrip x) l (hmem l hl).1
      rw [splitNl_joinNl (l0 :: ls') hnl (by simp)]
      intro l hl
      exact (hmem l hl).2

theorem extractClean_twice (x : Str) :
    extractClean (extractClean x) = stripTrailingMetadata (extractClean x) := by
  have hstr : pyStrip (extractClean x) = extractClean x := extractClean_stripped x
  have hrstr : pyRStrip (extractClean x) = extractClean x :=
    stripped_rstripped _ hstr
  show stripTrailingMetadata (pyStrip (joinNl (extractLinesGo false
    (splitNl (pyRStrip (extractClean x)))))) = stripTrailingMetadata (extractClean x)
  rw [hrstr, extractLinesGo_id _ (extractClean_no_marker x),
    joinNl_splitNl, hstr]

/-- C4 (amended): applying the clean-text extraction of
`extract_audit_json` to its own `clean_text` output only re-applies the
trailing-metadata stripper, so the extraction is idempotent exactly when
the first pass's output contains no further trailing metadata block; this
holds for single-suffix model outputs, but an output ending in several
stacked metadata blocks is stripped one block per pass (see the
counterexample), so stripping twice is not always the same as stripping
once. -/
theorem claim_C4_stripping_idempotent (x : Str) :
    extractClean (extractClean x) = stripTrailingMetadata (extractClean x)
    ∧ (stripTrailingMetadata (extractClean x) = extractClean x →
        extractClean (extractClean x) = extractClean x) := by
  refine ⟨extractClean_twice x, fun h => ?_⟩
  rw [extractClean_twice x, h]

/-- Witness for C4 on the model output "Hello world" with a same-line
AUDIT_JSON suffix: extraction is idempotent there. -/
theorem claim_C4_witness :
    extractClean (extractClean
        "Hello world\nAUDIT_JSON:\x7b\"confidence\": 1\x7d".toList) =
      extractClean "Hello world\nAUDIT_JSON:\x7b\"confidence\": 1\x7d".toList :=
  (claim_C4_stripping_idempotent
      "Hello world\nAUDIT_JSON:\x7b\"confidence\": 1\x7d".toList).2 (by decide)

/-- C4 counterexample: a response ending in two stacked bare metadata
blocks.  The first extraction strips only the last block (the bare-block
regex must match up to the end of the text), the second strips the other,
so extraction twice differs from extraction once. -/
theorem claim_C4_counterexample :
    extractClean (extractClean
        "body\n\n\x7b\"confidence\": 1\x7d\n\n\x7b\"confidence\": 2\x7d".toList) ≠
      extractClean
        "body\n\n\x7b\"confidence\": 1\x7d\n\n\x7b\"confidence\": 2\x7d".toList := by
  decide

/-- C10: every line of the returned `clean_text` of
`extract_audit_json`, for every raw model response, fails the AUDIT_JSON
marker test — a line whose stripped form begins with `AUDIT_JSON:` or
`**AUDIT_JSON` is removed wherever it occurs in the response, not only at
the end. -/
theorem claim_C10_marker_lines_removed (raw : Str) :
    ∀ l ∈ splitNl (extractClean raw), leadsMarker l = false :=
  extractClean_no_marker raw

/-- Witness for C10: a response with an AUDIT_JSON line in the middle;
the first surviving clean-text line is marker-free. -/
theorem claim_C10_witness :
    leadsMarker "Mid".toList = false :=
  claim_C10_marker_lines_removed "Mid\nAUDIT_JSON: note\nafter".toList
    "Mid".toList (by decide)

theorem firstRuleMatch_first (p : ExtractedParagraph) (f : Bool) :
    ∀ (rs : List ((ExtractedParagraph → Bool → Bool) × SectionType))
      (i : ℕ) (hi : i < rs.length),
    ((rs.get ⟨i, hi⟩).1 p f = true) →
    (∀ j (hj : j < i), (rs.get ⟨j, lt_trans hj hi⟩).1 p f = false) →
    firstRuleMatch p f rs = (rs.get ⟨i, hi⟩).2 := by
  intro rs
  induction rs with
  | nil =>
      intro i hi
      simp at hi
  | cons r rs ih =>
      intro i hi hmatch hprev
      cases i with
      | zero =>
          simp only [List.get] at hmatch ⊢
          simp [firstRuleMatch, hmatch]
      | succ i =>
          have h0 : r.1 p f = false := hprev 0 (Nat.succ_pos i)
          simp only [firstRuleMatch, h0, Bool.false_eq_true, if_false]
          simp only [List.get] at hmatch ⊢
          exact ih i (by simpa using hi) hmatch
            (fun j hj => by
              have := hprev (j + 1) (by omega)
              simpa using this)

/-- C9: for every paragraph, `_classify_paragraph` is exactly the
priority-ordered first-match evaluation of the rule table
(explicit heading style → preamble marker on the first paragraph →
appendix/schedule marker → bold text shorter than 200 characters →
numbered-clause pattern → definition keyword → list marker → CLAUSE):
whenever rule `i` matches and every earlier rule fails, the classification
is rule `i`'s type, so no lower-priority rule ever overrides an earlier
match. -/
theorem claim_C9_classifier_priority (p : ExtractedParagraph) (f : Bool) :
    classifyParagraph p f = firstRuleMatch p f classifierRules
    ∧ (∀ (i : ℕ) (hi : i < classifierRules.length),
        ((classifierRules.get ⟨i, hi⟩).1 p f = true) →
        (∀ j (hj : j < i), (classifierRules.get ⟨j, lt_trans hj hi⟩).1 p f = false) →
        classifyParagraph p f = (classifierRules.get ⟨i, hi⟩).2) := by
  constructor
  · rfl
  · intro i hi hmatch hprev
    have h1 : classifyParagraph p f = firstRuleMatch p f classifierRules := rfl
    rw [h1]
    exact firstRuleMatch_first p f classifierRules i hi hmatch hprev

/-- Witness for C9: the paragraph "1.1 Scope" (no heading style, not bold)
matches rule 4 (the numbered-clause pattern) and no earlier rule, and is
classified CLAUSE. -/
theorem claim_C9_witness :
    classifyParagraph
      ⟨"1.1 Scope".toList, [], false, false, 0⟩ false = SectionType.clause := by
  refine (claim_C9_classifier_priority ⟨"1.1 Scope".toList, [], false, false, 0⟩ false).2
    4 (by decide) (by decide) ?_
  intro j hj
  have h0 : (classifierRules.get ⟨0, by decide⟩).1
      ⟨"1.1 Scope".toList, [], false, false, 0⟩ false = false := by decide
  have h1 : (classifierRules.get ⟨1, by decide⟩).1
      ⟨"1.1 Scope".toList, [], false, false, 0⟩ false = false := by decide
  have h2 : (classifierRules.get ⟨2, by decide⟩).1
      ⟨"1.1 Scope".toList, [], false, false, 0⟩ false = false := by decide
  have h3 : (classifierRules.get ⟨3, by decide⟩).1
      ⟨"1.1 Scope".toList, [], false, false, 0⟩ false = false := by decide
  interval_cases j
  · exact h0
  · exact h1
  · exact h2
  · exact h3

/-! ### Audit chain lemmas (C1) -/

attribute [irreducible] computeEventHash

theorem lastBy_append (es : List AuditEvent) (e : AuditEvent)
    (h : ∀ x ∈ es, x.createdAt < e.createdAt) :
    lastByCreated (es ++ [e]) = some e := by
  induction es with
  | nil => rfl
  | cons x xs ih =>
      rw [List.cons_append]
      show (match lastByCreated (xs ++ [e]) with
            | none => some x
            | some m => if m.createdAt ≥ x.createdAt then some m else some x) = some e
      rw [ih (fun y hy => h y (List.mem_cons_of_mem _ hy))]
      have hx := h x (List.mem_cons_self _ _)
      show (if e.createdAt ≥ x.createdAt then some e else some x) = some e
      rw [if_pos (by omega)]

theorem logAll_eq_chainSpec :
    ∀ (is : List LogInput) (evs : List AuditEvent),
    (∀ x ∈ evs, ∀ i ∈ is, x.createdAt < i.createdAt) →
    List.Pairwise (fun a b => a.createdAt < b.createdAt) is →
    logAll evs is = evs ++ chainSpec (lastHash evs) is := by
  intro is
  induction is with
  | nil => intro evs _ _; simp [logAll, chainSpec]
  | cons i is ih =>
      intro evs hlt hpw
      show logAll (logEvent evs i) is = evs ++ chainSpec (lastHash evs) (i :: is)
      have hle : logEvent evs i = evs ++ [mkEvent i (lastHash evs)] := rfl
      rw [hle]
      rw [ih (evs ++ [mkEvent i (lastHash evs)]) ?hlt' (List.Pairwise.sublist
        (List.sublist_cons_self i is) hpw)]
      case hlt' =>
        intro x hx j hj
        rcases List.mem_append.mp hx with hm | hm
        · exact hlt x hm j (List.mem_cons_of_mem _ hj)
        · simp at hm
          rw [hm]
          show i.createdAt < j.createdAt
          exact (List.pairwise_cons.mp hpw).1 j hj
      have hlh : lastHash (evs ++ [mkEvent i (lastHash evs)]) =
          some (mkEvent i (lastHash evs)).eventHash := by
        unfold lastHash
        rw [lastBy_append _ _ (fun x hx => hlt x hx i (List.mem_cons_self _ _))]
        rfl
      rw [hlh]
      show evs ++ [mkEvent i (lastHash evs)] ++
        chainSpec (some (mkEvent i (lastHash evs)).eventHash) is = _
      rw [List.append_assoc]
      rfl

theorem chainSpec_createdAt (is : List LogInput) :
    ∀ p, (chainSpec p is).map (fun e => e.createdAt) =
      is.map (fun i => i.createdAt) := by
  induction is with
  | nil => intro p; rfl
  | cons i is ih =>
      intro p
      show (mkEvent i p).createdAt ::
        (chainSpec (some (mkEvent i p).eventHash) is).map (fun e => e.createdAt) = _
      rw [ih]
      rfl

theorem chainSpec_head_prev (is : List LogInput) (p : Option Str) (e : AuditEvent)
    (h : (chainSpec p is).head? = some e) : e.prevHash = p := by
  cases is with
  | nil => simp [chainSpec] at h
  | cons i is =>
      have : (chainSpec p (i :: is)).head? = some (mkEvent i p) := rfl
      rw [this] at h
      injection h with h1
      rw [← h1]
      rfl

theorem chainSpec_link (is : List LogInput) :
    ∀ p, List.Chain' (fun a b => b.prevHash = some a.eventHash) (chainSpec p is) := by
  induction is with
  | nil => intro p; exact List.chain'_nil
  | cons i is ih =>
      intro p
      show List.Chain' _ (mkEvent i p :: chainSpec (some (mkEvent i p).eventHash) is)
      rw [List.chain'_cons']
      exact ⟨fun b hb => chainSpec_head_prev is _ b hb, ih _⟩

theorem chainSpec_valid (is : List LogInput) :
    ∀ p, ∀ e ∈ chainSpec p is,
      e.eventHash = computeEventHash e.eventType e.actorId e.entityType e.entityId
        e.payloadJson e.createdAt e.prevHash := by
  induction is with
  | nil => intro p e he; simp [chainSpec] at he
  | cons i is ih =>
      intro p e he
      rcases List.mem_cons.mp he with h1 | h1
      · rw [h1]; rfl
      · exact ih _ e h1

theorem chainSpec_verify (is : List LogInput) :
    ∀ p, verifyGo p (chainSpec p is) = (true, none) := by
  induction is with
  | nil => intro p; rfl
  | cons i is ih =>
      intro p
      show (if computeEventHash i.eventType i.actorId i.entityType i.entityId
          i.payloadJson i.createdAt p ≠ (mkEvent i p).eventHash then
          (false, some (mkEvent i p).id)
        else verifyGo (some (mkEvent i p).eventHash)
          (chainSpec (some (mkEvent i p).eventHash) is)) = (true, none)
      rw [if_neg (by simp [mkEvent])]
      exact ih _

theorem chainSpec_length (is : List LogInput) :
    ∀ p, (chainSpec p is).length = is.length := by
  induction is with
  | nil => intro p; rfl
  | cons i is ih =>
      intro p
      show (chainSpec (some (mkEvent i p).eventHash) is).length + 1 = is.length + 1
      rw [ih]

theorem chainSpec_verify_mut (is : List LogInput) :
    ∀ (p : Option Str) (i : ℕ) (hi : i < (chainSpec p is).length) (h' : Str),
    h' ≠ ((chainSpec p is).get ⟨i, hi⟩).eventHash →
    verifyGo p ((chainSpec p is).set i
      { (chainSpec p is).get ⟨i, hi⟩ with eventHash := h' }) =
      (false, some ((chainSpec p is).get ⟨i, hi⟩).id) := by
  induction is with
  | nil =>
      intro p i hi
      simp [chainSpec] at hi
  | cons j js ih =>
      intro p i hi h' hne
      cases i with
      | zero =>
          show verifyGo p ({ mkEvent j p with eventHash := h' } ::
            chainSpec (some (mkEvent j p).eventHash) js) = _
          show (if computeEventHash j.eventType j.actorId j.entityType j.entityId
              j.payloadJson j.createdAt p ≠ h' then
              (false, some (mkEvent j p).id)
            else _) = _
          rw [if_pos (fun hcontra => hne (by
            rw [← hcontra]
            rfl))]
          rfl
      | succ i =>
          have hi' : i < (chainSpec (some (mkEvent j p).eventHash) js).length := by
            have : (chainSpec p (j :: js)).length =
                (chainSpec (some (mkEvent j p).eventHash) js).length + 1 := rfl
            omega
          show verifyGo p (mkEvent j p ::
            (chainSpec (some (mkEvent j p).eventHash) js).set i _) = _
          show (if computeEventHash j.eventType j.actorId j.entityType j.entityId
              j.payloadJson j.createdAt p ≠ (mkEvent j p).eventHash then
              (false, some (mkEvent j p).id)
            else verifyGo (some (mkEvent j p).eventHash)
              ((chainSpec (some (mkEvent j p).eventHash) js).set i _)) = _
          rw [if_neg (by simp [mkEvent])]
          exact ih (some (mkEvent j p).eventHash) i hi' h' hne

theorem sortByCreated_id (l : List AuditEvent)
    (h : List.Chain' (fun a b => a.createdAt < b.createdAt) l) :
    sortByCreated l = l := by
  induction l with
  | nil => rfl
  | cons x xs ih =>
      show insertByCreated x (sortByCreated xs) = x :: xs
      rw [ih h.tail]
      cases xs with
      | nil => rfl
      | cons y ys =>
          show (if x.createdAt < y.createdAt then x :: y :: ys
            else y :: insertByCreated x ys) = x :: y :: ys
          rw [if_pos (List.chain'_cons.mp h).1]

theorem createdAt_chain_of_map (l : List AuditEvent) (is : List LogInput)
    (hmap : l.map (fun e => e.createdAt) = is.map (fun i => i.createdAt))
    (hpw : List.Pairwise (fun a b => a.createdAt < b.createdAt) is) :
    List.Chain' (fun a b => a.createdAt < b.createdAt) l := by
  have h1 : List.Pairwise (· < ·) (is.map (fun i => i.createdAt)) :=
    (List.pairwise_map).mpr hpw
  have h2 : List.Chain' (· < ·) (l.map (fun e => e.createdAt)) := by
    rw [hmap]
    exact h1.chain'
  exact (List.chain'_map _).mp h2

theorem map_createdAt_set (l : List AuditEvent) :
    ∀ (i : ℕ) (hi : i < l.length) (h' : Str),
    ((l.set i { l.get ⟨i, hi⟩ with eventHash := h' }).map (fun e => e.createdAt)) =
      l.map (fun e => e.createdAt) := by
  induction l with
  | nil => intro i hi; simp at hi
  | cons x xs ih =>
      intro i hi h'
      cases i with
      | zero => rfl
      | succ i =>
          have hi' : i < xs.length := by
            simp at hi
            omega
          show (x :: xs.set i _).map _ = _
          show x.createdAt :: (xs.set i _).map _ = x.createdAt :: xs.map _
          have hg : (x :: xs).get ⟨i + 1, hi⟩ = xs.get ⟨i, hi'⟩ := rfl
          rw [hg, ih i hi' h']

/-- C1: for every sequence of events written through `AuditLogger.log`
with strictly increasing timestamps, the first stored event's `prev_hash`
is None and every later event's `prev_hash` is the previous event's
stored `event_hash`; every stored `event_hash` is exactly recomputable by
SHA-256 over the sorted-key JSON of its own stored fields plus its stored
`prev_hash`; `verify_chain` returns `(true, None)` on the untampered
sequence; and if any one stored `event_hash` is replaced by a different
value, `verify_chain` returns `(false, id)` where `id` is the mutated
event's id. -/
theorem claim_C1_audit_chain (inputs : List LogInput)
    (hinc : List.Pairwise (fun a b => a.createdAt < b.createdAt) inputs) :
    let evs := logAll [] inputs
    (∀ e, evs.head? = some e → e.prevHash = none)
    ∧ List.Chain' (fun a b => b.prevHash = some a.eventHash) evs
    ∧ (∀ e ∈ evs, e.eventHash = computeEventHash e.eventType e.actorId e.entityType
        e.entityId e.payloadJson e.createdAt e.prevHash)
    ∧ verifyChain evs = (true, none)
    ∧ (∀ (i : ℕ) (hi : i < evs.length) (h' : Str),
        h' ≠ (evs.get ⟨i, hi⟩).eventHash →
        verifyChain (evs.set i { evs.get ⟨i, hi⟩ with eventHash := h' }) =
          (false, some ((evs.get ⟨i, hi⟩).id))) := by
  intro evs
  have hlog : evs = chainSpec none inputs := by
    show logAll [] inputs = chainSpec none inputs
    have h := logAll_eq_chainSpec inputs [] (by simp) hinc
    simpa [lastHash, lastByCreated] using h
  have hchain : List.Chain' (fun a b => a.createdAt < b.createdAt) evs := by
    apply createdAt_chain_of_map evs inputs ?_ hinc
    rw [hlog]
    exact chainSpec_createdAt inputs none
  refine ⟨?_, ?_, ?_, ?_, ?_⟩
  · intro e he
    rw [hlog] at he
    exact chainSpec_head_prev inputs none e he
  · rw [hlog]
    exact chainSpec_link inputs none
  · rw [hlog]
    exact chainSpec_valid inputs none
  · show verifyGo none (sortByCreated evs) = (true, none)
    rw [sortByCreated_id evs hchain, hlog]
    exact chainSpec_verify inputs none
  · intro i hi h' hne
    have hchain' : List.Chain' (fun a b => a.createdAt < b.createdAt)
        (evs.set i { evs.get ⟨i, hi⟩ with eventHash := h' }) := by
      apply createdAt_chain_of_map _ inputs ?_ hinc
      rw [map_createdAt_set evs i hi h', hlog]
      exact chainSpec_createdAt inputs none
    show verifyGo none (sortByCreated _) = _
    rw [sortByCreated_id _ hchain']
    clear hchain'
    revert hne hi
    rw [hlog]
    intro hi hne
    exact chainSpec_verify_mut inputs none i hi h' hne

/-- Witness for C1: two events logged at clock instants 0 and 1 verify
as an intact chain. -/
theorem claim_C1_witness :
    verifyChain (logAll []
      [⟨"a".toList, "doc.uploaded".toList, none, none, none, none, none, none, 0⟩,
       ⟨"b".toList, "doc.mapped".toList, none, none, none, none, none, none, 1⟩]) =
      (true, none) :=
  (claim_C1_audit_chain
    [⟨"a".toList, "doc.uploaded".toList, none, none, none, none, none, none, 0⟩,
     ⟨"b".toList, "doc.mapped".toList, none, none, none, none, none, none, 1⟩]
    (by decide)).2.2.2.1

/-! ### Prompt-hash lemmas (C2) -/

theorem hexVal_hexDigit (d : ℕ) (hd : d < 16) : hexVal (hexDigit d) = d := by
  interval_cases d <;> decide

theorem hex4_decode (n : ℕ) (hn : n < 65536) :
    hexVal (hexDigit (n / 4096 % 16)) * 4096 + hexVal (hexDigit (n / 256 % 16)) * 256 +
      hexVal (hexDigit (n / 16 % 16)) * 16 + hexVal (hexDigit (n % 16)) = n := by
  rw [hexVal_hexDigit _ (Nat.mod_lt _ (by omega)),
    hexVal_hexDigit _ (Nat.mod_lt _ (by omega)),
    hexVal_hexDigit _ (Nat.mod_lt _ (by omega)),
    hexVal_hexDigit _ (Nat.mod_lt _ (by omega))]
  omega

theorem char_range (c : Char) :
    c.toNat < 55296 ∨ (57343 < c.toNat ∧ c.toNat < 1114112) := by
  rcases c.valid with h | h
  · exact Or.inl h
  · exact Or.inr ⟨h.1, h.2⟩

theorem decodeEscGo_nil (f : ℕ) : decodeEscGo f [] = some [] := by
  cases f <;> rfl

theorem decodeEscGo_plain (f : ℕ) (c : Char) (r : Str) (hc : ¬c = '\\') :
    decodeEscGo (f + 1) (c :: r) = (decodeEscGo f r).map (fun s => c :: s) := by
  show (if c = '\\' then _ else (decodeEscGo f r).map (fun s => c :: s)) = _
  rw [if_neg hc]

theorem decodeEscGo_u (f : ℕ) (h1 h2 h3 h4 : Char) (r : Str)
    (hn : ¬(55296 ≤ hexVal h1 * 4096 + hexVal h2 * 256 + hexVal h3 * 16 + hexVal h4 ∧
      hexVal h1 * 4096 + hexVal h2 * 256 + hexVal h3 * 16 + hexVal h4 < 56320)) :
    decodeEscGo (f + 1) ('\\' :: 'u' :: h1 :: h2 :: h3 :: h4 :: r) =
      (decodeEscGo f r).map (fun s =>
        Char.ofNat (hexVal h1 * 4096 + hexVal h2 * 256 + hexVal h3 * 16 + hexVal h4) :: s) := by
  show (if 55296 ≤ hexVal h1 * 4096 + hexVal h2 * 256 + hexVal h3 * 16 + hexVal h4 ∧
      hexVal h1 * 4096 + hexVal h2 * 256 + hexVal h3 * 16 + hexVal h4 < 56320 then _ else
      (decodeEscGo f r).map (fun s =>
        Char.ofNat (hexVal h1 * 4096 + hexVal h2 * 256 + hexVal h3 * 16 + hexVal h4) :: s)) = _
  rw [if_neg hn]

theorem decodeEscGo_surr (f : ℕ) (h1 h2 h3 h4 g1 g2 g3 g4 : Char) (r : Str)
    (hn : 55296 ≤ hexVal h1 * 4096 + hexVal h2 * 256 + hexVal h3 * 16 + hexVal h4 ∧
      hexVal h1 * 4096 + hexVal h2 * 256 + hexVal h3 * 16 + hexVal h4 < 56320) :
    decodeEscGo (f + 1)
      ('\\' :: 'u' :: h1 :: h2 :: h3 :: h4 :: '\\' :: 'u' :: g1 :: g2 :: g3 :: g4 :: r) =
      (decodeEscGo f r).map (fun s =>
        Char.ofNat (65536 +
          (hexVal h1 * 4096 + hexVal h2 * 256 + hexVal h3 * 16 + hexVal h4 - 55296) * 1024 +
          (hexVal g1 * 4096 + hexVal g2 * 256 + hexVal g3 * 16 + hexVal g4 - 56320)) :: s) := by
  show (if 55296 ≤ hexVal h1 * 4096 + hexVal h2 * 256 + hexVal h3 * 16 + hexVal h4 ∧
      hexVal h1 * 4096 + hexVal h2 * 256 + hexVal h3 * 16 + hexVal h4 < 56320 then
      (decodeEscGo f r).map (fun s =>
        Char.ofNat (65536 +
          (hexVal h1 * 4096 + hexVal h2 * 256 + hexVal h3 * 16 + hexVal h4 - 55296) * 1024 +
          (hexVal g1 * 4096 + hexVal g2 * 256 + hexVal g3 * 16 + hexVal g4 - 56320)) :: s)
     else _) = _
  rw [if_pos hn]

theorem decode_escChar (c : Char) (f : ℕ) (r : Str) :
    decodeEscGo (f + 1) (jsonEscCharAscii c ++ r) =
      (decodeEscGo f r).map (fun s => c :: s) := by
  by_cases hq : c = '"'
  · subst hq
    rfl
  by_cases hb : c = '\\'
  · subst hb
    rfl
  rcases char_range c with hr | hr
  · by_cases hp : 32 ≤ c.toNat ∧ c.toNat ≤ 126
    · have he : jsonEscCharAscii c = [c] := by
        unfold jsonEscCharAscii
        rw [if_neg hq, if_neg hb, if_pos hp]
      rw [he]
      exact decodeEscGo_plain f c r hb
    · have h8 := c.ofNat_toNat
      by_cases h : c.toNat = 8
      · have hc : c = '\x08' := by rw [h] at h8; exact h8.symm
        subst hc
        rfl
      by_cases h9 : c.toNat = 9
      · have hc : c = '\t' := by rw [h9] at h8; exact h8.symm
        subst hc
        rfl
      by_cases h10 : c.toNat = 10
      · have hc : c = '\n' := by rw [h10] at h8; exact h8.symm
        subst hc
        rfl
      by_cases h12 : c.toNat = 12
      · have hc : c = '\x0c' := by rw [h12] at h8; exact h8.symm
        subst hc
        rfl
      by_cases h13 : c.toNat = 13
      · have hc : c = '\x0d' := by rw [h13] at h8; exact h8.symm
        subst hc
        rfl
      have he : jsonEscCharAscii c = '\\' :: 'u' :: hex4 c.toNat := by
        unfold jsonEscCharAscii
        rw [if_neg hq, if_neg hb, if_neg hp, if_neg h, if_neg h9, if_neg h10,
          if_neg h12, if_neg h13, if_pos (by omega)]
      rw [he]
      have hl : ('\\' :: 'u' :: hex4 c.toNat) ++ r =
          '\\' :: 'u' :: hexDigit (c.toNat / 4096 % 16) :: hexDigit (c.toNat / 256 % 16) ::
          hexDigit (c.toNat / 16 % 16) :: hexDigit (c.toNat % 16) :: r := rfl
      rw [hl]
      rw [decodeEscGo_u f _ _ _ _ r (by rw [hex4_decode c.toNat (by omega)]; omega)]
      rw [hex4_decode c.toNat (by omega), c.ofNat_toNat]
  · have hlt : c.toNat < 1114112 := hr.2
    have hge : 65536 ≤ c.toNat ∨ c.toNat < 65536 := by omega
    rcases hge with hge | hlt2
    · have he : jsonEscCharAscii c =
          ('\\' :: 'u' :: hex4 (55296 + (c.toNat - 65536) / 1024)) ++
          ('\\' :: 'u' :: hex4 (56320 + (c.toNat - 65536) % 1024)) := by
        unfold jsonEscCharAscii
        rw [if_neg hq, if_neg hb, if_neg (by omega), if_neg (by omega), if_neg (by omega),
          if_neg (by omega), if_neg (by omega), if_neg (by omega), if_neg (by omega)]
      rw [he]
      have hhi : 55296 + (c.toNat - 65536) / 1024 < 65536 := by
        have : (c.toNat - 65536) / 1024 < 1024 := by omega
        omega
      have hlo : 56320 + (c.toNat - 65536) % 1024 < 65536 := by
        have : (c.toNat - 65536) % 1024 < 1024 := Nat.mod_lt _ (by omega)
        omega
      have hl : (('\\' :: 'u' :: hex4 (55296 + (c.toNat - 65536) / 1024)) ++
          ('\\' :: 'u' :: hex4 (56320 + (c.toNat - 65536) % 1024))) ++ r =
          '\\' :: 'u' ::
            hexDigit ((55296 + (c.toNat - 65536) / 1024) / 4096 % 16) ::
            hexDigit ((55296 + (c.toNat - 65536) / 1024) / 256 % 16) ::
            hexDigit ((55296 + (c.toNat - 65536) / 1024) / 16 % 16) ::
            hexDigit ((55296 + (c.toNat - 65536) / 1024) % 16) ::
          '\\' :: 'u' ::
            hexDigit ((56320 + (c.toNat - 65536) % 1024) / 4096 % 16) ::
            hexDigit ((56320 + (c.toNat - 65536) % 1024) / 256 % 16) ::
            hexDigit ((56320 + (c.toNat - 65536) % 1024) / 16 % 16) ::
            hexDigit ((56320 + (c.toNat - 65536) % 1024) % 16) :: r := rfl
      rw [hl]
      rw [decodeEscGo_surr f _ _ _ _ _ _ _ _ r
        (by rw [hex4_decode _ hhi]
            have : (c.toNat - 65536) / 1024 < 1024 := by omega
            omega)]
      rw [hex4_decode _ hhi, hex4_decode _ hlo]
      have hchar : 65536 + (55296 + (c.toNat - 65536) / 1024 - 55296) * 1024 +
          (56320 + (c.toNat - 65536) % 1024 - 56320) = c.toNat := by
        have hdm := Nat.div_add_mod (c.toNat - 65536) 1024
        omega
      rw [hchar, c.ofNat_toNat]
    · have he : jsonEscCharAscii c = '\\' :: 'u' :: hex4 c.toNat := by
        unfold jsonEscCharAscii
        rw [if_neg hq, if_neg hb, if_neg (by omega), if_neg (by omega), if_neg (by omega),
          if_neg (by omega), if_neg (by omega), if_neg (by omega), if_pos (by omega)]
      rw [he]
      have hl : ('\\' :: 'u' :: hex4 c.toNat) ++ r =
          '\\' :: 'u' :: hexDigit (c.toNat / 4096 % 16) :: hexDigit (c.toNat / 256 % 16) ::
          hexDigit (c.toNat / 16 % 16) :: hexDigit (c.toNat % 16) :: r := rfl
      rw [hl]
      rw [decodeEscGo_u f _ _ _ _ r (by rw [hex4_decode c.toNat (by omega)]; omega)]
      rw [hex4_decode c.toNat (by omega), c.ofNat_toNat]

theorem decode_escAppend (s : Str) :
    ∀ (f : ℕ) (r : Str), decodeEscGo (f + s.length) (jsonEscAscii s ++ r) =
      (decodeEscGo f r).map (fun t => s ++ t) := by
  induction s with
  | nil =>
      intro f r
      show decodeEscGo (f + 0) ([] ++ r) = _
      rw [Nat.add_zero, List.nil_append]
      cases hd : decodeEscGo f r with
      | none => rfl
      | some t => simp
  | cons c s ih =>
      intro f r
      have h1 : jsonEscAscii (c :: s) = jsonEscCharAscii c ++ jsonEscAscii s := by
        show (c :: s).flatMap jsonEscCharAscii = _
        rw [List.flatMap_cons]
        rfl
      rw [h1, List.append_assoc]
      have h2 : f + (c :: s).length = (f + s.length) + 1 := by
        rw [List.length_cons]
        omega
      rw [h2, decode_escChar c (f + s.length) (jsonEscAscii s ++ r), ih f r,
        Option.map_map]
      rfl

theorem jsonEscAscii_inj (s1 s2 : Str) (h : jsonEscAscii s1 = jsonEscAscii s2) :
    s1 = s2 := by
  have d1 : decodeEscGo ((s2.length + s1.length) - s1.length + s1.length)
      (jsonEscAscii s1 ++ []) = some (s1 ++ []) := by
    rw [decode_escAppend s1 _ [], decodeEscGo_nil]
    rfl
  have d2 : decodeEscGo ((s2.length + s1.length) - s2.length + s2.length)
      (jsonEscAscii s2 ++ []) = some (s2 ++ []) := by
    rw [decode_escAppend s2 _ [], decodeEscGo_nil]
    rfl
  have e1 : (s2.length + s1.length) - s1.length + s1.length = s2.length + s1.length := by
    omega
  have e2 : (s2.length + s1.length) - s2.length + s2.length = s2.length + s1.length := by
    omega
  rw [e1, h] at d1
  rw [e2] at d2
  simp only [List.append_nil] at d1 d2
  rw [d2] at d1
  exact (Option.some_injective _ d1.symm)

theorem jsonStrAscii_inj (s1 s2 : Str) (h : jsonStrAscii s1 = jsonStrAscii s2) :
    s1 = s2 := by
  unfold jsonStrAscii at h
  have h1 : jsonEscAscii s1 ++ ['"'] = jsonEscAscii s2 ++ ['"'] :=
    (List.cons.inj h).2
  exact jsonEscAscii_inj s1 s2 (List.append_cancel_right h1)

theorem joinNl_set_inj :
    ∀ (F : List Str) (i : ℕ) (hi : i < F.length) (g : Str),
    joinNl (F.set i g) = joinNl F → g = F.get ⟨i, hi⟩ := by
  intro F
  induction F with
  | nil => intro i hi; simp at hi
  | cons f fs ih =>
      intro i hi g hj
      cases i with
      | zero =>
          cases fs with
          | nil => exact hj
          | cons y ys =>
              show g = f
              have hl : joinNl ((f :: y :: ys).set 0 g) =
                  g ++ '\n' :: joinNl (y :: ys) := rfl
              have hr : joinNl (f :: y :: ys) = f ++ '\n' :: joinNl (y :: ys) := rfl
              rw [hl, hr] at hj
              exact List.append_cancel_right hj
      | succ j =>
          have hj' : j < fs.length := by
            rw [List.length_cons] at hi
            omega
          have hfs : fs ≠ [] := by
            intro hcon
            rw [hcon] at hj'
            simp at hj'
          obtain ⟨z, zs, hz⟩ := List.exists_cons_of_ne_nil hfs
          have hset : (f :: fs).set (j + 1) g = f :: fs.set j g := rfl
          rw [hset] at hj
          have hsetne : fs.set j g ≠ [] := by
            intro hcon
            have hlen := congrArg List.length hcon
            rw [List.length_set, List.length_nil] at hlen
            omega
          obtain ⟨w, ws, hw⟩ := List.exists_cons_of_ne_nil hsetne
          rw [hw, hz] at hj
          have hl : joinNl (f :: w :: ws) = f ++ '\n' :: joinNl (w :: ws) := rfl
          have hr : joinNl (f :: z :: zs) = f ++ '\n' :: joinNl (z :: zs) := rfl
          rw [hl, hr] at hj
          have hj2 : joinNl (w :: ws) = joinNl (z :: zs) :=
            (List.cons.inj (List.append_cancel_left hj)).2
          rw [← hw, ← hz] at hj2
          exact ih j hj' g hj2

theorem ruleFragment_inj_instruction (a : Str) (inst1 inst2 : Str)
    (h : ruleFragment ⟨a, inst1⟩ = ruleFragment ⟨a, inst2⟩) : inst1 = inst2 := by
  unfold ruleFragment at h
  have h1 := List.append_cancel_left h
  have h2 := List.append_cancel_left h1
  exact List.append_cancel_left h2

theorem joinNl_frag_ne_nil (r : Rule) (rs : List Rule) :
    joinNl ((r :: rs).map ruleFragment) ≠ [] := by
  have hfrag : ruleFragment r = '[' :: ("Rule ".toList ++ (r.id ++ ("] ".toList ++ r.instruction))) := rfl
  cases hm : rs.map ruleFragment with
  | nil =>
      have hmap : (r :: rs).map ruleFragment = [ruleFragment r] := by
        rw [List.map_cons, hm]
      rw [hmap]
      show ruleFragment r ≠ []
      rw [hfrag]
      exact List.cons_ne_nil _ _
  | cons x xs =>
      have hmap : (r :: rs).map ruleFragment = ruleFragment r :: x :: xs := by
        rw [List.map_cons, hm]
      rw [hmap]
      show ruleFragment r ++ '\n' :: joinNl (x :: xs) ≠ []
      rw [hfrag]
      exact List.cons_ne_nil _ _

theorem list_set_get_self {α : Type} :
    ∀ (l : List α) (i : ℕ) (hi : i < l.length), l.set i (l.get ⟨i, hi⟩) = l := by
  intro l
  induction l with
  | nil => intro i hi; simp at hi
  | cons x xs ih =>
      intro i hi
      cases i with
      | zero => rfl
      | succ j =>
          have hj : j < xs.length := by
            rw [List.length_cons] at hi
            omega
          show x :: xs.set j (xs.get ⟨j, hj⟩) = x :: xs
          rw [ih j hj]

theorem hashInput_inj_system (a b u : Str) (l : List Str)
    (h : hashInput a u l = hashInput b u l) : a = b := by
  unfold hashInput at h
  have h1 := (List.cons.inj h).2
  have h2 := List.append_cancel_left h1
  have h3 := List.append_cancel_left h2
  have h4 := List.append_cancel_left h3
  have h5 := List.append_cancel_right h4
  exact jsonStrAscii_inj a b h5

attribute [irreducible] sha256Hex utf8 hashInput

/-- C2: `PromptEngine.compile` is deterministic — calls with identical
arguments produce identical `prompt_hash` values; the hash is exactly
SHA-256 over the UTF-8 bytes of the sorted-key canonical JSON of the
system prompt, the user prompt and the applied rule ids (the ruleset's
rule ids in ruleset order); and replacing the instruction text of any
one rule by a different string changes that SHA-256 hash input. -/
theorem claim_C2_prompt_hash (rules : List Rule) (stv orig : Str)
    (heading jurisdiction dep : Option Str) :
    (∀ rules2 stv2 orig2 heading2 jurisdiction2 dep2,
      rules2 = rules → stv2 = stv → orig2 = orig → heading2 = heading →
      jurisdiction2 = jurisdiction → dep2 = dep →
      (PromptEngine.compile rules2 stv2 orig2 heading2 jurisdiction2 dep2).promptHash =
        (PromptEngine.compile rules stv orig heading jurisdiction dep).promptHash)
    ∧ (PromptEngine.compile rules stv orig heading jurisdiction dep).promptHash =
        sha256Hex (utf8 (hashInput
          (PromptEngine.compile rules stv orig heading jurisdiction dep).systemPrompt
          (PromptEngine.compile rules stv orig heading jurisdiction dep).userPrompt
          (PromptEngine.compile rules stv orig heading jurisdiction dep).appliedRuleIds))
    ∧ (PromptEngine.compile rules stv orig heading jurisdiction dep).appliedRuleIds =
        rules.map (fun r => r.id)
    ∧ (∀ (i : ℕ) (hi : i < rules.length) (inst2 : Str),
        inst2 ≠ (rules.get ⟨i, hi⟩).instruction →
        hashInput
          (PromptEngine.compile (rules.set i ⟨(rules.get ⟨i, hi⟩).id, inst2⟩) stv orig
            heading jurisdiction dep).systemPrompt
          (PromptEngine.compile (rules.set i ⟨(rules.get ⟨i, hi⟩).id, inst2⟩) stv orig
            heading jurisdiction dep).userPrompt
          (PromptEngine.compile (rules.set i ⟨(rules.get ⟨i, hi⟩).id, inst2⟩) stv orig
            heading jurisdiction dep).appliedRuleIds ≠
        hashInput
          (PromptEngine.compile rules stv orig heading jurisdiction dep).systemPrompt
          (PromptEngine.compile rules stv orig heading jurisdiction dep).userPrompt
          (PromptEngine.compile rules stv orig heading jurisdiction dep).appliedRuleIds) := by
  refine ⟨?_, rfl, rfl, ?_⟩
  · intro rules2 stv2 orig2 heading2 jurisdiction2 dep2 h1 h2 h3 h4 h5 h6
    rw [h1, h2, h3, h4, h5, h6]
  · intro i hi inst2 hne heq
    have hrnn : rules ≠ [] := by
      intro h0
      rw [h0] at hi
      simp at hi
    obtain ⟨r0, rs0, hr0⟩ := List.exists_cons_of_ne_nil hrnn
    have hfrne : joinNl (rules.map ruleFragment) ≠ [] := by
      rw [hr0]
      exact joinNl_frag_ne_nil r0 rs0
    have hrnn2 : rules.set i ⟨(rules.get ⟨i, hi⟩).id, inst2⟩ ≠ [] := by
      intro h0
      have hlen := congrArg List.length h0
      rw [List.length_set, List.length_nil] at hlen
      omega
    obtain ⟨r1, rs1, hr1⟩ := List.exists_cons_of_ne_nil hrnn2
    have hfrne2 :
        joinNl ((rules.set i ⟨(rules.get ⟨i, hi⟩).id, inst2⟩).map ruleFragment) ≠ [] := by
      rw [hr1]
      exact joinNl_frag_ne_nil r1 rs1
    have him : i < (rules.map (fun r => r.id)).length := by
      rw [List.length_map]
      exact hi
    have hids : (rules.set i ⟨(rules.get ⟨i, hi⟩).id, inst2⟩).map (fun r => r.id) =
        rules.map (fun r => r.id) := by
      rw [List.map_set]
      have hg : ((⟨(rules.get ⟨i, hi⟩).id, inst2⟩ : Rule)).id =
          (rules.map (fun r => r.id)).get ⟨i, him⟩ := by
        rw [List.get_map]
      rw [hg]
      exact list_set_get_self _ i him
    have hids' : (PromptEngine.compile (rules.set i ⟨(rules.get ⟨i, hi⟩).id, inst2⟩)
        stv orig heading jurisdiction dep).appliedRuleIds =
        (PromptEngine.compile rules stv orig heading jurisdiction dep).appliedRuleIds := by
      show (rules.set i ⟨(rules.get ⟨i, hi⟩).id, inst2⟩).map (fun r => r.id) =
        rules.map (fun r => r.id)
      exact hids
    have husr : (PromptEngine.compile (rules.set i ⟨(rules.get ⟨i, hi⟩).id, inst2⟩)
        stv orig heading jurisdiction dep).userPrompt =
        (PromptEngine.compile rules stv orig heading jurisdiction dep).userPrompt := rfl
    rw [hids', husr] at heq
    have hsys1 : (PromptEngine.compile rules stv orig heading jurisdiction dep).systemPrompt =
        baseSystemInstructions ++
        ((if optTruthy jurisdiction then jurisdictionPart (jurisdiction.getD []) else []) ++
         (("\nApplicable transformation rules:\n".toList ++
            (joinNl (rules.map ruleFragment) ++ "\n".toList)) ++
          auditInstruction)) := by
      show baseSystemInstructions ++
        ((if optTruthy jurisdiction then jurisdictionPart (jurisdiction.getD []) else []) ++
         ((if !(joinNl (rules.map ruleFragment)).isEmpty then
            "\nApplicable transformation rules:\n".toList ++
              (joinNl (rules.map ruleFragment) ++ "\n".toList)
           else
            "\nNo specific transformation rules apply. Preserve original intent.\n".toList) ++
          auditInstruction)) = _
      cases hE : (joinNl (rules.map ruleFragment)).isEmpty with
      | true => exact absurd (List.isEmpty_iff.mp hE) hfrne
      | false => rfl
    have hsys2 : (PromptEngine.compile (rules.set i ⟨(rules.get ⟨i, hi⟩).id, inst2⟩)
        stv orig heading jurisdiction dep).systemPrompt =
        baseSystemInstructions ++
        ((if optTruthy jurisdiction then jurisdictionPart (jurisdiction.getD []) else []) ++
         (("\nApplicable transformation rules:\n".toList ++
            (joinNl ((rules.set i ⟨(rules.get ⟨i, hi⟩).id, inst2⟩).map ruleFragment) ++
              "\n".toList)) ++
          auditInstruction)) := by
      show baseSystemInstructions ++
        ((if optTruthy jurisdiction then jurisdictionPart (jurisdiction.getD []) else []) ++
         ((if !(joinNl ((rules.set i ⟨(rules.get ⟨i, hi⟩).id, inst2⟩).map
              ruleFragment)).isEmpty then
            "\nApplicable transformation rules:\n".toList ++
              (joinNl ((rules.set i ⟨(rules.get ⟨i, hi⟩).id, inst2⟩).map ruleFragment) ++
                "\n".toList)
           else
            "\nNo specific transformation rules apply. Preserve original intent.\n".toList) ++
          auditInstruction)) = _
      cases hE : (joinNl ((rules.set i ⟨(rules.get ⟨i, hi⟩).id, inst2⟩).map
          ruleFragment)).isEmpty with
      | true => exact absurd (List.isEmpty_iff.mp hE) hfrne2
      | false => rfl
    rw [hsys1, hsys2] at heq
    have hs := hashInput_inj_system _ _ _ _ heq
    have h6 := List.append_cancel_left hs
    have h7 := List.append_cancel_left h6
    have h8 := List.append_cancel_right h7
    have h9 := List.append_cancel_left h8
    have h10 := List.append_cancel_right h9
    rw [List.map_set] at h10
    have him2 : i < (rules.map ruleFragment).length := by
      rw [List.length_map]
      exact hi
    have h11 := joinNl_set_inj (rules.map ruleFragment) i him2 _ h10
    rw [List.get_map] at h11
    have h13 : ruleFragment ⟨(rules.get ⟨i, hi⟩).id, inst2⟩ =
        ruleFragment ⟨(rules.get ⟨i, hi⟩).id, (rules.get ⟨i, hi⟩).instruction⟩ := h11
    exact hne (ruleFragment_inj_instruction _ _ _ h13)

/-- Witness for C2: replacing the single rule's instruction changes the
canonical-JSON SHA-256 input of the compiled prompt. -/
theorem claim_C2_witness :
    hashInput
      (PromptEngine.compile [⟨"r1".toList, "Keep defined terms.".toList⟩]
        "clause".toList "Text.".toList none none none).systemPrompt
      (PromptEngine.compile [⟨"r1".toList, "Keep defined terms.".toList⟩]
        "clause".toList "Text.".toList none none none).userPrompt
      (PromptEngine.compile [⟨"r1".toList, "Keep defined terms.".toList⟩]
        "clause".toList "Text.".toList none none none).appliedRuleIds ≠
    hashInput
      (PromptEngine.compile [⟨"r1".toList, "Use plain language.".toList⟩]
        "clause".toList "Text.".toList none none none).systemPrompt
      (PromptEngine.compile [⟨"r1".toList, "Use plain language.".toList⟩]
        "clause".toList "Text.".toList none none none).userPrompt
      (PromptEngine.compile [⟨"r1".toList, "Use plain language.".toList⟩]
        "clause".toList "Text.".toList none none none).appliedRuleIds :=
  (claim_C2_prompt_hash [⟨"r1".toList, "Use plain language.".toList⟩]
    "clause".toList "Text.".toList none none none).2.2.2 0 (by decide)
    "Keep defined terms.".toList (by decide)

/-! ### Risk analyzer lemmas (C6) -/

theorem setDiff_self {α : Type} [DecidableEq α] (l : List α) : setDiff l l = [] := by
  unfold setDiff
  rw [List.filter_eq_nil_iff]
  intro a ha
  simp [ha]

theorem sum_pos_of_mem :
    ∀ (l : List ℚ) (x : ℚ), x ∈ l → (∀ y ∈ l, 0 ≤ y) → 0 < x → 0 < l.sum := by
  intro l
  induction l with
  | nil => intro x hx; simp at hx
  | cons a as ih =>
      intro x hx hnn hxp
      rw [List.sum_cons]
      rcases List.mem_cons.mp hx with h1 | h1
      · have hs : 0 ≤ as.sum :=
          List.sum_nonneg (fun y hy => hnn y (List.mem_cons_of_mem _ hy))
        rw [h1] at hxp
        linarith
      · have ha : 0 ≤ a := hnn a (List.mem_cons_self _ _)
        have hs := ih x h1 (fun y hy => hnn y (List.mem_cons_of_mem _ hy)) hxp
        linarith

theorem tokenize_nil : tokenize ([] : Str) = [] := rfl

theorem tfMagSq_pos (t : Str) (h : tokenize t ≠ []) :
    0 < tfMagSq (tokenize t) (tokenize t) (tokenize t) := by
  obtain ⟨w0, ws, hw⟩ := List.exists_cons_of_ne_nil h
  have hmem : w0 ∈ vocab (tokenize t) (tokenize t) := by
    unfold vocab
    rw [List.mem_dedup, List.mem_append]
    exact Or.inl (by rw [hw]; exact List.mem_cons_self _ _)
  have hlen : 0 < (tokenize t).length := by
    rw [hw]
    exact Nat.succ_pos _
  have hcnt : 0 < (tokenize t).count w0 := by
    rw [List.count_pos_iff]
    rw [hw]
    exact List.mem_cons_self _ _
  have htf : 0 < tf (tokenize t) w0 := by
    unfold tf
    apply div_pos
    · exact_mod_cast hcnt
    · exact_mod_cast hlen
  apply sum_pos_of_mem _ (tf (tokenize t) w0 ^ 2)
  · exact List.mem_map_of_mem _ hmem
  · intro y hy
    rcases List.mem_map.mp hy with ⟨w, _, hwy⟩
    rw [← hwy]
    exact sq_nonneg _
  · exact pow_pos htf 2

theorem tfDot_self (t : Str) :
    tfDot (tokenize t) (tokenize t) =
      tfMagSq (tokenize t) (tokenize t) (tokenize t) := by
  unfold tfDot tfMagSq
  congr 1
  apply List.map_congr_left
  intro w _
  rw [pow_two]

theorem round4_one : round4 (1 : ℝ) = 1 := by
  unfold round4
  have h1 : ((1 : ℝ) * 10000) = ((10000 : ℤ) : ℝ) := by norm_num
  rw [h1, round_intCast]
  norm_num

theorem tfidf_self (t : Str) (h : tokenize t ≠ []) : tfidfSimilarity t t = 1 := by
  have hms := tfMagSq_pos t h
  have hmsR : (0 : ℝ) < ((tfMagSq (tokenize t) (tokenize t) (tokenize t) : ℚ) : ℝ) := by
    exact_mod_cast hms
  have hsq : Real.sqrt ((tfMagSq (tokenize t) (tokenize t) (tokenize t) : ℚ) : ℝ) ≠ 0 := by
    intro h0
    rw [Real.sqrt_eq_zero (le_of_lt hmsR)] at h0
    exact absurd h0 (ne_of_gt hmsR)
  show (if tokenize t = [] ∨ tokenize t = [] then (0 : ℝ)
    else
      if Real.sqrt ((tfMagSq (tokenize t) (tokenize t) (tokenize t) : ℚ) : ℝ) = 0 ∨
          Real.sqrt ((tfMagSq (tokenize t) (tokenize t) (tokenize t) : ℚ) : ℝ) = 0 then
        (0 : ℝ)
      else
        round4 (min 1 (((tfDot (tokenize t) (tokenize t) : ℚ) : ℝ) /
          (Real.sqrt ((tfMagSq (tokenize t) (tokenize t) (tokenize t) : ℚ) : ℝ) *
           Real.sqrt ((tfMagSq (tokenize t) (tokenize t) (tokenize t) : ℚ) : ℝ))))) = 1
  rw [if_neg (by intro hc; rcases hc with hc | hc <;> exact h hc)]
  rw [if_neg (by intro hc; rcases hc with hc | hc <;> exact hsq hc)]
  rw [Real.mul_self_sqrt (le_of_lt hmsR), tfDot_self]
  rw [div_self (ne_of_gt hmsR)]
  rw [min_self]
  exact round4_one

theorem length_ratio_one (t : Str) (h : t ≠ []) :
    ((t.length : ℝ) / (t.length : ℝ)) = 1 := by
  apply div_self
  have : 0 < t.length := List.length_pos.mpr h
  exact_mod_cast Nat.pos_iff_ne_zero.mp this

theorem analyze_self (t : Str) (h : tokenize t ≠ []) :
    RiskAnalyzer.analyze t t = [] := by
  have htne : t ≠ [] := by
    intro h0
    rw [h0] at h
    exact h tokenize_nil
  have hnum : checkNumericDrift t t = [] := by
    show ((if setDiff (findNumbers t) (findNumbers t) ≠ [] then
        [(⟨RiskSeverity.critical, "numeric_drift".toList, 1⟩ : RiskFinding)] else []) ++
      (if setDiff (findNumbers t) (findNumbers t) ≠ [] then
        [(⟨RiskSeverity.high, "numeric_drift".toList, 0.8⟩ : RiskFinding)] else [])) = []
    rw [if_neg (by rw [setDiff_self]; exact fun hc => hc rfl),
      if_neg (by rw [setDiff_self]; exact fun hc => hc rfl)]
    rfl
  have hdate : checkDateDrift t t = [] := by
    show (if setDiff (findDates t) (findDates t) ++
        setDiff (findDates t) (findDates t) ≠ [] then
        [(⟨RiskSeverity.critical, "date_drift".toList, 1⟩ : RiskFinding)] else []) = []
    rw [if_neg (by rw [setDiff_self]; exact fun hc => hc rfl)]
  have hparty : checkPartyChanges t t = [] := by
    show (if setDiff (findParties t) (findParties t) ≠ [] then
        [(⟨RiskSeverity.critical, "party_change".toList, 1⟩ : RiskFinding)] else []) = []
    rw [if_neg (by rw [setDiff_self]; exact fun hc => hc rfl)]
  have hsem : checkSemanticDeviation t t = [] := by
    show (if (1 - tfidfSimilarity t t : ℝ) > 0.6 then
        [(⟨RiskSeverity.high, "semantic_deviation".toList, 1 - tfidfSimilarity t t⟩ : RiskFinding)]
      else if (1 - tfidfSimilarity t t : ℝ) > 0.35 then
        [(⟨RiskSeverity.medium, "semantic_deviation".toList, 1 - tfidfSimilarity t t⟩ : RiskFinding)]
      else []) = []
    rw [tfidf_self t h]
    rw [if_neg (by norm_num), if_neg (by norm_num)]
  have hlen : checkLengthAnomaly t t = [] := by
    show (if t = [] then ([] : List RiskFinding)
      else
        if ((t.length : ℝ) / (t.length : ℝ)) < 0.3 then
          [(⟨RiskSeverity.high, "length_anomaly".toList,
            1 - (t.length : ℝ) / (t.length : ℝ)⟩ : RiskFinding)]
        else if ((t.length : ℝ) / (t.length : ℝ)) > 3 then
          [(⟨RiskSeverity.medium, "length_anomaly".toList,
            min 1 (((t.length : ℝ) / (t.length : ℝ) - 1) / 3)⟩ : RiskFinding)]
        else []) = []
    rw [if_neg htne, length_ratio_one t htne]
    rw [if_neg (by norm_num), if_neg (by norm_num)]
  show checkNumericDrift t t ++ (checkDateDrift t t ++ (checkPartyChanges t t ++
    (checkSemanticDeviation t t ++ checkLengthAnomaly t t))) = []
  rw [hnum, hdate, hparty, hsem, hlen]
  rfl

/-- C6 (amended): on the sample pair — original
`Pay USD 50,000 by 1 March 2025`, rewritten
`Pay the agreed sum by the deadline` — the analyzer emits a CRITICAL
numeric-drift finding and a CRITICAL date-drift finding; and for every
text whose tokenization is nonempty, analyzing identical original and
rewritten text produces zero findings (for token-free texts the
similarity early-return produces a spurious semantic finding instead,
see the counterexample). -/
theorem claim_C6_risk_thresholds :
    ((⟨RiskSeverity.critical, "numeric_drift".toList, 1⟩ : RiskFinding) ∈
      RiskAnalyzer.analyze "Pay USD 50,000 by 1 March 2025".toList
        "Pay the agreed sum by the deadline".toList)
    ∧ ((⟨RiskSeverity.critical, "date_drift".toList, 1⟩ : RiskFinding) ∈
      RiskAnalyzer.analyze "Pay USD 50,000 by 1 March 2025".toList
        "Pay the agreed sum by the deadline".toList)
    ∧ (∀ t : Str, tokenize t ≠ [] → RiskAnalyzer.analyze t t = []) := by
  have han : RiskAnalyzer.analyze "Pay USD 50,000 by 1 March 2025".toList
      "Pay the agreed sum by the deadline".toList =
      checkNumericDrift "Pay USD 50,000 by 1 March 2025".toList
        "Pay the agreed sum by the deadline".toList ++
      (checkDateDrift "Pay USD 50,000 by 1 March 2025".toList
        "Pay the agreed sum by the deadline".toList ++
      (checkPartyChanges "Pay USD 50,000 by 1 March 2025".toList
        "Pay the agreed sum by the deadline".toList ++
      (checkSemanticDeviation "Pay USD 50,000 by 1 March 2025".toList
        "Pay the agreed sum by the deadline".toList ++
      checkLengthAnomaly "Pay USD 50,000 by 1 March 2025".toList
        "Pay the agreed sum by the deadline".toList))) := rfl
  have hnum : checkNumericDrift "Pay USD 50,000 by 1 March 2025".toList
      "Pay the agreed sum by the deadline".toList =
      [(⟨RiskSeverity.critical, "numeric_drift".toList, 1⟩ : RiskFinding)] := by
    show ((if setDiff (findNumbers "Pay USD 50,000 by 1 March 2025".toList)
          (findNumbers "Pay the agreed sum by the deadline".toList) ≠ [] then
        [(⟨RiskSeverity.critical, "numeric_drift".toList, 1⟩ : RiskFinding)] else []) ++
      (if setDiff (findNumbers "Pay the agreed sum by the deadline".toList)
          (findNumbers "Pay USD 50,000 by 1 March 2025".toList) ≠ [] then
        [(⟨RiskSeverity.high, "numeric_drift".toList, 0.8⟩ : RiskFinding)] else [])) = _
    rw [if_pos (by decide), if_neg (by decide)]
    rfl
  have hdate : checkDateDrift "Pay USD 50,000 by 1 March 2025".toList
      "Pay the agreed sum by the deadline".toList =
      [(⟨RiskSeverity.critical, "date_drift".toList, 1⟩ : RiskFinding)] := by
    show (if setDiff (findDates "Pay USD 50,000 by 1 March 2025".toList)
          (findDates "Pay the agreed sum by the deadline".toList) ++
        setDiff (findDates "Pay the agreed sum by the deadline".toList)
          (findDates "Pay USD 50,000 by 1 March 2025".toList) ≠ [] then
        [(⟨RiskSeverity.critical, "date_drift".toList, 1⟩ : RiskFinding)] else []) = _
    rw [if_pos (by decide)]
  refine ⟨?_, ?_, fun t ht => analyze_self t ht⟩
  · rw [han, hnum]
    exact List.mem_append_left _ (List.mem_singleton_self _)
  · rw [han, hdate]
    exact List.mem_append_right _
      (List.mem_append_left _ (List.mem_singleton_self _))

/-- Counterexample for C6 as stated: analyzing the empty text against
itself yields a HIGH semantic-deviation finding (the similarity helper
early-returns 0.0 when a token list is empty), so identical texts do
not always produce zero findings. -/
theorem claim_C6_counterexample : RiskAnalyzer.analyze [] [] ≠ [] := by
  intro hcontra
  have hsim : tfidfSimilarity [] [] = 0 := by
    show (if tokenize ([] : Str) = [] ∨ tokenize ([] : Str) = [] then (0 : ℝ)
      else
        if Real.sqrt ((tfMagSq (tokenize ([] : Str)) (tokenize ([] : Str))
              (tokenize ([] : Str)) : ℚ) : ℝ) = 0 ∨
            Real.sqrt ((tfMagSq (tokenize ([] : Str)) (tokenize ([] : Str))
              (tokenize ([] : Str)) : ℚ) : ℝ) = 0 then
          (0 : ℝ)
        else
          round4 (min 1 (((tfDot (tokenize ([] : Str)) (tokenize ([] : Str)) : ℚ) : ℝ) /
            (Real.sqrt ((tfMagSq (tokenize ([] : Str)) (tokenize ([] : Str))
              (tokenize ([] : Str)) : ℚ) : ℝ) *
             Real.sqrt ((tfMagSq (tokenize ([] : Str)) (tokenize ([] : Str))
              (tokenize ([] : Str)) : ℚ) : ℝ))))) = 0
    rw [if_pos (Or.inl tokenize_nil)]
  have hsem : checkSemanticDeviation [] [] =
      [(⟨RiskSeverity.high, "semantic_deviation".toList,
        1 - tfidfSimilarity [] []⟩ : RiskFinding)] := by
    show (if (1 - tfidfSimilarity [] [] : ℝ) > 0.6 then
        [(⟨RiskSeverity.high, "semantic_deviation".toList,
          1 - tfidfSimilarity [] []⟩ : RiskFinding)]
      else if (1 - tfidfSimilarity [] [] : ℝ) > 0.35 then
        [(⟨RiskSeverity.medium, "semantic_deviation".toList,
          1 - tfidfSimilarity [] []⟩ : RiskFinding)]
      else []) = _
    rw [if_pos (by rw [hsim]; norm_num)]
  have hparts : checkNumericDrift [] [] ++ (checkDateDrift [] [] ++
      (checkPartyChanges [] [] ++ (checkSemanticDeviation [] [] ++
      checkLengthAnomaly [] []))) = [] := hcontra
  rw [hsem] at hparts
  rcases List.append_eq_nil.mp hparts with ⟨_, h2⟩
  rcases List.append_eq_nil.mp h2 with ⟨_, h4⟩
  rcases List.append_eq_nil.mp h4 with ⟨_, h6⟩
  rcases List.append_eq_nil.mp h6 with ⟨h7, _⟩
  exact List.cons_ne_nil _ _ h7

/-- Witness for C6: the one-token text `a` satisfies the nonempty-token
hypothesis and analyzes against itself with zero findings. -/
theorem claim_C6_witness :
    tokenize "a".toList ≠ [] ∧ RiskAnalyzer.analyze "a".toList "a".toList = [] :=
  ⟨by decide, claim_C6_risk_thresholds.2.2 "a".toList (by decide)⟩

/-- C5 (amended): in the success path of `_process_rewrite`, after the
token stream completes (all token progress events precede the
response-splitting step), the accumulated text is split by the Prompt
Compiler's `extract_audit_json`, the clean text is stored, token and
duration counters are recorded, the rewrite's status is set to COMPLETED
and flushed, and only then does the Risk Analyzer run synchronously —
before the COMPLETED progress event is emitted.  (The code sets COMPLETED
*before* running the Risk Analyzer, not after; see the counterexample.) -/
theorem claim_C5_rewrite_completion_order (tokens : List Str) (total completed : ℕ)
    (rec : RewriteRecord) (evs : List OrchEvent)
    (h : processRewrite true tokens StreamEndKind.finished total completed = (rec, evs)) :
    rec.status = RewriteStatus.completed
    ∧ rec.rewrittenText = some (extractClean tokens.flatten)
    ∧ rec.tokensCompletion = some tokens.length
    ∧ (∀ t, OrchEvent.yieldUpdate RewriteStatus.running (some t) none completed total ∈ evs →
        List.indexOf
            (OrchEvent.yieldUpdate RewriteStatus.running (some t) none completed total) evs
          < List.indexOf OrchEvent.splitResponse evs)
    ∧ List.indexOf OrchEvent.splitResponse evs < List.indexOf OrchEvent.storeResult evs
    ∧ List.indexOf OrchEvent.storeResult evs < List.indexOf OrchEvent.recordCounters evs
    ∧ List.indexOf OrchEvent.recordCounters evs
        < List.indexOf (OrchEvent.setStatus RewriteStatus.completed) evs
    ∧ List.indexOf (OrchEvent.setStatus RewriteStatus.completed) evs
        < List.indexOf OrchEvent.riskAnalyze evs
    ∧ List.indexOf OrchEvent.riskAnalyze evs
        < List.indexOf
            (OrchEvent.yieldUpdate RewriteStatus.completed none none (completed + 1) total)
            evs := by
  have h' : ((⟨RewriteStatus.completed, some (extractClean tokens.flatten),
        some tokens.length, none⟩ : RewriteRecord),
      ([OrchEvent.setStatus RewriteStatus.running, OrchEvent.flush,
        OrchEvent.yieldUpdate RewriteStatus.running none none completed total,
        OrchEvent.compilePrompt, OrchEvent.storePromptData, OrchEvent.flush] ++
       tokens.map (fun t =>
         OrchEvent.yieldUpdate RewriteStatus.running (some t) none completed total)) ++
      [OrchEvent.splitResponse, OrchEvent.storeResult, OrchEvent.recordCounters,
       OrchEvent.setStatus RewriteStatus.completed, OrchEvent.flush,
       OrchEvent.riskAnalyze,
       OrchEvent.yieldUpdate RewriteStatus.completed none none (completed + 1) total])
      = (rec, evs) := h
  injection h' with h1 h2
  subst h1
  subst h2
  refine ⟨rfl, rfl, rfl, ?_, ?_, ?_, ?_, ?_, ?_⟩
  all_goals
    set P : List OrchEvent :=
      [OrchEvent.setStatus RewriteStatus.running, OrchEvent.flush,
        OrchEvent.yieldUpdate RewriteStatus.running none none completed total,
        OrchEvent.compilePrompt, OrchEvent.storePromptData, OrchEvent.flush] ++
       tokens.map (fun t =>
         OrchEvent.yieldUpdate RewriteStatus.running (some t) none completed total)
      with hPdef
  · intro t ht
    have hne_s : OrchEvent.yieldUpdate RewriteStatus.running (some t) none completed total ∉
        [OrchEvent.splitResponse, OrchEvent.storeResult, OrchEvent.recordCounters,
         OrchEvent.setStatus RewriteStatus.completed, OrchEvent.flush,
         OrchEvent.riskAnalyze,
         OrchEvent.yieldUpdate RewriteStatus.completed none none (completed + 1) total] := by
      simp
    have hmemP : OrchEvent.yieldUpdate RewriteStatus.running (some t) none completed total ∈ P := by
      rcases List.mem_append.mp ht with hm | hm
      · exact hm
      · exact absurd hm hne_s
    rw [List.indexOf_append_of_mem hmemP,
      List.indexOf_append_of_not_mem (a := OrchEvent.splitResponse) (by rw [hPdef]; simp),
      List.indexOf_cons_self]
    have := List.indexOf_lt_length.mpr hmemP
    omega
  · rw [List.indexOf_append_of_not_mem (a := OrchEvent.splitResponse) (by rw [hPdef]; simp),
      List.indexOf_append_of_not_mem (a := OrchEvent.storeResult) (by rw [hPdef]; simp),
      List.indexOf_cons_self,
      List.indexOf_cons_ne _ (by simp), List.indexOf_cons_self]
    omega
  · rw [List.indexOf_append_of_not_mem (a := OrchEvent.storeResult) (by rw [hPdef]; simp),
      List.indexOf_append_of_not_mem (a := OrchEvent.recordCounters) (by rw [hPdef]; simp),
      List.indexOf_cons_ne _ (by simp), List.indexOf_cons_self,
      List.indexOf_cons_ne _ (by simp), List.indexOf_cons_ne _ (by simp),
      List.indexOf_cons_self]
    omega
  · rw [List.indexOf_append_of_not_mem (a := OrchEvent.recordCounters) (by rw [hPdef]; simp),
      List.indexOf_append_of_not_mem
        (a := OrchEvent.setStatus RewriteStatus.completed) (by rw [hPdef]; simp),
      List.indexOf_cons_ne _ (by simp), List.indexOf_cons_ne _ (by simp),
      List.indexOf_cons_self,
      List.indexOf_cons_ne _ (by simp), List.indexOf_cons_ne _ (by simp),
      List.indexOf_cons_ne _ (by simp), List.indexOf_cons_self]
    omega
  · rw [List.indexOf_append_of_not_mem
        (a := OrchEvent.setStatus RewriteStatus.completed) (by rw [hPdef]; simp),
      List.indexOf_append_of_not_mem (a := OrchEvent.riskAnalyze) (by rw [hPdef]; simp),
      List.indexOf_cons_ne _ (by simp), List.indexOf_cons_ne _ (by simp),
      List.indexOf_cons_ne _ (by simp), List.indexOf_cons_self,
      List.indexOf_cons_ne _ (by simp), List.indexOf_cons_ne _ (by simp),
      List.indexOf_cons_ne _ (by simp), List.indexOf_cons_ne _ (by simp),
      List.indexOf_cons_ne _ (by simp), List.indexOf_cons_self]
    omega
  · rw [List.indexOf_append_of_not_mem (a := OrchEvent.riskAnalyze) (by rw [hPdef]; simp),
      List.indexOf_append_of_not_mem
        (a := OrchEvent.yieldUpdate RewriteStatus.completed none none (completed + 1) total)
        (by rw [hPdef]; simp),
      List.indexOf_cons_ne _ (by simp), List.indexOf_cons_ne _ (by simp),
      List.indexOf_cons_ne _ (by simp), List.indexOf_cons_ne _ (by simp),
      List.indexOf_cons_ne _ (by simp), List.indexOf_cons_self,
      List.indexOf_cons_ne _ (by simp), List.indexOf_cons_ne _ (by simp),
      List.indexOf_cons_ne _ (by simp), List.indexOf_cons_ne _ (by simp),
      List.indexOf_cons_ne _ (by simp), List.indexOf_cons_ne _ (by simp),
      List.indexOf_cons_self]
    omega

/-- Witness for C5: a one-token stream; the token progress event precedes
the response-splitting step, and the full ordering conclusion holds. -/
theorem claim_C5_witness :
    List.indexOf
        (OrchEvent.yieldUpdate RewriteStatus.running (some ['h']) none 0 1)
        (processRewrite true [['h']] StreamEndKind.finished 1 0).2
      < List.indexOf OrchEvent.splitResponse
        (processRewrite true [['h']] StreamEndKind.finished 1 0).2 :=
  ((claim_C5_rewrite_completion_order [['h']] 1 0
      (processRewrite true [['h']] StreamEndKind.finished 1 0).1
      (processRewrite true [['h']] StreamEndKind.finished 1 0).2
      rfl).2.2.2.1) ['h'] (by decide)

/-- C5 counterexample to the claim as stated ("the Risk Analyzer runs
synchronously before the rewrite's status is set to COMPLETED"): on a
concrete one-token stream, the `riskAnalyze` action comes strictly after
the `setStatus COMPLETED` action in the trace of `_process_rewrite`. -/
theorem claim_C5_counterexample :
    ¬ (List.indexOf OrchEvent.riskAnalyze
          (processRewrite true [['h', 'i']] StreamEndKind.finished 1 0).2
        < List.indexOf (OrchEvent.setStatus RewriteStatus.completed)
          (processRewrite true [['h', 'i']] StreamEndKind.finished 1 0).2) := by
  decide

/-- Witness for C8: `max_retries = 2`, every attempt failing with message
"e": the run raises ServiceUnavailable with the last cause, after sleeping
1 s then 2 s, having recorded three circuit failures. -/
theorem claim_C8_witness :
    complete 2 (fun _ => AttemptOutcome.transientError ['e']) (fun _ => (0 : ℚ))
        (CircuitBreaker.init 10 5) 0 =
      ⟨ClientResult.errUnavailable ['e'],
       (List.range' 1 2).map (fun a => 2 ^ (a - 1)),
       CircuitBreaker.failSeq ((CircuitBreaker.init 10 5).allowRequest 0).2
         ((List.range' 1 3).map (fun _ => (0 : ℚ)))⟩ :=
  ((claim_C8_retry_policy 2 (CircuitBreaker.init 10 5) 0 (fun _ => 0) (fun _ => ['e'])
      (by simp [CircuitBreaker.init, CircuitBreaker.allowRequest,
        CircuitBreaker.observeState])).1
    (fun _ => AttemptOutcome.transientError ['e']) (fun _ => rfl)).1


/-! ## C3 — the diff engine: matcher, opcodes, reconstruction, JSON -/

/-! ### Diff lemmas (C3): tokenizer, slices and block chains -/

theorem joinStr_append (x y : List Str) : joinStr (x ++ y) = joinStr x ++ joinStr y :=
  List.flatten_append x y

theorem wtGo_join : ∀ (fuel : ℕ) (s : Str), s.length < fuel →
    joinStr (wtGo fuel s) = s := by
  intro fuel
  induction fuel with
  | zero => intro s hs; omega
  | succ fuel ih =>
      intro s hs
      show joinStr (match s.dropWhile (fun c => ¬pyWS c) with
        | [] => [s.takeWhile (fun c => ¬pyWS c)]
        | _ :: _ => s.takeWhile (fun c => ¬pyWS c) ::
            (s.dropWhile (fun c => ¬pyWS c)).takeWhile pyWS ::
            wtGo fuel ((s.dropWhile (fun c => ¬pyWS c)).dropWhile pyWS)) = s
      cases hrest : s.dropWhile (fun c => ¬pyWS c) with
      | nil =>
          show joinStr [s.takeWhile (fun c => ¬pyWS c)] = s
          show s.takeWhile (fun c => ¬pyWS c) ++ [].flatten = s
          rw [List.flatten_nil, List.append_nil]
          conv_rhs => rw [← List.takeWhile_append_dropWhile
            (p := fun c => ¬pyWS c) (l := s)]
          rw [hrest, List.append_nil]
      | cons d rest2 =>
          show joinStr (s.takeWhile (fun c => ¬pyWS c) ::
              (d :: rest2).takeWhile pyWS ::
              wtGo fuel ((d :: rest2).dropWhile pyWS)) = s
          have hd : pyWS d = true := by
            have := dropWhile_head_false (fun c => decide (¬pyWS c)) s d rest2 hrest
            simpa using this
          have hlen1 : (d :: rest2).length ≤ s.length := by
            rw [← hrest]
            exact (List.dropWhile_suffix _).length_le
          have hlen2 : ((d :: rest2).dropWhile pyWS).length < (d :: rest2).length := by
            show ((d :: rest2).dropWhile pyWS).length < (d :: rest2).length
            have : (d :: rest2).dropWhile pyWS = rest2.dropWhile pyWS := by
              rw [List.dropWhile_cons, if_pos hd]
            rw [this, List.length_cons]
            have := (List.dropWhile_suffix (l := rest2) pyWS).length_le
            omega
          have hjoin := ih ((d :: rest2).dropWhile pyWS) (by omega)
          show s.takeWhile (fun c => ¬pyWS c) ++
            ((d :: rest2).takeWhile pyWS ++
              joinStr (wtGo fuel ((d :: rest2).dropWhile pyWS))) = s
          rw [hjoin, List.takeWhile_append_dropWhile]
          conv_rhs => rw [← List.takeWhile_append_dropWhile
            (p := fun c => ¬pyWS c) (l := s)]
          rw [hrest]

theorem wordTokenize_join (s : Str) : joinStr (wordTokenize s) = s :=
  wtGo_join (s.length + 1) s (by omega)

theorem pySlice_append {α : Type} (l : List α) (i m n : ℕ) (h1 : i ≤ m) (h2 : m ≤ n) :
    pySlice l i m ++ pySlice l m n = pySlice l i n := by
  unfold pySlice
  have hn : n - i = (m - i) + (n - m) := by omega
  rw [hn, List.take_add]
  congr 1
  rw [List.drop_drop]
  congr 2
  omega

theorem pySlice_self {α : Type} (l : List α) (i : ℕ) : pySlice l i i = [] := by
  unfold pySlice
  rw [Nat.sub_self]
  rfl

theorem pySlice_full {α : Type} (l : List α) : pySlice l 0 l.length = l := by
  unfold pySlice
  rw [List.drop_zero, Nat.sub_zero, List.take_length]

/-! #### Bounds of `find_longest_match` -/

theorem flmProcJ_bound (alo ahi blo bhi i : ℕ) (hialo : alo ≤ i) (hiahi : i < ahi)
    (j2old : ℕ → ℕ) (hold : ∀ j2, j2old j2 ≤ i - alo ∧ j2old j2 ≤ j2 + 1 - blo)
    (st : (ℕ × ℕ × ℕ) × (ℕ → ℕ)) (j : ℕ) (hj : blo ≤ j) (hj2 : j < bhi)
    (hb : alo ≤ st.1.1 ∧ st.1.1 + st.1.2.2 ≤ ahi ∧ blo ≤ st.1.2.1 ∧
      st.1.2.1 + st.1.2.2 ≤ bhi)
    (hm : ∀ j2, st.2 j2 ≤ i + 1 - alo ∧ st.2 j2 ≤ j2 + 1 - blo) :
    (alo ≤ (flmProcJ i j2old st j).1.1 ∧
      (flmProcJ i j2old st j).1.1 + (flmProcJ i j2old st j).1.2.2 ≤ ahi ∧
      blo ≤ (flmProcJ i j2old st j).1.2.1 ∧
      (flmProcJ i j2old st j).1.2.1 + (flmProcJ i j2old st j).1.2.2 ≤ bhi) ∧
    (∀ j2, (flmProcJ i j2old st j).2 j2 ≤ i + 1 - alo ∧
      (flmProcJ i j2old st j).2 j2 ≤ j2 + 1 - blo) := by
  unfold flmProcJ
  have hk1 : (if j = 0 then 0 else j2old (j - 1)) + 1 ≤ i + 1 - alo := by
    rcases Nat.eq_zero_or_pos j with hj0 | hj0
    · rw [if_pos hj0]
      omega
    · rw [if_neg (by omega)]
      have := (hold (j - 1)).1
      omega
  have hk2 : (if j = 0 then 0 else j2old (j - 1)) + 1 ≤ j + 1 - blo := by
    rcases Nat.eq_zero_or_pos j with hj0 | hj0
    · rw [if_pos hj0]
      omega
    · rw [if_neg (by omega)]
      have := (hold (j - 1)).2
      omega
  by_cases hcmp : (if j = 0 then 0 else j2old (j - 1)) + 1 > st.1.2.2
  · rw [if_pos hcmp]
    dsimp only
    refine ⟨⟨by omega, by omega, by omega, by omega⟩, ?_⟩
    intro j2
    by_cases hjj : j2 = j
    · simp only [hjj, if_pos rfl]
      exact ⟨hk1, hk2⟩
    · simp only [if_neg hjj]
      exact hm j2
  · rw [if_neg hcmp]
    dsimp only
    refine ⟨hb, ?_⟩
    intro j2
    by_cases hjj : j2 = j
    · simp only [hjj, if_pos rfl]
      exact ⟨hk1, hk2⟩
    · simp only [if_neg hjj]
      exact hm j2

theorem flmInner_bound (alo ahi blo bhi i : ℕ) (hialo : alo ≤ i) (hiahi : i < ahi)
    (j2old : ℕ → ℕ) (hold : ∀ j2, j2old j2 ≤ i - alo ∧ j2old j2 ≤ j2 + 1 - blo) :
    ∀ (js : List ℕ) (st : (ℕ × ℕ × ℕ) × (ℕ → ℕ)),
    (∀ j ∈ js, blo ≤ j ∧ j < bhi) →
    (alo ≤ st.1.1 ∧ st.1.1 + st.1.2.2 ≤ ahi ∧ blo ≤ st.1.2.1 ∧
      st.1.2.1 + st.1.2.2 ≤ bhi) →
    (∀ j2, st.2 j2 ≤ i + 1 - alo ∧ st.2 j2 ≤ j2 + 1 - blo) →
    (alo ≤ (js.foldl (flmProcJ i j2old) st).1.1 ∧
      (js.foldl (flmProcJ i j2old) st).1.1 +
        (js.foldl (flmProcJ i j2old) st).1.2.2 ≤ ahi ∧
      blo ≤ (js.foldl (flmProcJ i j2old) st).1.2.1 ∧
      (js.foldl (flmProcJ i j2old) st).1.2.1 +
        (js.foldl (flmProcJ i j2old) st).1.2.2 ≤ bhi) ∧
    (∀ j2, (js.foldl (flmProcJ i j2old) st).2 j2 ≤ i + 1 - alo ∧
      (js.foldl (flmProcJ i j2old) st).2 j2 ≤ j2 + 1 - blo) := by
  intro js
  induction js with
  | nil =>
      intro st _ hb hm
      exact ⟨hb, hm⟩
  | cons j js ih =>
      intro st hjs hb hm
      show (alo ≤ (js.foldl (flmProcJ i j2old) (flmProcJ i j2old st j)).1.1 ∧ _) ∧ _
      have hstep := flmProcJ_bound alo ahi blo bhi i hialo hiahi j2old hold st j
        (hjs j (List.mem_cons_self _ _)).1 (hjs j (List.mem_cons_self _ _)).2 hb hm
      exact ih (flmProcJ i j2old st j)
        (fun j2 hj2 => hjs j2 (List.mem_cons_of_mem _ hj2)) hstep.1 hstep.2

theorem flmOuter_bound (b2j : Str → List ℕ) (a : List Str) (alo ahi blo bhi : ℕ) :
    ∀ (n i0 : ℕ) (st : (ℕ × ℕ × ℕ) × (ℕ → ℕ)),
    alo ≤ i0 → i0 + n ≤ ahi →
    (alo ≤ st.1.1 ∧ st.1.1 + st.1.2.2 ≤ ahi ∧ blo ≤ st.1.2.1 ∧
      st.1.2.1 + st.1.2.2 ≤ bhi) →
    (∀ j2, st.2 j2 ≤ i0 - alo ∧ st.2 j2 ≤ j2 + 1 - blo) →
    (alo ≤ ((List.range' i0 n).foldl (flmOuterStep b2j a blo bhi) st).1.1 ∧
      ((List.range' i0 n).foldl (flmOuterStep b2j a blo bhi) st).1.1 +
        ((List.range' i0 n).foldl (flmOuterStep b2j a blo bhi) st).1.2.2 ≤ ahi ∧
      blo ≤ ((List.range' i0 n).foldl (flmOuterStep b2j a blo bhi) st).1.2.1 ∧
      ((List.range' i0 n).foldl (flmOuterStep b2j a blo bhi) st).1.2.1 +
        ((List.range' i0 n).foldl (flmOuterStep b2j a blo bhi) st).1.2.2 ≤ bhi) := by
  intro n
  induction n with
  | zero =>
      intro i0 st _ _ hb _
      exact hb
  | succ n ih =>
      intro i0 st hi0 hn hb hm
      rw [List.range'_succ]
      show (alo ≤ ((List.range' (i0+1) n).foldl (flmOuterStep b2j a blo bhi)
        (flmOuterStep b2j a blo bhi st i0)).1.1 ∧ _)
      have hjs : ∀ j ∈ ((b2j (a.getD i0 [])).takeWhile (fun j => j < bhi)).filter
          (fun j => blo ≤ j), blo ≤ j ∧ j < bhi := by
        intro j hj
        have h1 := List.of_mem_filter hj
        have h2 := List.mem_of_mem_filter hj
        have h3 := List.mem_takeWhile_imp h2
        constructor
        · exact of_decide_eq_true h1
        · exact of_decide_eq_true h3
      have hstep := flmInner_bound alo ahi blo bhi i0 hi0 (by omega) st.2
        (fun j2 => (hm j2))
        (((b2j (a.getD i0 [])).takeWhile (fun j => j < bhi)).filter
          (fun j => blo ≤ j)) (st.1, fun _ => 0) hjs
        (by exact hb) (by intro j2; constructor <;> simp)
      have hfo : flmOuterStep b2j a blo bhi st i0 =
          ((((b2j (a.getD i0 [])).takeWhile (fun j => j < bhi)).filter
            (fun j => blo ≤ j)).foldl (flmProcJ i0 st.2) (st.1, fun _ => 0)) := rfl
      rw [hfo]
      exact ih (i0 + 1) _ (by omega) (by omega) hstep.1 hstep.2

theorem extendBack_bound (a b : List Str) (alo blo ahi bhi : ℕ) :
    ∀ (fuel : ℕ) (st : ℕ × ℕ × ℕ),
    alo ≤ st.1 → st.1 + st.2.2 ≤ ahi → blo ≤ st.2.1 → st.2.1 + st.2.2 ≤ bhi →
    (alo ≤ (extendBack a b alo blo fuel st).1 ∧
      (extendBack a b alo blo fuel st).1 + (extendBack a b alo blo fuel st).2.2 ≤ ahi ∧
      blo ≤ (extendBack a b alo blo fuel st).2.1 ∧
      (extendBack a b alo blo fuel st).2.1 + (extendBack a b alo blo fuel st).2.2 ≤ bhi) := by
  intro fuel
  induction fuel with
  | zero =>
      intro st h1 h2 h3 h4
      exact ⟨h1, h2, h3, h4⟩
  | succ fuel ih =>
      intro st h1 h2 h3 h4
      obtain ⟨bi, bj, bs⟩ := st
      have hstep : extendBack a b alo blo (fuel + 1) (bi, bj, bs) =
          (if alo < bi ∧ blo < bj ∧ a.getD (bi - 1) [] = b.getD (bj - 1) []
           then extendBack a b alo blo fuel (bi - 1, bj - 1, bs + 1)
           else (bi, bj, bs)) := rfl
      rw [hstep]
      simp only at h1 h2 h3 h4
      by_cases hc : alo < bi ∧ blo < bj ∧ a.getD (bi - 1) [] = b.getD (bj - 1) []
      · rw [if_pos hc]
        have := ih (bi - 1, bj - 1, bs + 1) (by simp only; omega)
          (by simp only; omega) (by simp only; omega) (by simp only; omega)
        exact this
      · rw [if_neg hc]
        exact ⟨h1, h2, h3, h4⟩

theorem extendFwd_bound (a b : List Str) (alo blo ahi bhi : ℕ) :
    ∀ (fuel : ℕ) (st : ℕ × ℕ × ℕ),
    alo ≤ st.1 → st.1 + st.2.2 ≤ ahi → blo ≤ st.2.1 → st.2.1 + st.2.2 ≤ bhi →
    (alo ≤ (extendFwd a b ahi bhi fuel st).1 ∧
      (extendFwd a b ahi bhi fuel st).1 + (extendFwd a b ahi bhi fuel st).2.2 ≤ ahi ∧
      blo ≤ (extendFwd a b ahi bhi fuel st).2.1 ∧
      (extendFwd a b ahi bhi fuel st).2.1 + (extendFwd a b ahi bhi fuel st).2.2 ≤ bhi) := by
  intro fuel
  induction fuel with
  | zero =>
      intro st h1 h2 h3 h4
      exact ⟨h1, h2, h3, h4⟩
  | succ fuel ih =>
      intro st h1 h2 h3 h4
      obtain ⟨bi, bj, bs⟩ := st
      have hstep : extendFwd a b ahi bhi (fuel + 1) (bi, bj, bs) =
          (if bi + bs < ahi ∧ bj + bs < bhi ∧
            a.getD (bi + bs) [] = b.getD (bj + bs) []
           then extendFwd a b ahi bhi fuel (bi, bj, bs + 1)
           else (bi, bj, bs)) := rfl
      rw [hstep]
      simp only at h1 h2 h3 h4
      by_cases hc : bi + bs < ahi ∧ bj + bs < bhi ∧
          a.getD (bi + bs) [] = b.getD (bj + bs) []
      · rw [if_pos hc]
        have := ih (bi, bj, bs + 1) (by simp only; omega)
          (by simp only; omega) (by simp only; omega) (by simp only; omega)
        exact this
      · rw [if_neg hc]
        exact ⟨h1, h2, h3, h4⟩

theorem flm_bounds (a b : List Str) (alo ahi blo bhi : ℕ)
    (h1 : alo ≤ ahi) (h2 : blo ≤ bhi) :
    alo ≤ (findLongestMatch a b alo ahi blo bhi).1 ∧
    (findLongestMatch a b alo ahi blo bhi).1 +
      (findLongestMatch a b alo ahi blo bhi).2.2 ≤ ahi ∧
    blo ≤ (findLongestMatch a b alo ahi blo bhi).2.1 ∧
    (findLongestMatch a b alo ahi blo bhi).2.1 +
      (findLongestMatch a b alo ahi blo bhi).2.2 ≤ bhi := by
  have hdp := flmOuter_bound (b2jList b) a alo ahi blo bhi
    (ahi - alo) alo ((alo, blo, 0), fun _ => 0) (le_refl alo) (by omega)
    (by refine ⟨le_refl _, ?_, le_refl _, ?_⟩ <;> simp <;> omega)
    (by intro j2; constructor <;> simp)
  have hback := extendBack_bound a b alo blo ahi bhi
    (((List.range' alo (ahi - alo)).foldl
      (flmOuterStep (b2jList b) a blo bhi) ((alo, blo, 0), fun _ => 0)).1.1)
    (((List.range' alo (ahi - alo)).foldl
      (flmOuterStep (b2jList b) a blo bhi) ((alo, blo, 0), fun _ => 0)).1)
    hdp.1 hdp.2.1 hdp.2.2.1 hdp.2.2.2
  exact extendFwd_bound a b alo blo ahi bhi ahi _ hback.1 hback.2.1
    hback.2.2.1 hback.2.2.2
/-! #### Chain structure of the matching blocks -/

theorem bchain_mono : ∀ (L : List (ℕ × ℕ × ℕ)) (lo1 lo2 hi1 hi2 lo1' lo2' hi1' hi2' : ℕ),
    BChain lo1 lo2 hi1 hi2 L → lo1' ≤ lo1 → lo2' ≤ lo2 → hi1 ≤ hi1' → hi2 ≤ hi2' →
    BChain lo1' lo2' hi1' hi2' L := by
  intro L
  induction L with
  | nil => intro _ _ _ _ _ _ _ _ _ _ _ _ _; exact BChain.nil _ _ _ _
  | cons x rest ih =>
      intro lo1 lo2 hi1 hi2 lo1' lo2' hi1' hi2' h h1 h2 h3 h4
      cases h with
      | cons _ _ _ _ ai bj k _ ha hb hk hahi hbhi hrest =>
          exact BChain.cons _ _ _ _ ai bj k rest (by omega) (by omega) hk
            (by omega) (by omega)
            (ih (ai + k) (bj + k) hi1 hi2 (ai + k) (bj + k) hi1' hi2' hrest
              (le_refl _) (le_refl _) h3 h4)

theorem bchain_append : ∀ (L1 L2 : List (ℕ × ℕ × ℕ)) (lo1 lo2 m1 m2 hi1 hi2 : ℕ),
    BChain lo1 lo2 m1 m2 L1 → BChain m1 m2 hi1 hi2 L2 →
    lo1 ≤ m1 → lo2 ≤ m2 → m1 ≤ hi1 → m2 ≤ hi2 →
    BChain lo1 lo2 hi1 hi2 (L1 ++ L2) := by
  intro L1
  induction L1 with
  | nil =>
      intro L2 lo1 lo2 m1 m2 hi1 hi2 _ h2 hl1 hl2 _ _
      rw [List.nil_append]
      exact bchain_mono L2 m1 m2 hi1 hi2 lo1 lo2 hi1 hi2 h2 hl1 hl2
        (le_refl _) (le_refl _)
  | cons x rest ih =>
      intro L2 lo1 lo2 m1 m2 hi1 hi2 h1 h2 hl1 hl2 hm1 hm2
      cases h1 with
      | cons _ _ _ _ ai bj k _ ha hb hk hahi hbhi hrest =>
          rw [List.cons_append]
          exact BChain.cons _ _ _ _ ai bj k (rest ++ L2) ha hb hk (by omega)
            (by omega)
            (ih L2 (ai + k) (bj + k) m1 m2 hi1 hi2 hrest h2 hahi hbhi hm1 hm2)

theorem blocks_chain (a b : List Str) :
    ∀ (fuel alo ahi blo bhi : ℕ), alo ≤ ahi → blo ≤ bhi →
    (ahi - alo) + (bhi - blo) < fuel →
    BChain alo blo ahi bhi (matchingBlocksGo a b fuel alo ahi blo bhi) := by
  intro fuel
  induction fuel with
  | zero => intro alo ahi blo bhi _ _ h; omega
  | succ fuel ih =>
      intro alo ahi blo bhi hab hbb hm
      have hbd := flm_bounds a b alo ahi blo bhi hab hbb
      have hstep : matchingBlocksGo a b (fuel + 1) alo ahi blo bhi =
          (if (findLongestMatch a b alo ahi blo bhi).2.2 = 0 then []
           else
            (if alo < (findLongestMatch a b alo ahi blo bhi).1 ∧
                blo < (findLongestMatch a b alo ahi blo bhi).2.1 then
              matchingBlocksGo a b fuel alo (findLongestMatch a b alo ahi blo bhi).1
                blo (findLongestMatch a b alo ahi blo bhi).2.1
             else []) ++
            (findLongestMatch a b alo ahi blo bhi) ::
            (if (findLongestMatch a b alo ahi blo bhi).1 +
                  (findLongestMatch a b alo ahi blo bhi).2.2 < ahi ∧
                (findLongestMatch a b alo ahi blo bhi).2.1 +
                  (findLongestMatch a b alo ahi blo bhi).2.2 < bhi then
              matchingBlocksGo a b fuel
                ((findLongestMatch a b alo ahi blo bhi).1 +
                  (findLongestMatch a b alo ahi blo bhi).2.2) ahi
                ((findLongestMatch a b alo ahi blo bhi).2.1 +
                  (findLongestMatch a b alo ahi blo bhi).2.2) bhi
             else [])) := rfl
      rw [hstep]
      by_cases hk : (findLongestMatch a b alo ahi blo bhi).2.2 = 0
      · rw [if_pos hk]
        exact BChain.nil _ _ _ _
      · rw [if_neg hk]
        obtain ⟨hb1, hb2, hb3, hb4⟩ := hbd
        have hright : BChain ((findLongestMatch a b alo ahi blo bhi).1 +
            (findLongestMatch a b alo ahi blo bhi).2.2)
            ((findLongestMatch a b alo ahi blo bhi).2.1 +
              (findLongestMatch a b alo ahi blo bhi).2.2) ahi bhi
            (if (findLongestMatch a b alo ahi blo bhi).1 +
                  (findLongestMatch a b alo ahi blo bhi).2.2 < ahi ∧
                (findLongestMatch a b alo ahi blo bhi).2.1 +
                  (findLongestMatch a b alo ahi blo bhi).2.2 < bhi then
              matchingBlocksGo a b fuel
                ((findLongestMatch a b alo ahi blo bhi).1 +
                  (findLongestMatch a b alo ahi blo bhi).2.2) ahi
                ((findLongestMatch a b alo ahi blo bhi).2.1 +
                  (findLongestMatch a b alo ahi blo bhi).2.2) bhi
             else []) := by
          by_cases hg : (findLongestMatch a b alo ahi blo bhi).1 +
              (findLongestMatch a b alo ahi blo bhi).2.2 < ahi ∧
              (findLongestMatch a b alo ahi blo bhi).2.1 +
                (findLongestMatch a b alo ahi blo bhi).2.2 < bhi
          · rw [if_pos hg]
            exact ih _ ahi _ bhi (by omega) (by omega) (by omega)
          · rw [if_neg hg]
            exact BChain.nil _ _ _ _
        have hxr : BChain (findLongestMatch a b alo ahi blo bhi).1
            (findLongestMatch a b alo ahi blo bhi).2.1 ahi bhi
            ((findLongestMatch a b alo ahi blo bhi) ::
              (if (findLongestMatch a b alo ahi blo bhi).1 +
                    (findLongestMatch a b alo ahi blo bhi).2.2 < ahi ∧
                  (findLongestMatch a b alo ahi blo bhi).2.1 +
                    (findLongestMatch a b alo ahi blo bhi).2.2 < bhi then
                matchingBlocksGo a b fuel
                  ((findLongestMatch a b alo ahi blo bhi).1 +
                    (findLongestMatch a b alo ahi blo bhi).2.2) ahi
                  ((findLongestMatch a b alo ahi blo bhi).2.1 +
                    (findLongestMatch a b alo ahi blo bhi).2.2) bhi
               else [])) := by
          have hx : findLongestMatch a b alo ahi blo bhi =
              ((findLongestMatch a b alo ahi blo bhi).1,
               (findLongestMatch a b alo ahi blo bhi).2.1,
               (findLongestMatch a b alo ahi blo bhi).2.2) := rfl
          rw [hx]
          exact BChain.cons _ _ _ _ _ _ _ _ (le_refl _) (le_refl _) (by omega)
            hb2 hb4 hright
        by_cases hg2 : alo < (findLongestMatch a b alo ahi blo bhi).1 ∧
            blo < (findLongestMatch a b alo ahi blo bhi).2.1
        · rw [if_pos hg2]
          have hleft := ih alo (findLongestMatch a b alo ahi blo bhi).1 blo
            (findLongestMatch a b alo ahi blo bhi).2.1 (by omega) (by omega)
            (by omega)
          exact bchain_append _ _ _ _ _ _ _ _ hleft hxr (by omega) (by omega)
            (by omega) (by omega)
        · rw [if_neg hg2]
          rw [List.nil_append]
          exact bchain_mono _ _ _ _ _ _ _ _ _ hxr (by omega) (by omega)
            (le_refl _) (le_refl _)
/-! #### The matcher output survives sorting and collapsing -/

theorem bchain_chain2 : ∀ (L : List (ℕ × ℕ × ℕ)) (lo1 lo2 hi1 hi2 : ℕ),
    BChain lo1 lo2 hi1 hi2 L → List.Chain' (fun x y => blockLe x y = true) L := by
  intro L
  induction L with
  | nil => intro _ _ _ _ _; exact List.chain'_nil
  | cons x rest ih =>
      intro lo1 lo2 hi1 hi2 h
      cases h with
      | cons _ _ _ _ ai bj k _ ha hb hk hahi hbhi hrest =>
          refine List.chain'_cons'.mpr ⟨?_, ih _ _ _ _ hrest⟩
          intro y hy
          cases rest with
          | nil => simp at hy
          | cons z rest2 =>
              cases hrest with
              | cons _ _ _ _ ai2 bj2 k2 _ ha2 hb2 hk2 h4 h5 h6 =>
                  simp only [List.head?_cons, Option.mem_some_iff] at hy
                  rw [← hy]
                  simp only [blockLe, decide_eq_true_eq]
                  omega

theorem sortBlocks_id : ∀ (L : List (ℕ × ℕ × ℕ)),
    List.Chain' (fun x y => blockLe x y = true) L → sortBlocks L = L := by
  intro L
  induction L with
  | nil => intro _; rfl
  | cons x xs ih =>
      intro h
      have hx : sortBlocks (x :: xs) = insertBlock x (sortBlocks xs) := rfl
      rw [hx, ih (List.Chain'.tail h)]
      cases xs with
      | nil => rfl
      | cons y ys =>
          have hle : blockLe x y = true := (List.chain'_cons.mp h).1
          show (if blockLe x y then x :: y :: ys else y :: insertBlock x ys) = _
          rw [if_pos hle]

theorem collapse_chain : ∀ (L : List (ℕ × ℕ × ℕ)) (i1 j1 k1 hi1 hi2 : ℕ),
    BChain (i1 + k1) (j1 + k1) hi1 hi2 L → i1 + k1 ≤ hi1 → j1 + k1 ≤ hi2 →
    BChain i1 j1 hi1 hi2 (collapseGo i1 j1 k1 L) := by
  intro L
  induction L with
  | nil =>
      intro i1 j1 k1 hi1 hi2 _ hb1 hb2
      have hstep : collapseGo i1 j1 k1 [] =
          (if k1 ≠ 0 then [(i1, j1, k1)] else []) := rfl
      rw [hstep]
      by_cases hk : k1 ≠ 0
      · rw [if_pos hk]
        exact BChain.cons _ _ _ _ _ _ _ _ (le_refl _) (le_refl _) (by omega)
          hb1 hb2 (BChain.nil _ _ _ _)
      · rw [if_neg hk]
        exact BChain.nil _ _ _ _
  | cons x rest ih =>
      intro i1 j1 k1 hi1 hi2 h hb1 hb2
      cases h with
      | cons _ _ _ _ i2 j2 k2 _ ha hb hk hahi hbhi hrest =>
          have hstep : collapseGo i1 j1 k1 ((i2, j2, k2) :: rest) =
              (if i1 + k1 = i2 ∧ j1 + k1 = j2 then collapseGo i1 j1 (k1 + k2) rest
               else if k1 ≠ 0 then (i1, j1, k1) :: collapseGo i2 j2 k2 rest
               else collapseGo i2 j2 k2 rest) := rfl
          rw [hstep]
          by_cases he : i1 + k1 = i2 ∧ j1 + k1 = j2
          · rw [if_pos he]
            refine ih i1 j1 (k1 + k2) hi1 hi2 ?_ (by omega) (by omega)
            rw [show i1 + (k1 + k2) = i2 + k2 by omega,
                show j1 + (k1 + k2) = j2 + k2 by omega]
            exact hrest
          · rw [if_neg he]
            have hinner : BChain i2 j2 hi1 hi2 (collapseGo i2 j2 k2 rest) :=
              ih i2 j2 k2 hi1 hi2 hrest hahi hbhi
            by_cases hk1 : k1 ≠ 0
            · rw [if_pos hk1]
              exact BChain.cons _ _ _ _ _ _ _ _ (le_refl _) (le_refl _)
                (by omega) hb1 hb2
                (bchain_mono _ _ _ _ _ _ _ _ _ hinner ha hb (le_refl _)
                  (le_refl _))
            · rw [if_neg hk1]
              exact bchain_mono _ _ _ _ _ _ _ _ _ hinner (by omega) (by omega)
                (le_refl _) (le_refl _)

theorem gmb_chain (a b : List Str) :
    BChain 0 0 a.length b.length
      (collapseGo 0 0 0 (sortBlocks (matchingBlocksGo a b
        (a.length + b.length + 1) 0 a.length 0 b.length))) := by
  have h1 := blocks_chain a b (a.length + b.length + 1) 0 a.length 0 b.length
    (Nat.zero_le _) (Nat.zero_le _) (by omega)
  rw [sortBlocks_id _ (bchain_chain2 _ _ _ _ _ h1)]
  exact collapse_chain _ 0 0 0 _ _ h1 (by omega) (by omega)

/-! #### Opcode tiling reconstructs both slices -/

theorem preOps_a (ta : List Str) (i ai j bj : ℕ) (hia : i ≤ ai) :
    joinStr ((if i < ai ∧ j < bj then
        [(⟨"replace".toList, i, ai, j, bj⟩ : Opcode)]
      else if i < ai then [⟨"delete".toList, i, ai, j, bj⟩]
      else if j < bj then [⟨"insert".toList, i, ai, j, bj⟩]
      else []).map (fun o => joinStr (pySlice ta o.a0 o.a1))) =
    joinStr (pySlice ta i ai) := by
  by_cases h1 : i < ai ∧ j < bj
  · rw [if_pos h1]; simp [joinStr]
  · rw [if_neg h1]
    by_cases h2 : i < ai
    · rw [if_pos h2]; simp [joinStr]
    · rw [if_neg h2]
      have hi : i = ai := by omega
      subst hi
      by_cases h3 : j < bj
      · rw [if_pos h3]; simp [joinStr, pySlice_self]
      · rw [if_neg h3]; simp [joinStr, pySlice_self]

theorem preOps_b (tb : List Str) (i ai j bj : ℕ) (hjb : j ≤ bj) :
    joinStr ((if i < ai ∧ j < bj then
        [(⟨"replace".toList, i, ai, j, bj⟩ : Opcode)]
      else if i < ai then [⟨"delete".toList, i, ai, j, bj⟩]
      else if j < bj then [⟨"insert".toList, i, ai, j, bj⟩]
      else []).map (fun o => joinStr (pySlice tb o.b0 o.b1))) =
    joinStr (pySlice tb j bj) := by
  by_cases h1 : i < ai ∧ j < bj
  · rw [if_pos h1]; simp [joinStr]
  · rw [if_neg h1]
    by_cases h2 : i < ai
    · rw [if_pos h2]; simp [joinStr]
    · rw [if_neg h2]
      by_cases h3 : j < bj
      · rw [if_pos h3]; simp [joinStr]
      · rw [if_neg h3]
        have hj : j = bj := by omega
        subst hj
        simp [joinStr, pySlice_self]

theorem opcodes_recon (ta tb : List Str) :
    ∀ (L : List (ℕ × ℕ × ℕ)) (i j : ℕ),
    BChain i j ta.length tb.length L → i ≤ ta.length → j ≤ tb.length →
    joinStr ((opcodesGo i j (L ++ [(ta.length, tb.length, 0)])).map
        (fun o => joinStr (pySlice ta o.a0 o.a1))) =
      joinStr (pySlice ta i ta.length) ∧
    joinStr ((opcodesGo i j (L ++ [(ta.length, tb.length, 0)])).map
        (fun o => joinStr (pySlice tb o.b0 o.b1))) =
      joinStr (pySlice tb j tb.length) := by
  intro L
  induction L with
  | nil =>
      intro i j _ hia hjb
      rw [List.nil_append]
      have hstep : opcodesGo i j [(ta.length, tb.length, 0)] =
          (if i < ta.length ∧ j < tb.length then
            [(⟨"replace".toList, i, ta.length, j, tb.length⟩ : Opcode)]
           else if i < ta.length then
            [⟨"delete".toList, i, ta.length, j, tb.length⟩]
           else if j < tb.length then
            [⟨"insert".toList, i, ta.length, j, tb.length⟩]
           else []) ++
          (if (0 : ℕ) ≠ 0 then
            [⟨"equal".toList, ta.length, ta.length + 0, tb.length, tb.length + 0⟩]
           else []) ++ opcodesGo (ta.length + 0) (tb.length + 0) [] := rfl
      have hnil : opcodesGo (ta.length + 0) (tb.length + 0) [] = [] := rfl
      rw [hstep, if_neg (by omega : ¬((0 : ℕ) ≠ 0)), hnil, List.append_nil,
        List.append_nil]
      exact ⟨preOps_a ta i ta.length j tb.length hia,
        preOps_b tb i ta.length j tb.length hjb⟩
  | cons x rest ih =>
      intro i j h hia hjb
      cases h with
      | cons _ _ _ _ ai bj k _ ha hb hk hahi hbhi hrest =>
          have hstep : opcodesGo i j (((ai, bj, k) :: rest) ++
              [(ta.length, tb.length, 0)]) =
              (if i < ai ∧ j < bj then
                [(⟨"replace".toList, i, ai, j, bj⟩ : Opcode)]
               else if i < ai then [⟨"delete".toList, i, ai, j, bj⟩]
               else if j < bj then [⟨"insert".toList, i, ai, j, bj⟩]
               else []) ++
              (if k ≠ 0 then [⟨"equal".toList, ai, ai + k, bj, bj + k⟩]
               else []) ++
              opcodesGo (ai + k) (bj + k) (rest ++ [(ta.length, tb.length, 0)]) :=
            rfl
          obtain ⟨iha, ihb⟩ := ih (ai + k) (bj + k) hrest hahi hbhi
          have heqa : joinStr ((if k ≠ 0 then
              [(⟨"equal".toList, ai, ai + k, bj, bj + k⟩ : Opcode)]
             else []).map (fun o => joinStr (pySlice ta o.a0 o.a1))) =
              joinStr (pySlice ta ai (ai + k)) := by
            rw [if_pos (by omega : k ≠ 0)]; simp [joinStr]
          have heqb : joinStr ((if k ≠ 0 then
              [(⟨"equal".toList, ai, ai + k, bj, bj + k⟩ : Opcode)]
             else []).map (fun o => joinStr (pySlice tb o.b0 o.b1))) =
              joinStr (pySlice tb bj (bj + k)) := by
            rw [if_pos (by omega : k ≠ 0)]; simp [joinStr]
          rw [hstep]
          constructor
          · rw [List.map_append, List.map_append, joinStr_append, joinStr_append,
              preOps_a ta i ai j bj (by omega), heqa, iha,
              ← joinStr_append, pySlice_append ta i ai (ai + k) (by omega)
                (by omega),
              ← joinStr_append, pySlice_append ta i (ai + k) ta.length
                (by omega) (by omega)]
          · rw [List.map_append, List.map_append, joinStr_append, joinStr_append,
              preOps_b tb i ai j bj (by omega), heqb, ihb,
              ← joinStr_append, pySlice_append tb j bj (bj + k) (by omega)
                (by omega),
              ← joinStr_append, pySlice_append tb j (bj + k) tb.length
                (by omega) (by omega)]
/-! #### Tags of the emitted opcodes -/

theorem tagNe_replace_insert : ("replace".toList : Str) ≠ "insert".toList := by
  decide

theorem tagNe_replace_delete : ("replace".toList : Str) ≠ "delete".toList := by
  decide

theorem tagNe_delete_insert : ("delete".toList : Str) ≠ "insert".toList := by
  decide

theorem tagNe_insert_delete : ("insert".toList : Str) ≠ "delete".toList := by
  decide

theorem tagNe_equal_insert : ("equal".toList : Str) ≠ "insert".toList := by
  decide

theorem tagNe_equal_delete : ("equal".toList : Str) ≠ "delete".toList := by
  decide

theorem preOps_tags (i ai j bj : ℕ) (hia : i ≤ ai) (hjb : j ≤ bj) :
    ∀ o ∈ (if i < ai ∧ j < bj then
        [(⟨"replace".toList, i, ai, j, bj⟩ : Opcode)]
      else if i < ai then [⟨"delete".toList, i, ai, j, bj⟩]
      else if j < bj then [⟨"insert".toList, i, ai, j, bj⟩]
      else []),
    ((o.tag = "equal".toList ∨ o.tag = "delete".toList ∨
      o.tag = "replace".toList ∨ o.tag = "insert".toList) ∧
     (o.tag = "insert".toList → o.a0 = o.a1) ∧
     (o.tag = "delete".toList → o.b0 = o.b1)) := by
  by_cases h1 : i < ai ∧ j < bj
  · rw [if_pos h1]
    intro o ho
    rw [List.mem_singleton] at ho
    subst ho
    exact ⟨Or.inr (Or.inr (Or.inl rfl)),
      fun hI => absurd hI tagNe_replace_insert,
      fun hI => absurd hI tagNe_replace_delete⟩
  · rw [if_neg h1]
    by_cases h2 : i < ai
    · rw [if_pos h2]
      intro o ho
      rw [List.mem_singleton] at ho
      subst ho
      exact ⟨Or.inr (Or.inl rfl), fun hI => absurd hI tagNe_delete_insert,
        fun _ => show j = bj by omega⟩
    · rw [if_neg h2]
      by_cases h3 : j < bj
      · rw [if_pos h3]
        intro o ho
        rw [List.mem_singleton] at ho
        subst ho
        exact ⟨Or.inr (Or.inr (Or.inr rfl)),
          fun _ => show i = ai by omega,
          fun hI => absurd hI tagNe_insert_delete⟩
      · rw [if_neg h3]
        intro o ho
        exact absurd ho (List.not_mem_nil o)

theorem opcodes_tags (la lb : ℕ) :
    ∀ (L : List (ℕ × ℕ × ℕ)) (i j : ℕ),
    BChain i j la lb L → i ≤ la → j ≤ lb →
    ∀ o ∈ opcodesGo i j (L ++ [(la, lb, 0)]),
    ((o.tag = "equal".toList ∨ o.tag = "delete".toList ∨
      o.tag = "replace".toList ∨ o.tag = "insert".toList) ∧
     (o.tag = "insert".toList → o.a0 = o.a1) ∧
     (o.tag = "delete".toList → o.b0 = o.b1)) := by
  intro L
  induction L with
  | nil =>
      intro i j _ hia hjb
      rw [List.nil_append]
      have hstep : opcodesGo i j [(la, lb, 0)] =
          (if i < la ∧ j < lb then [(⟨"replace".toList, i, la, j, lb⟩ : Opcode)]
           else if i < la then [⟨"delete".toList, i, la, j, lb⟩]
           else if j < lb then [⟨"insert".toList, i, la, j, lb⟩]
           else []) ++
          (if (0 : ℕ) ≠ 0 then [⟨"equal".toList, la, la + 0, lb, lb + 0⟩]
           else []) ++ opcodesGo (la + 0) (lb + 0) [] := rfl
      have hnil : opcodesGo (la + 0) (lb + 0) [] = [] := rfl
      rw [hstep, if_neg (by omega : ¬((0 : ℕ) ≠ 0)), hnil, List.append_nil,
        List.append_nil]
      exact preOps_tags i la j lb hia hjb
  | cons x rest ih =>
      intro i j h hia hjb
      cases h with
      | cons _ _ _ _ ai bj k _ ha hb hk hahi hbhi hrest =>
          have hstep : opcodesGo i j (((ai, bj, k) :: rest) ++ [(la, lb, 0)]) =
              (if i < ai ∧ j < bj then
                [(⟨"replace".toList, i, ai, j, bj⟩ : Opcode)]
               else if i < ai then [⟨"delete".toList, i, ai, j, bj⟩]
               else if j < bj then [⟨"insert".toList, i, ai, j, bj⟩]
               else []) ++
              (if k ≠ 0 then [⟨"equal".toList, ai, ai + k, bj, bj + k⟩]
               else []) ++
              opcodesGo (ai + k) (bj + k) (rest ++ [(la, lb, 0)]) := rfl
          rw [hstep]
          intro o ho
          rcases List.mem_append.mp ho with ho12 | ho3
          · rcases List.mem_append.mp ho12 with ho1 | ho2
            · exact preOps_tags i ai j bj ha hb o ho1
            · rw [if_pos (by omega : k ≠ 0), List.mem_singleton] at ho2
              subst ho2
              exact ⟨Or.inl rfl, fun hI => absurd hI tagNe_equal_insert,
                fun hI => absurd hI tagNe_equal_delete⟩
          · exact ih (ai + k) (bj + k) hrest hahi hbhi o ho3

/-! #### From opcodes to hunks -/

theorem joinStr_filter_map : ∀ (hs : List DiffHunk) (P : DiffHunk → Bool)
    (f : DiffHunk → Str), (∀ h ∈ hs, P h = false → f h = []) →
    joinStr ((hs.filter P).map f) = joinStr (hs.map f) := by
  intro hs
  induction hs with
  | nil => intro _ _ _; rfl
  | cons x xs ih =>
      intro P f hP
      have hc : ∀ (y : Str) (l : List Str), joinStr (y :: l) = y ++ joinStr l :=
        fun y l => rfl
      rw [List.filter_cons]
      by_cases hpx : P x = true
      · rw [if_pos hpx, List.map_cons, List.map_cons, hc, hc,
          ih P f (fun h hm hf => hP h (List.mem_cons_of_mem _ hm) hf)]
      · rw [if_neg hpx, List.map_cons, hc,
          hP x (List.mem_cons_self x xs) (by simpa using hpx),
          List.nil_append,
          ih P f (fun h hm hf => hP h (List.mem_cons_of_mem _ hm) hf)]

theorem enumFrom_snd_mem {α : Type} :
    ∀ (l : List α) (n : ℕ) (p : ℕ × α), p ∈ List.enumFrom n l → p.2 ∈ l := by
  intro l
  induction l with
  | nil => intro n p hp; exact absurd hp (List.not_mem_nil p)
  | cons x xs ih =>
      intro n p hp
      rcases List.mem_cons.mp hp with h | h
      · subst h; exact List.mem_cons_self x xs
      · exact List.mem_cons_of_mem x (ih (n + 1) p h)

theorem enum_map_comp {α β : Type} (l : List α) (g : ℕ × α → β) (f : β → Str)
    (f2 : α → Str) (hf : ∀ p : ℕ × α, f (g p) = f2 p.2) :
    (l.enum.map g).map f = l.map f2 := by
  rw [List.map_map]
  have h1 : l.enum.map (f ∘ g) = l.enum.map (f2 ∘ Prod.snd) :=
    List.map_congr_left (by intro p _; simp only [Function.comp_apply]; exact hf p)
  rw [h1, ← List.map_map, List.enum_map_snd]


set_option maxHeartbeats 1000000 in
theorem hunks_recon (ta tb : List Str) :
    joinStr ((((getOpcodes ta tb).enum.map (fun p =>
        (⟨p.1, p.2.tag, joinStr (pySlice ta p.2.a0 p.2.a1),
          joinStr (pySlice tb p.2.b0 p.2.b1)⟩ : DiffHunk))).filter (fun h =>
        h.operation = "equal".toList ∨ h.operation = "delete".toList ∨
        h.operation = "replace".toList)).map (fun h => h.original)) =
      joinStr ta ∧
    joinStr ((((getOpcodes ta tb).enum.map (fun p =>
        (⟨p.1, p.2.tag, joinStr (pySlice ta p.2.a0 p.2.a1),
          joinStr (pySlice tb p.2.b0 p.2.b1)⟩ : DiffHunk))).filter (fun h =>
        h.operation = "equal".toList ∨ h.operation = "insert".toList ∨
        h.operation = "replace".toList)).map (fun h => h.rewritten)) =
      joinStr tb := by
  have hchain := gmb_chain ta tb
  have hops : getOpcodes ta tb =
      opcodesGo 0 0 ((collapseGo 0 0 0 (sortBlocks (matchingBlocksGo ta tb
        (ta.length + tb.length + 1) 0 ta.length 0 tb.length))) ++
        [(ta.length, tb.length, 0)]) := rfl
  have htags := opcodes_tags ta.length tb.length _ 0 0 hchain (Nat.zero_le _)
    (Nat.zero_le _)
  have hrecon := opcodes_recon ta tb _ 0 0 hchain (Nat.zero_le _) (Nat.zero_le _)
  have hmemops : ∀ p : ℕ × Opcode, p ∈ (getOpcodes ta tb).enum →
      p.2 ∈ opcodesGo 0 0 ((collapseGo 0 0 0 (sortBlocks (matchingBlocksGo ta tb
        (ta.length + tb.length + 1) 0 ta.length 0 tb.length))) ++
        [(ta.length, tb.length, 0)]) := by
    intro p hp
    rw [← hops]
    exact enumFrom_snd_mem _ 0 p hp
  have hPa : ∀ h ∈ (getOpcodes ta tb).enum.map (fun p =>
      (⟨p.1, p.2.tag, joinStr (pySlice ta p.2.a0 p.2.a1),
        joinStr (pySlice tb p.2.b0 p.2.b1)⟩ : DiffHunk)),
      decide (h.operation = "equal".toList ∨ h.operation = "delete".toList ∨
        h.operation = "replace".toList) = false → h.original = [] := by
    intro h hm hf
    rw [List.mem_map] at hm
    obtain ⟨p, hp, hgp⟩ := hm
    obtain ⟨h4, hins, _⟩ := htags p.2 (hmemops p hp)
    rw [← hgp] at hf
    rw [← hgp]
    have hnot : ¬(p.2.tag = "equal".toList ∨ p.2.tag = "delete".toList ∨
        p.2.tag = "replace".toList) := of_decide_eq_false hf
    have htag : p.2.tag = "insert".toList := by tauto
    show joinStr (pySlice ta p.2.a0 p.2.a1) = []
    rw [hins htag, pySlice_self]
    rfl
  have hPb : ∀ h ∈ (getOpcodes ta tb).enum.map (fun p =>
      (⟨p.1, p.2.tag, joinStr (pySlice ta p.2.a0 p.2.a1),
        joinStr (pySlice tb p.2.b0 p.2.b1)⟩ : DiffHunk)),
      decide (h.operation = "equal".toList ∨ h.operation = "insert".toList ∨
        h.operation = "replace".toList) = false → h.rewritten = [] := by
    intro h hm hf
    rw [List.mem_map] at hm
    obtain ⟨p, hp, hgp⟩ := hm
    obtain ⟨h4, _, hdel⟩ := htags p.2 (hmemops p hp)
    rw [← hgp] at hf
    rw [← hgp]
    have hnot : ¬(p.2.tag = "equal".toList ∨ p.2.tag = "insert".toList ∨
        p.2.tag = "replace".toList) := of_decide_eq_false hf
    have htag : p.2.tag = "delete".toList := by tauto
    show joinStr (pySlice tb p.2.b0 p.2.b1) = []
    rw [hdel htag, pySlice_self]
    rfl
  constructor
  · rw [joinStr_filter_map _ _ _ hPa,
      enum_map_comp (getOpcodes ta tb)
        (fun p => (⟨p.1, p.2.tag, joinStr (pySlice ta p.2.a0 p.2.a1),
          joinStr (pySlice tb p.2.b0 p.2.b1)⟩ : DiffHunk))
        DiffHunk.original
        (fun (o : Opcode) => joinStr (pySlice ta o.a0 o.a1))
        (fun p => rfl),
      hops, hrecon.1, pySlice_full]
  · rw [joinStr_filter_map _ _ _ hPb,
      enum_map_comp (getOpcodes ta tb)
        (fun p => (⟨p.1, p.2.tag, joinStr (pySlice ta p.2.a0 p.2.a1),
          joinStr (pySlice tb p.2.b0 p.2.b1)⟩ : DiffHunk))
        DiffHunk.rewritten
        (fun (o : Opcode) => joinStr (pySlice tb o.b0 o.b1))
        (fun p => rfl),
      hops, hrecon.2, pySlice_full]

theorem generate_diff_recon (a b : Str) :
    joinStr (((generate_diff a b).filter (fun h =>
        h.operation = "equal".toList ∨ h.operation = "delete".toList ∨
        h.operation = "replace".toList)).map (fun h => h.original)) = a ∧
    joinStr (((generate_diff a b).filter (fun h =>
        h.operation = "equal".toList ∨ h.operation = "insert".toList ∨
        h.operation = "replace".toList)).map (fun h => h.rewritten)) = b := by
  have hgd : generate_diff a b =
      (getOpcodes (wordTokenize a) (wordTokenize b)).enum.map (fun p =>
        (⟨p.1, p.2.tag,
          joinStr (pySlice (wordTokenize a) p.2.a0 p.2.a1),
          joinStr (pySlice (wordTokenize b) p.2.b0 p.2.b1)⟩ : DiffHunk)) := rfl
  have h := hunks_recon (wordTokenize a) (wordTokenize b)
  rw [hgd]
  rw [wordTokenize_join, wordTokenize_join] at h
  exact h
/-! #### JSON round-trip: literals, numbers -/

theorem csConsume_lit : ∀ (w s : Str), csConsume w (w ++ s) = some s := by
  intro w
  induction w with
  | nil => intro s; rfl
  | cons p ps ih =>
      intro s
      show (if p = p then csConsume ps (ps ++ s) else none) = some s
      rw [if_pos rfl, ih]

theorem digit_char_digit (m : ℕ) (hm : m < 10) :
    isAsciiDigit (Char.ofNat (48 + m)) = true := by
  interval_cases m <;> decide

theorem digit_char_val (m : ℕ) (hm : m < 10) :
    (Char.ofNat (48 + m)).toNat - 48 = m := by
  interval_cases m <;> decide

theorem natDigitsGo_digits : ∀ (fuel n : ℕ), ∀ c ∈ natDigitsGo fuel n,
    isAsciiDigit c = true := by
  intro fuel
  induction fuel with
  | zero => intro n c hc; exact absurd hc (List.not_mem_nil c)
  | succ fuel ih =>
      intro n c hc
      have hstep : natDigitsGo (fuel + 1) n =
          (if n < 10 then [Char.ofNat (48 + n)]
           else natDigitsGo fuel (n / 10) ++ [Char.ofNat (48 + n % 10)]) := rfl
      rw [hstep] at hc
      by_cases hn : n < 10
      · rw [if_pos hn, List.mem_singleton] at hc
        subst hc
        exact digit_char_digit n hn
      · rw [if_neg hn] at hc
        rcases List.mem_append.mp hc with h1 | h2
        · exact ih (n / 10) c h1
        · rw [List.mem_singleton] at h2
          subst h2
          exact digit_char_digit (n % 10) (by omega)

theorem natStr_digits (n : ℕ) : ∀ c ∈ natStr n, isAsciiDigit c = true :=
  natDigitsGo_digits (n + 1) n

theorem natDigitsGo_ne_nil (fuel n : ℕ) : natDigitsGo (fuel + 1) n ≠ [] := by
  have hstep : natDigitsGo (fuel + 1) n =
      (if n < 10 then [Char.ofNat (48 + n)]
       else natDigitsGo fuel (n / 10) ++ [Char.ofNat (48 + n % 10)]) := rfl
  rw [hstep]
  by_cases hn : n < 10
  · rw [if_pos hn]; exact List.cons_ne_nil _ _
  · rw [if_neg hn]
    intro hcon
    rcases List.append_eq_nil.mp hcon with ⟨_, h2⟩
    exact List.cons_ne_nil _ _ h2

theorem natStr_ne_nil (n : ℕ) : natStr n ≠ [] := natDigitsGo_ne_nil n n

theorem digitsVal_single (c : Char) : digitsVal [c] = c.toNat - 48 := by
  simp [digitsVal]

theorem digitsVal_concat (l : Str) (c : Char) :
    digitsVal (l ++ [c]) = digitsVal l * 10 + (c.toNat - 48) := by
  simp [digitsVal, List.foldl_append]

theorem digitsVal_natDigitsGo : ∀ (fuel n : ℕ), n < fuel →
    digitsVal (natDigitsGo fuel n) = n := by
  intro fuel
  induction fuel with
  | zero => intro n hn; omega
  | succ fuel ih =>
      intro n hn
      have hstep : natDigitsGo (fuel + 1) n =
          (if n < 10 then [Char.ofNat (48 + n)]
           else natDigitsGo fuel (n / 10) ++ [Char.ofNat (48 + n % 10)]) := rfl
      rw [hstep]
      by_cases h10 : n < 10
      · rw [if_pos h10, digitsVal_single, digit_char_val n h10]
      · rw [if_neg h10, digitsVal_concat, ih (n / 10) (by omega),
          digit_char_val (n % 10) (by omega)]
        omega

theorem digitsVal_natStr (n : ℕ) : digitsVal (natStr n) = n :=
  digitsVal_natDigitsGo (n + 1) n (by omega)

theorem takeWhile_all_append (p : Char → Bool) : ∀ (l r : Str),
    (∀ c ∈ l, p c = true) →
    (l ++ r).takeWhile p = l ++ r.takeWhile p ∧
    (l ++ r).dropWhile p = r.dropWhile p := by
  intro l
  induction l with
  | nil => intro r _; exact ⟨by rw [List.nil_append, List.nil_append], rfl⟩
  | cons c l2 ih =>
      intro r hall
      have hc : p c = true := hall c (List.mem_cons_self c l2)
      obtain ⟨iht, ihd⟩ := ih r (fun d hd => hall d (List.mem_cons_of_mem c hd))
      constructor
      · rw [List.cons_append, List.takeWhile_cons, hc, List.cons_append, ← iht]
        simp [List.takeWhile_cons, hc]
      · rw [List.cons_append, List.dropWhile_cons, hc]
        simpa using ihd

theorem parseNat_natStr (n : ℕ) (c : Char) (r : Str)
    (hc : isAsciiDigit c = false) :
    parseNat (natStr n ++ (c :: r)) = some (n, c :: r) := by
  have hstep : parseNat (natStr n ++ (c :: r)) =
      (if (natStr n ++ (c :: r)).takeWhile isAsciiDigit = [] then none
       else some (digitsVal ((natStr n ++ (c :: r)).takeWhile isAsciiDigit),
         (natStr n ++ (c :: r)).dropWhile isAsciiDigit)) := rfl
  obtain ⟨ht, hd⟩ := takeWhile_all_append isAsciiDigit (natStr n) (c :: r)
    (natStr_digits n)
  have htc : (c :: r).takeWhile isAsciiDigit = [] := by
    simp [List.takeWhile_cons, hc]
  have hdc : (c :: r).dropWhile isAsciiDigit = c :: r := by
    simp [List.dropWhile_cons, hc]
  rw [hstep, ht, hd, htc, hdc, List.append_nil,
    if_neg (natStr_ne_nil n), digitsVal_natStr]

/-! #### JSON round-trip: string bodies -/

theorem parseStrBody_quote (F : ℕ) (w : Str) :
    parseStrBody (F + 1) ('"' :: w) = some ([], w) := rfl

theorem parseStrBody_escq (F : ℕ) (w : Str) :
    parseStrBody (F + 1) ('\\' :: '"' :: w) =
    (parseStrBody F w).map (fun p => ('"' :: p.1, p.2)) := rfl

theorem parseStrBody_escb (F : ℕ) (w : Str) :
    parseStrBody (F + 1) ('\\' :: '\\' :: w) =
    (parseStrBody F w).map (fun p => ('\\' :: p.1, p.2)) := rfl

theorem parseStrBody_escslash (F : ℕ) (w : Str) :
    parseStrBody (F + 1) ('\\' :: '/' :: w) =
    (parseStrBody F w).map (fun p => ('/' :: p.1, p.2)) := rfl

theorem parseStrBody_escbs (F : ℕ) (w : Str) :
    parseStrBody (F + 1) ('\\' :: 'b' :: w) =
    (parseStrBody F w).map (fun p => ('\x08' :: p.1, p.2)) := rfl

theorem parseStrBody_esct (F : ℕ) (w : Str) :
    parseStrBody (F + 1) ('\\' :: 't' :: w) =
    (parseStrBody F w).map (fun p => ('\t' :: p.1, p.2)) := rfl

theorem parseStrBody_escn (F : ℕ) (w : Str) :
    parseStrBody (F + 1) ('\\' :: 'n' :: w) =
    (parseStrBody F w).map (fun p => ('\n' :: p.1, p.2)) := rfl

theorem parseStrBody_escf (F : ℕ) (w : Str) :
    parseStrBody (F + 1) ('\\' :: 'f' :: w) =
    (parseStrBody F w).map (fun p => ('\x0c' :: p.1, p.2)) := rfl

theorem parseStrBody_escr (F : ℕ) (w : Str) :
    parseStrBody (F + 1) ('\\' :: 'r' :: w) =
    (parseStrBody F w).map (fun p => ('\x0d' :: p.1, p.2)) := rfl

theorem parseStrBody_escu (F : ℕ) (h1 h2 h3 h4 : Char) (w : Str) :
    parseStrBody (F + 1) ('\\' :: 'u' :: h1 :: h2 :: h3 :: h4 :: w) =
    (parseStrBody F w).map (fun p =>
      (Char.ofNat (hexVal h1 * 4096 + hexVal h2 * 256 +
        hexVal h3 * 16 + hexVal h4) :: p.1, p.2)) := rfl

theorem parseStrBody_step (F : ℕ) (c : Char) (w : Str) :
    parseStrBody (F + 1) (c :: w) =
    (if c = '"' then some (([] : Str), w)
     else if c = '\\' then
       match w with
       | '"' :: r => (parseStrBody F r).map (fun p => ('"' :: p.1, p.2))
       | '\\' :: r => (parseStrBody F r).map (fun p => ('\\' :: p.1, p.2))
       | '/' :: r => (parseStrBody F r).map (fun p => ('/' :: p.1, p.2))
       | 'b' :: r => (parseStrBody F r).map (fun p => ('\x08' :: p.1, p.2))
       | 't' :: r => (parseStrBody F r).map (fun p => ('\t' :: p.1, p.2))
       | 'n' :: r => (parseStrBody F r).map (fun p => ('\n' :: p.1, p.2))
       | 'f' :: r => (parseStrBody F r).map (fun p => ('\x0c' :: p.1, p.2))
       | 'r' :: r => (parseStrBody F r).map (fun p => ('\x0d' :: p.1, p.2))
       | 'u' :: h1 :: h2 :: h3 :: h4 :: r =>
           (parseStrBody F r).map (fun p =>
             (Char.ofNat (hexVal h1 * 4096 + hexVal h2 * 256 +
               hexVal h3 * 16 + hexVal h4) :: p.1, p.2))
       | _ => none
     else (parseStrBody F w).map (fun p => (c :: p.1, p.2))) := rfl

theorem parseStrBody_plain (F : ℕ) (c : Char) (w : Str) (h1 : ¬(c = '"'))
    (h2 : ¬(c = '\\')) :
    parseStrBody (F + 1) (c :: w) =
    (parseStrBody F w).map (fun p => (c :: p.1, p.2)) := by
  rw [parseStrBody_step, if_neg h1, if_neg h2]

theorem parseStrBody_rt : ∀ (s : Str) (F : ℕ) (r : Str),
    (escFalse s).length < F →
    parseStrBody F (escFalse s ++ ('"' :: r)) = some (s, r) := by
  intro s
  induction s with
  | nil =>
      intro F r hF
      simp only [escFalse, List.flatMap_nil, List.length_nil] at hF
      obtain ⟨F2, rfl⟩ : ∃ F2, F = F2 + 1 := ⟨F - 1, by omega⟩
      show parseStrBody (F2 + 1) ('"' :: r) = some ([], r)
      exact parseStrBody_quote F2 r
  | cons c s2 ih =>
      intro F r hF
      have hesc : escFalse (c :: s2) = escFalseChar c ++ escFalse s2 := rfl
      have hlen : (escFalseChar c).length + (escFalse s2).length < F := by
        rw [hesc, List.length_append] at hF; exact hF
      rw [hesc, List.append_assoc]
      by_cases hq : c = '"'
      · subst hq
        have hec : escFalseChar '"' = ['\\', '"'] := rfl
        rw [hec] at hlen ⊢
        simp only [List.length_cons, List.length_nil] at hlen
        obtain ⟨F2, rfl⟩ : ∃ F2, F = F2 + 1 := ⟨F - 1, by omega⟩
        rw [List.cons_append, List.singleton_append, parseStrBody_escq F2,
          ih F2 r (by omega)]
        rfl
      · by_cases hb : c = '\\'
        · subst hb
          have hec : escFalseChar '\\' = ['\\', '\\'] := rfl
          rw [hec] at hlen ⊢
          simp only [List.length_cons, List.length_nil] at hlen
          obtain ⟨F2, rfl⟩ : ∃ F2, F = F2 + 1 := ⟨F - 1, by omega⟩
          rw [List.cons_append, List.singleton_append, parseStrBody_escb F2,
            ih F2 r (by omega)]
          rfl
        · by_cases h32 : c.toNat < 32
          · by_cases h8 : c.toNat = 8
            · have hcc : c = '\x08' := by
                rw [← Char.ofNat_toNat c, h8]
              subst hcc
              have hec : escFalseChar '\x08' = ['\\', 'b'] := rfl
              rw [hec] at hlen ⊢
              simp only [List.length_cons, List.length_nil] at hlen
              obtain ⟨F2, rfl⟩ : ∃ F2, F = F2 + 1 := ⟨F - 1, by omega⟩
              rw [List.cons_append, List.singleton_append, parseStrBody_escbs F2,
                ih F2 r (by omega)]
              rfl
            · by_cases h9 : c.toNat = 9
              · have hcc : c = '\t' := by
                  rw [← Char.ofNat_toNat c, h9]
                subst hcc
                have hec : escFalseChar '\t' = ['\\', 't'] := rfl
                rw [hec] at hlen ⊢
                simp only [List.length_cons, List.length_nil] at hlen
                obtain ⟨F2, rfl⟩ : ∃ F2, F = F2 + 1 := ⟨F - 1, by omega⟩
                rw [List.cons_append, List.singleton_append,
                  parseStrBody_esct F2, ih F2 r (by omega)]
                rfl
              · by_cases h10 : c.toNat = 10
                · have hcc : c = '\n' := by
                    rw [← Char.ofNat_toNat c, h10]
                  subst hcc
                  have hec : escFalseChar '\n' = ['\\', 'n'] := rfl
                  rw [hec] at hlen ⊢
                  simp only [List.length_cons, List.length_nil] at hlen
                  obtain ⟨F2, rfl⟩ : ∃ F2, F = F2 + 1 := ⟨F - 1, by omega⟩
                  rw [List.cons_append, List.singleton_append,
                    parseStrBody_escn F2, ih F2 r (by omega)]
                  rfl
                · by_cases h12 : c.toNat = 12
                  · have hcc : c = '\x0c' := by
                      rw [← Char.ofNat_toNat c, h12]
                    subst hcc
                    have hec : escFalseChar '\x0c' = ['\\', 'f'] := rfl
                    rw [hec] at hlen ⊢
                    simp only [List.length_cons, List.length_nil] at hlen
                    obtain ⟨F2, rfl⟩ : ∃ F2, F = F2 + 1 := ⟨F - 1, by omega⟩
                    rw [List.cons_append, List.singleton_append,
                      parseStrBody_escf F2, ih F2 r (by omega)]
                    rfl
                  · by_cases h13 : c.toNat = 13
                    · have hcc : c = '\x0d' := by
                        rw [← Char.ofNat_toNat c, h13]
                      subst hcc
                      have hec : escFalseChar '\x0d' = ['\\', 'r'] := rfl
                      rw [hec] at hlen ⊢
                      simp only [List.length_cons, List.length_nil] at hlen
                      obtain ⟨F2, rfl⟩ : ∃ F2, F = F2 + 1 := ⟨F - 1, by omega⟩
                      rw [List.cons_append, List.singleton_append,
                        parseStrBody_escr F2, ih F2 r (by omega)]
                      rfl
                    · have hec : escFalseChar c =
                          '\\' :: 'u' :: [hexDigit (c.toNat / 4096 % 16),
                            hexDigit (c.toNat / 256 % 16),
                            hexDigit (c.toNat / 16 % 16),
                            hexDigit (c.toNat % 16)] := by
                        unfold escFalseChar
                        rw [if_neg hq, if_neg hb, if_pos h32, if_neg h8,
                          if_neg h9, if_neg h10, if_neg h12, if_neg h13]
                        rfl
                      rw [hec] at hlen ⊢
                      simp only [List.length_cons, List.length_nil] at hlen
                      obtain ⟨F2, rfl⟩ : ∃ F2, F = F2 + 1 := ⟨F - 1, by omega⟩
                      simp only [List.cons_append, List.nil_append]
                      rw [parseStrBody_escu F2, ih F2 r (by omega)]
                      show some (Char.ofNat (hexVal (hexDigit (c.toNat / 4096 % 16)) * 4096 +
                          hexVal (hexDigit (c.toNat / 256 % 16)) * 256 +
                          hexVal (hexDigit (c.toNat / 16 % 16)) * 16 +
                          hexVal (hexDigit (c.toNat % 16))) :: s2, r) = some (c :: s2, r)
                      rw [hex4_decode c.toNat (by omega), Char.ofNat_toNat]
          · have hec : escFalseChar c = [c] := by
              unfold escFalseChar
              rw [if_neg hq, if_neg hb, if_neg h32]
            rw [hec] at hlen ⊢
            simp only [List.length_cons, List.length_nil] at hlen
            obtain ⟨F2, rfl⟩ : ∃ F2, F = F2 + 1 := ⟨F - 1, by omega⟩
            rw [List.singleton_append, parseStrBody_plain F2 c _ hq hb,
              ih F2 r (by omega)]
            rfl

/-! #### JSON round-trip: hunks and documents -/

theorem csConsume_idx (X : Str) :
    csConsume "\x7b\"index\": ".toList
      ('\x7b' :: ("\"index\": ".toList ++ X)) = some X := by
  show (if '\x7b' = '\x7b' then
    csConsume "\"index\": ".toList ("\"index\": ".toList ++ X) else none) = some X
  rw [if_pos rfl, csConsume_lit]

set_option maxHeartbeats 1000000 in
theorem parseHunk_rt (h : DiffHunk) (r : Str) :
    parseHunk (hunkJson h ++ r) = some (h, r) := by
  have hre : hunkJson h ++ r =
      '\x7b' :: ("\"index\": ".toList ++ (natStr h.index ++
        (", \"operation\": \"".toList ++ (escFalse h.operation ++
        ('"' :: (", \"original\": \"".toList ++ (escFalse h.original ++
        ('"' :: (", \"rewritten\": \"".toList ++ (escFalse h.rewritten ++
        ('"' :: '\x7d' :: r))))))))))) := by
    simp only [hunkJson, List.cons_append, List.append_assoc, List.nil_append]
  have hpn : parseNat (natStr h.index ++ (", \"operation\": \"".toList ++
      (escFalse h.operation ++ ('"' :: (", \"original\": \"".toList ++
      (escFalse h.original ++ ('"' :: (", \"rewritten\": \"".toList ++
      (escFalse h.rewritten ++ ('"' :: '\x7d' :: r)))))))))) =
      some (h.index, ", \"operation\": \"".toList ++
      (escFalse h.operation ++ ('"' :: (", \"original\": \"".toList ++
      (escFalse h.original ++ ('"' :: (", \"rewritten\": \"".toList ++
      (escFalse h.rewritten ++ ('"' :: '\x7d' :: r))))))))) := by
    have hsplit : (", \"operation\": \"".toList : Str) ++
        (escFalse h.operation ++ ('"' :: (", \"original\": \"".toList ++
        (escFalse h.original ++ ('"' :: (", \"rewritten\": \"".toList ++
        (escFalse h.rewritten ++ ('"' :: '\x7d' :: r)))))))) =
        ',' :: ((" \"operation\": \"".toList : Str) ++
        (escFalse h.operation ++ ('"' :: (", \"original\": \"".toList ++
        (escFalse h.original ++ ('"' :: (", \"rewritten\": \"".toList ++
        (escFalse h.rewritten ++ ('"' :: '\x7d' :: r))))))))) := rfl
    rw [hsplit, parseNat_natStr h.index ',' _ (by decide), ← hsplit]
  have hop := parseStrBody_rt h.operation
    ((escFalse h.operation ++ ('"' :: (", \"original\": \"".toList ++
      (escFalse h.original ++ ('"' :: (", \"rewritten\": \"".toList ++
      (escFalse h.rewritten ++ ('"' :: '\x7d' :: r)))))))).length)
    (", \"original\": \"".toList ++ (escFalse h.original ++
      ('"' :: (", \"rewritten\": \"".toList ++ (escFalse h.rewritten ++
      ('"' :: '\x7d' :: r))))))
    (by simp [List.length_append])
  have hog := parseStrBody_rt h.original
    ((escFalse h.original ++ ('"' :: (", \"rewritten\": \"".toList ++
      (escFalse h.rewritten ++ ('"' :: '\x7d' :: r))))).length)
    (", \"rewritten\": \"".toList ++ (escFalse h.rewritten ++
      ('"' :: '\x7d' :: r)))
    (by simp [List.length_append])
  have hrw := parseStrBody_rt h.rewritten
    ((escFalse h.rewritten ++ ('"' :: '\x7d' :: r)).length)
    ('\x7d' :: r)
    (by simp [List.length_append])
  rw [hre]
  simp only [parseHunk, csConsume_idx, hpn, csConsume_lit, hop, hog, hrw]

theorem hunksTailJson_len : ∀ t : List DiffHunk,
    t.length < (hunksTailJson t).length := by
  intro t
  induction t with
  | nil => simp [hunksTailJson]
  | cons h t2 ih =>
      have hstep : hunksTailJson (h :: t2) =
          ',' :: ' ' :: (hunkJson h ++ hunksTailJson t2) := rfl
      rw [hstep]
      simp only [List.length_cons, List.length_append]
      omega

theorem parseRest_rt : ∀ (t : List DiffHunk) (F : ℕ), t.length < F →
    parseRest F (hunksTailJson t) = some t := by
  intro t
  induction t with
  | nil =>
      intro F _
      cases F with
      | zero => rfl
      | succ F2 => rfl
  | cons h t2 ih =>
      intro F hF
      obtain ⟨F2, rfl⟩ : ∃ F2, F = F2 + 1 := ⟨F - 1, by omega⟩
      have hstep : parseRest (F2 + 1)
          (',' :: ' ' :: (hunkJson h ++ hunksTailJson t2)) =
          (match parseHunk (hunkJson h ++ hunksTailJson t2) with
           | none => none
           | some (h2, r) => (parseRest F2 r).map (fun hs => h2 :: hs)) := rfl
      show parseRest (F2 + 1)
          (',' :: ' ' :: (hunkJson h ++ hunksTailJson t2)) = some (h :: t2)
      rw [hstep, parseHunk_rt h (hunksTailJson t2)]
      show (parseRest F2 (hunksTailJson t2)).map (fun hs => h :: hs) =
        some (h :: t2)
      rw [ih F2 (by simp at hF; omega)]
      rfl

theorem joinCommaSp_hunks : ∀ (t : List DiffHunk) (h : DiffHunk),
    joinCommaSp ((h :: t).map hunkJson) ++ [']'] =
    hunkJson h ++ hunksTailJson t := by
  intro t
  induction t with
  | nil => intro h; rfl
  | cons h2 t2 ih =>
      intro h
      have hstep : joinCommaSp ((h :: h2 :: t2).map hunkJson) =
          hunkJson h ++ (',' :: ' ' :: joinCommaSp ((h2 :: t2).map hunkJson)) :=
        rfl
      rw [hstep, List.append_assoc,
        show (',' :: ' ' :: joinCommaSp ((h2 :: t2).map hunkJson)) ++ [']'] =
          ',' :: ' ' :: (joinCommaSp ((h2 :: t2).map hunkJson) ++ [']'])
          from rfl,
        ih h2]
      rfl

theorem json_to_diff_rt (hs : List DiffHunk) :
    json_to_diff (diff_to_json hs) = some hs := by
  cases hs with
  | nil => rfl
  | cons h t =>
      have hdj : diff_to_json (h :: t) =
          '[' :: (joinCommaSp ((h :: t).map hunkJson) ++ [']']) := rfl
      rw [hdj, joinCommaSp_hunks t h]
      have hstep : json_to_diff ('[' :: (hunkJson h ++ hunksTailJson t)) =
          (match parseHunk (hunkJson h ++ hunksTailJson t) with
           | none => none
           | some (h2, r) =>
              (parseRest ('[' :: (hunkJson h ++ hunksTailJson t)).length r).map
                (fun hs => h2 :: hs)) := rfl
      rw [hstep, parseHunk_rt h (hunksTailJson t)]
      show (parseRest ('[' :: (hunkJson h ++ hunksTailJson t)).length
        (hunksTailJson t)).map (fun hs => h :: hs) = some (h :: t)
      rw [parseRest_rt t _ (by
        have := hunksTailJson_len t
        simp only [List.length_cons, List.length_append]
        omega)]
      rfl

/-! ## C3 — diff reconstruction and JSON round-trip -/

/-- C3: for every pair of input strings, concatenating the `original`
fields of the equal/delete/replace hunks of `generate_diff` in order
reconstructs the original string exactly, concatenating the `rewritten`
fields of the equal/insert/replace hunks in order reconstructs the
rewritten string exactly, and `json_to_diff` applied to `diff_to_json`
of the generated hunks returns a hunk list equal hunk-for-hunk to the
input. -/
theorem claim_C3_diff_roundtrip (a b : Str) :
    joinStr (((generate_diff a b).filter (fun h =>
        h.operation = "equal".toList ∨ h.operation = "delete".toList ∨
        h.operation = "replace".toList)).map (fun h => h.original)) = a ∧
    joinStr (((generate_diff a b).filter (fun h =>
        h.operation = "equal".toList ∨ h.operation = "insert".toList ∨
        h.operation = "replace".toList)).map (fun h => h.rewritten)) = b ∧
    json_to_diff (diff_to_json (generate_diff a b)) =
      some (generate_diff a b) :=
  ⟨(generate_diff_recon a b).1, (generate_diff_recon a b).2,
    json_to_diff_rt (generate_diff a b)⟩

end FillWise
